import Mathlib

/-!
# The 2048 move-selection engine (`ai.c`)

A shallow embedding of the search core of `ai.c`: the node arena, the frontier
heap, `generatePossibility`, `propagateScore`, `bestAction` and the driver
`get_next_move`, followed by theorems about them.

Conventions of the embedding.

* Pointers to `node_t` are indices into an arena (`List node_t`) that grows by one
  entry per `malloc` in `createNewNode`; `NULL` is `none`.
* `uint32_t` values are natural numbers reduced modulo `2 ^ 32` where the C
  arithmetic can wrap.  The two `int` counters and the `int` depth are natural
  numbers (they start at zero and are only incremented).
* `rand()` is an explicit input: a seed threaded through `addRandom`, and the draw
  `r` consumed by `get_next_move` / `getBestRandomIndex`.
* Undefined behaviour of the C program (division by zero, a read through an
  invalid pointer) is an explicit fault value.
* The drain loop of `get_next_move` takes fuel; the theorems show how much fuel
  is always enough.
-/

namespace Ai2048

/-! ## Constants (`ai.h`) -/

/-- Modelled from the spec: `utils.h` is not among the sources; the board is the
4x4 grid of the spec and `SIZE` is its side (also the base of the node-count
formula in `get_next_move`). -/
def SIZE : Nat := 4

/-- Constant `NUMBER_OF_MOVES` of `ai.h`. -/
def NUMBER_OF_MOVES : Nat := 4

/-- Constant `INITIAL` of `ai.h`. -/
def INITIAL : Nat := 0

/-- Constant `NEXT_LEVEL` of `ai.h`. -/
def NEXT_LEVEL : Nat := 1

/-- Constant `REALLOC_FACTOR` of `ai.h`. -/
def REALLOC_FACTOR : Nat := 2

/-- Constant `DECISION_DEPTH` of `ai.h`. -/
def DECISION_DEPTH : Nat := 1

/-- Constant `CHILD_INSERTION` of `ai.h`. -/
def CHILD_INSERTION : Nat := 1

/-- Range of a `uint32_t`. -/
def U32 : Nat := 2 ^ 32

/-! ## Boards -/

/-- One row of the board: four cells, each the exponent of a tile (0 = empty). -/
structure Row where
  c0 : Nat
  c1 : Nat
  c2 : Nat
  c3 : Nat
  deriving DecidableEq, Repr

/-- The board `uint8_t board[SIZE][SIZE]`. -/
structure Board where
  r0 : Row
  r1 : Row
  r2 : Row
  r3 : Row
  deriving DecidableEq, Repr

/-- Cell `j` of a row (`j < SIZE`). -/
def Row.get (r : Row) (j : Nat) : Nat :=
  match j with
  | 0 => r.c0
  | 1 => r.c1
  | 2 => r.c2
  | _ => r.c3

/-- The cell `board[i][j]` (`i, j < SIZE`). -/
def Board.get (b : Board) (i j : Nat) : Nat :=
  match i with
  | 0 => b.r0.get j
  | 1 => b.r1.get j
  | 2 => b.r2.get j
  | _ => b.r3.get j

/-- The board whose cell `(i, j)` is `f i j`. -/
def Board.ofFn (f : Nat → Nat → Nat) : Board :=
  ⟨⟨f 0 0, f 0 1, f 0 2, f 0 3⟩, ⟨f 1 0, f 1 1, f 1 2, f 1 3⟩,
   ⟨f 2 0, f 2 1, f 2 2, f 2 3⟩, ⟨f 3 0, f 3 1, f 3 2, f 3 3⟩⟩

/-- Function `isEqualBoard` of `ai.c`: the nested loops return `false` at the first cell
that differs and `true` when none does. -/
def isEqualBoard (board1 board2 : Board) : Bool :=
  (List.range SIZE).all fun i =>
    (List.range SIZE).all fun j => board1.get i j == board2.get i j

/-- Function `copyBoard` of `ai.c`: the value written to `duplicate`, cell by cell. -/
def copyBoard (original : Board) : Board :=
  Board.ofFn fun i j => original.get i j

/-- Function `maximumTile` of `ai.c`. -/
def maximumTile (board : Board) : Nat :=
  (List.range SIZE).foldl
    (fun mx i => (List.range SIZE).foldl
      (fun mx2 j => if board.get i j > mx2 then board.get i j else mx2) mx) 0

/-! ## Nodes -/

/-- Modelled from the spec: `node.h` is not among the sources; the four
directions, in the order of the `moves` array of `generatePossibility`. -/
inductive move_t where
  | left
  | right
  | up
  | down
  deriving DecidableEq, Repr

/-- Modelled from the spec: `node.h` is not among the sources; the two propagation
modes. -/
inductive propagation_t where
  | max
  | avg
  deriving DecidableEq, Repr

/-- Modelled from the spec: `node.h` is not among the sources; the integer value of
a direction, `rand() % NUMBER_OF_MOVES` being converted to `move_t` by
`get_next_move`. -/
def move_t.code : move_t → Nat
  | .left => 0
  | .right => 1
  | .up => 2
  | .down => 3

/-- The direction with a given integer value below `NUMBER_OF_MOVES`. -/
def move_t.ofCode (n : Nat) : move_t :=
  match n with
  | 0 => .left
  | 1 => .right
  | 2 => .up
  | _ => .down

/-- Modelled from the spec: `node.h` is not among the sources; the fields of
`node_t` that `ai.c` reads and writes.  `parent` is an arena index. -/
structure node_t where
  priority : Nat
  depth : Nat
  num_childs : Nat
  move : move_t
  board : Board
  parent : Option Nat
  deriving DecidableEq, Repr

/-- Function `createNewNode` of `ai.c`: the contents of the freshly allocated node. -/
def createNewNode (score depth num_childs : Nat) (move : move_t) (board : Board)
    (parent : Option Nat) : node_t :=
  ⟨score, depth, num_childs, move, copyBoard board, parent⟩

/-! ## The board engine (`utils.c`, a collaborator) -/

/-- Modelled from the spec: `utils.c` is not among the sources.  The operations
of the Board Engine of section 6 that `ai.c` calls: the success flag, the board
and the merge points of a directional move, random tile placement (threading the
state of `rand()`), and the count of empty cells. -/
structure BoardEngine where
  moved : Board → move_t → Bool
  slide : Board → move_t → Board
  points : Board → move_t → Nat
  addRandom : Board → Nat → Board × Nat
  countEmpty : Board → Nat

/-- Modelled from the spec: `utils.c` is not among the sources.
`execute_move_t (board, &score, move)`: returns the success flag, the board after
the move and the score after the move; the move's merge points are added to the
`uint32_t` score. -/
def execute_move_t (E : BoardEngine) (board : Board) (score : Nat) (m : move_t) :
    Bool × Board × Nat :=
  (E.moved board m, E.slide board m, (score + E.points board m) % U32)

/-! ## Search state -/

/-- The memory touched by `get_next_move`: the node arena, the frontier heap `h`
(indices of pending nodes, `h.count` being the length), the explored array with its
capacity, the first-ply array `decisionMove` (`indexDecide` being the length), the
two counters and the state of `rand()`. -/
structure SearchState where
  nodes : List node_t
  heap : List Nat
  explored : List Nat
  maximumNode : Nat
  decisionMove : List Nat
  generated : Nat
  expanded : Nat
  seed : Nat
  deriving DecidableEq, Repr

/-- Modelled from the spec: `priority_queue.c` is not among the sources.
`heap_push`: the node joins the pending nodes. -/
def heap_push (h : List Nat) (node : Nat) : List Nat :=
  h ++ [node]

/-- Modelled from the spec: `priority_queue.c` is not among the sources.
`heap_delete`: removes and returns one pending node.  Which one is decided by
`pick` (a position in the pending list, read modulo its length), so that every
ordering and every tie-break is covered; `none` on an empty heap. -/
def heap_delete (pick : SearchState → Nat) (st : SearchState) : Option (Nat × List Nat) :=
  match st.heap with
  | [] => none
  | x :: xs =>
    let k := pick st % (x :: xs).length
    some ((x :: xs).getD k x, (x :: xs).eraseIdx k)

/-- Position of the first entry of greatest priority among `(priority, position)`
candidates. -/
def firstMax : List Nat → Nat → Nat → Nat → Nat
  | [], _, _, bestPos => bestPos
  | p :: ps, pos, best, bestPos =>
    if p > best then firstMax ps (pos + 1) p pos else firstMax ps (pos + 1) best bestPos

/-- Modelled from the spec: `priority_queue.c` is not among the sources.  The
max-ordered choice of section 4.2: a pending node of greatest priority (the first
such in insertion order). -/
def maxPick (st : SearchState) : Nat :=
  firstMax (st.heap.map fun id => ((st.nodes[id]?).map node_t.priority).getD 0) 0 0 0

/-- Function `insertIntoExplored` of `ai.c`: doubles the capacity when the array is full,
then appends the node. -/
def insertIntoExplored (st : SearchState) (node : Nat) : SearchState :=
  let size := if st.explored.length = st.maximumNode then st.maximumNode * REALLOC_FACTOR
    else st.maximumNode
  { st with explored := st.explored ++ [node], maximumNode := size }

/-! ## Score propagation -/

/-- The loop `while (parent -> depth != DECISION_DEPTH) parent = parent -> parent`
of `propagateScore`, started at `id`; `none` when the walk leaves the arena or
reaches a `NULL` parent, or when the fuel runs out. -/
def findDecisionParent : Nat → List node_t → Nat → Option Nat
  | 0, _, _ => none
  | fuel + 1, nodes, id =>
    match nodes[id]? with
    | none => none
    | some n =>
      if n.depth = DECISION_DEPTH then some id
      else match n.parent with
        | none => none
        | some p => findDecisionParent fuel nodes p

/-- Function `propagateScore` of `ai.c` on the arena; `none` is undefined behaviour (an
invalid pointer, or a division by a zero child count). -/
def propagateScore (nodes : List node_t) (node : Nat) (propagation : propagation_t) :
    Option (List node_t) :=
  match nodes[node]? with
  | none => none
  | some n =>
    if n.depth = DECISION_DEPTH then some nodes
    else
      match findDecisionParent (nodes.length + 1) nodes node with
      | none => none
      | some p =>
        match nodes[p]? with
        | none => none
        | some par =>
          let nc := if n.depth ≠ DECISION_DEPTH + NEXT_LEVEL then par.num_childs + 1
            else par.num_childs
          match propagation with
          | .max =>
            let pr := if n.priority > par.priority then n.priority else par.priority
            some (nodes.set p { par with priority := pr, num_childs := nc })
          | .avg =>
            if nc = CHILD_INSERTION then
              some (nodes.set p { par with priority := n.priority, num_childs := nc })
            else if nc = 0 then none
            else
              let pr := ((par.priority * (nc - CHILD_INSERTION) + n.priority) % U32) / nc
              some (nodes.set p { par with priority := pr, num_childs := nc })

/-! ## Expansion -/

/-- One iteration of the `for` loop of `generatePossibility` for direction `m`:
`current` is the node being expanded and `parentScore` its priority read before
the loop. -/
def expandMove (E : BoardEngine) (propagation : propagation_t) (current : Nat)
    (parentScore : Nat) (st : SearchState) (m : move_t) : Option SearchState :=
  match st.nodes[current]? with
  | none => none
  | some cur =>
    let newBoard0 := copyBoard cur.board
    let res := execute_move_t E newBoard0 parentScore m
    let success := res.1
    let score := res.2.2
    let rnd := if success then E.addRandom res.2.1 st.seed else (res.2.1, st.seed)
    let newBoard := rnd.1
    let st1 := { st with generated := st.generated + 1, seed := rnd.2 }
    if !isEqualBoard newBoard cur.board then
      let new := createNewNode ((score + E.countEmpty newBoard) % U32)
        (cur.depth + NEXT_LEVEL) INITIAL m newBoard (some current)
      let newId := st.nodes.length
      let nodes1 := st.nodes ++ [new]
      let decision := if new.depth = DECISION_DEPTH then st.decisionMove ++ [newId]
        else st.decisionMove
      let heap1 := heap_push st.heap newId
      let nodes2 := nodes1.set current { cur with num_childs := cur.num_childs + 1 }
      match propagateScore nodes2 newId propagation with
      | none => none
      | some nodes3 =>
        some { st1 with nodes := nodes3, heap := heap1, decisionMove := decision }
    else some st1

/-- The `for` loop of `generatePossibility` over the remaining directions. -/
def expandMoves (E : BoardEngine) (propagation : propagation_t) (current : Nat)
    (parentScore : Nat) : List move_t → SearchState → Option SearchState
  | [], st => some st
  | m :: ms, st =>
    match expandMove E propagation current parentScore st m with
    | none => none
    | some st1 => expandMoves E propagation current parentScore ms st1

/-- Function `generatePossibility` of `ai.c`. -/
def generatePossibility (E : BoardEngine) (propagation : propagation_t) (current : Nat)
    (st : SearchState) : Option SearchState :=
  match st.nodes[current]? with
  | none => none
  | some cur =>
    expandMoves E propagation current cur.priority
      [move_t.left, move_t.right, move_t.up, move_t.down] st

/-! ## Decision -/

/-- Undefined behaviour reached by the selector. -/
inductive Fault where
  | divisionByZero
  | invalidRead
  deriving DecidableEq, Repr

/-- Function `getMaximum` of `ai.c` over the nodes the array points to. -/
def getMaximum (array : List node_t) : Nat :=
  array.foldl (fun mx n => if n.priority > mx then n.priority else mx) 0

/-- The tie positions collected by the loop of `getBestRandomIndex`
(`randomIndex[0 .. nIndex - 1]`), scanning from position `i`. -/
def tieIndices (max : Nat) : List node_t → Nat → List Nat
  | [], _ => []
  | n :: ns, i => if n.priority = max then i :: tieIndices max ns (i + 1)
      else tieIndices max ns (i + 1)

/-- Function `getBestRandomIndex` of `ai.c`, with `r` the value of `rand()`: the entry
`randomIndex[r % nIndex]`; `r % 0` is a division by zero. -/
def getBestRandomIndex (decisionMove : List node_t) (max : Nat) (r : Nat) :
    Except Fault Nat :=
  let randomIndex := tieIndices max decisionMove 0
  let nIndex := randomIndex.length
  if nIndex = 0 then .error .divisionByZero
  else
    match randomIndex[r % nIndex]? with
    | none => .error .invalidRead
    | some i => .ok i

/-- Function `bestAction` of `ai.c`, with `r` the value of `rand()`. -/
def bestAction (decisionMove : List node_t) (r : Nat) : Except Fault move_t :=
  let max := getMaximum decisionMove
  match getBestRandomIndex decisionMove max r with
  | .error e => .error e
  | .ok bestIndex =>
    match decisionMove[bestIndex]? with
    | none => .error .invalidRead
    | some n => .ok n.move

/-! ## The driver -/

/-- The body of the `while` loop of `get_next_move`. -/
def popStep (E : BoardEngine) (pick : SearchState → Nat) (max_depth : Nat)
    (propagation : propagation_t) (st : SearchState) : Option SearchState :=
  match heap_delete pick st with
  | none => none
  | some (current, rest) =>
    let st1 := { st with heap := rest, expanded := st.expanded + 1 }
    let st2 := insertIntoExplored st1 current
    match st2.nodes[current]? with
    | none => none
    | some cur =>
      if cur.depth < max_depth then generatePossibility E propagation current st2
      else some st2

/-- The loop `while (h.count != 0)` of `get_next_move`; `none` when the fuel runs
out before the heap is empty, or on undefined behaviour. -/
def drain (E : BoardEngine) (pick : SearchState → Nat) (max_depth : Nat)
    (propagation : propagation_t) : Nat → SearchState → Option SearchState
  | fuel, st =>
    if st.heap.length = 0 then some st
    else
      match fuel with
      | 0 => none
      | fuel + 1 =>
        match popStep E pick max_depth propagation st with
        | none => none
        | some st1 => drain E pick max_depth propagation fuel st1

/-- The initial capacity `maximumNode` of the explored array. -/
def initialCapacity (max_depth : Nat) : Nat :=
  SIZE * ((SIZE ^ max_depth - NEXT_LEVEL) / (SIZE - NEXT_LEVEL)) + NEXT_LEVEL

/-- The state of `get_next_move` when the `while` loop is entered: the start node
is the only node and has been pushed on the heap `h`. -/
def initState (board : Board) (max_depth : Nat) (h : List Nat) (generated expanded seed : Nat) :
    SearchState :=
  { nodes := [createNewNode INITIAL INITIAL INITIAL move_t.left board none]
    heap := heap_push h 0
    explored := []
    maximumNode := initialCapacity max_depth
    decisionMove := []
    generated := generated
    expanded := expanded
    seed := seed }

/-- The part of `get_next_move` from the allocation of the start node to the end
of the `while` loop. -/
def search (E : BoardEngine) (pick : SearchState → Nat) (fuel : Nat) (board : Board)
    (max_depth : Nat) (propagation : propagation_t) (h : List Nat)
    (generated expanded seed : Nat) : Option SearchState :=
  drain E pick max_depth propagation fuel (initState board max_depth h generated expanded seed)

/-- What a call of `get_next_move` leaves behind: the selected move (or the fault
the selector ran into), the two counters, the heap, the caller's board and the
nodes released by `freeExplored`. -/
structure Outcome where
  best_action : Except Fault move_t
  generated : Nat
  expanded : Nat
  heap : List Nat
  board : Board
  freed : List Nat

/-- The nodes the entries of `decisionMove` point to. -/
def candidates (st : SearchState) : List node_t :=
  st.decisionMove.filterMap fun id => st.nodes[id]?

/-- Function `get_next_move` of `ai.c`.  `h` is the content of the global heap on entry
(entries left by an earlier call would be dangling; the theorems about the search
take `h = []`),
`generated` and `expanded` the values behind the two counter pointers, `seed` the
state of `rand()` and `r` the value of the one `rand()` call made outside the
board engine. -/
def get_next_move (E : BoardEngine) (pick : SearchState → Nat) (fuel : Nat) (board : Board)
    (max_depth : Nat) (propagation : propagation_t) (h : List Nat)
    (generated expanded seed r : Nat) : Option Outcome :=
  if max_depth = INITIAL then
    some ⟨.ok (move_t.ofCode (r % NUMBER_OF_MOVES)), generated, expanded, h, board, []⟩
  else
    match search E pick fuel board max_depth propagation h generated expanded seed with
    | none => none
    | some st =>
      some ⟨bestAction (candidates st) r, st.generated, st.expanded, st.heap, board,
        st.explored⟩

/-! ## A sample board engine

The sliding and merging rules of the game, used to run the search on concrete
boards. -/

/-- The cells of a row, left to right. -/
def Row.toList (r : Row) : List Nat := [r.c0, r.c1, r.c2, r.c3]

/-- The row with the given cells (missing cells are empty). -/
def Row.ofList (l : List Nat) : Row := ⟨l.getD 0 0, l.getD 1 0, l.getD 2 0, l.getD 3 0⟩

/-- Merging of a packed row towards its head: two equal neighbours become one tile
of the next exponent, each tile merging at most once; also returns the points. -/
def mergeTiles : List Nat → List Nat × Nat
  | a :: b :: rest =>
    if a = b then
      let r := mergeTiles rest
      ((a + 1) :: r.1, 2 ^ (a + 1) + r.2)
    else
      let r := mergeTiles (b :: rest)
      (a :: r.1, r.2)
  | l => (l, 0)

/-- A row slid to the left, with the points earned. -/
def slideRowLeft (r : Row) : Row × Nat :=
  let m := mergeTiles (r.toList.filter fun x => x != 0)
  (Row.ofList m.1, m.2)

/-- A row slid to the right, with the points earned. -/
def slideRowRight (r : Row) : Row × Nat :=
  let m := mergeTiles ((r.toList.filter fun x => x != 0).reverse)
  (Row.ofList ((List.replicate (4 - m.1.length) 0) ++ m.1.reverse), m.2)

/-- The board reflected in its main diagonal. -/
def Board.transpose (b : Board) : Board := Board.ofFn fun i j => b.get j i

/-- A board with all rows slid to the left, with the points earned. -/
def slideLeft (b : Board) : Board × Nat :=
  (⟨(slideRowLeft b.r0).1, (slideRowLeft b.r1).1, (slideRowLeft b.r2).1, (slideRowLeft b.r3).1⟩,
    (slideRowLeft b.r0).2 + (slideRowLeft b.r1).2 + (slideRowLeft b.r2).2 + (slideRowLeft b.r3).2)

/-- A board with all rows slid to the right, with the points earned. -/
def slideRight (b : Board) : Board × Nat :=
  (⟨(slideRowRight b.r0).1, (slideRowRight b.r1).1, (slideRowRight b.r2).1,
      (slideRowRight b.r3).1⟩,
    (slideRowRight b.r0).2 + (slideRowRight b.r1).2 + (slideRowRight b.r2).2
      + (slideRowRight b.r3).2)

/-- The board and the points of a move of the sample engine. -/
def sampleSlide (b : Board) : move_t → Board × Nat
  | .left => slideLeft b
  | .right => slideRight b
  | .up => ((slideLeft b.transpose).1.transpose, (slideLeft b.transpose).2)
  | .down => ((slideRight b.transpose).1.transpose, (slideRight b.transpose).2)

/-- The board with cell `(i, j)` set to `v`. -/
def Board.set (b : Board) (i j v : Nat) : Board :=
  Board.ofFn fun x y => if x = i ∧ y = j then v else b.get x y

/-- The positions of the empty cells, row by row. -/
def emptyCells (b : Board) : List (Nat × Nat) :=
  ((List.range 4).flatMap fun i => (List.range 4).map fun j => (i, j)).filter
    fun p => b.get p.1 p.2 == 0

/-- Random tile placement of the sample engine: an empty cell chosen by the seed
receives a tile of exponent 1 (exponent 2 once in ten); the seed advances. -/
def sampleAddRandom (b : Board) (seed : Nat) : Board × Nat :=
  match emptyCells b with
  | [] => (b, seed)
  | c :: cs =>
    let p := (c :: cs).getD (seed % (c :: cs).length) c
    let v := if (seed / 16) % 10 = 9 then 2 else 1
    (b.set p.1 p.2 v, (seed * 1103515245 + 12345) % 2147483648)

/-- Modelled from the spec: `utils.c` is not among the sources.  A board engine
with the interface of section 6: a move succeeds iff it changes the board, its points
are the values of the merged tiles, a random tile goes to an empty cell, and the
empty cells are counted. -/
def sampleEngine : BoardEngine where
  moved := fun b m => !isEqualBoard (sampleSlide b m).1 b
  slide := fun b m => (sampleSlide b m).1
  points := fun b m => (sampleSlide b m).2
  addRandom := sampleAddRandom
  countEmpty := fun b => (emptyCells b).length

/-- The board of the spec's scenario: empty but for one tile of exponent 1 at
position (0, 0). -/
def cornerBoard : Board :=
  ⟨⟨1, 0, 0, 0⟩, ⟨0, 0, 0, 0⟩, ⟨0, 0, 0, 0⟩, ⟨0, 0, 0, 0⟩⟩

/-- A board that is empty but for one tile of exponent 1 at position (1, 1). -/
def centreBoard : Board :=
  ⟨⟨0, 0, 0, 0⟩, ⟨0, 1, 0, 0⟩, ⟨0, 0, 0, 0⟩, ⟨0, 0, 0, 0⟩⟩

/-- A full board on which no direction changes anything. -/
def stuckBoard : Board :=
  ⟨⟨1, 2, 1, 2⟩, ⟨2, 1, 2, 1⟩, ⟨1, 2, 1, 2⟩, ⟨2, 1, 2, 1⟩⟩

/-! ## Invariants of the search -/

/-- The fields of a node that no code path writes after `createNewNode`. -/
def skel (n : node_t) : Nat × Option Nat × move_t × Board :=
  (n.depth, n.parent, n.move, n.board)

/-- Depth of the node at an arena index (0 outside the arena). -/
def depthOf (nodes : List node_t) (id : Nat) : Nat :=
  ((nodes[id]?).map node_t.depth).getD 0

/-- The arena is a tree of depth at most `d`: the node at index 0 is the only one
without a parent and the only one of depth 0; every other node points to an earlier
node that is one level higher. -/
def NodesOK (d : Nat) (nodes : List node_t) : Prop :=
  ∀ id n, nodes[id]? = some n → n.depth ≤ d ∧
    ((n.parent = none ∧ n.depth = 0 ∧ id = 0) ∨
      ∃ p pn, n.parent = some p ∧ p < id ∧ nodes[p]? = some pn ∧ n.depth = pn.depth + 1)

/-- The loop invariant of `get_next_move` that keeps every pointer valid. -/
def Inv (d : Nat) (st : SearchState) : Prop :=
  NodesOK d st.nodes ∧ ∀ id ∈ st.heap, id < st.nodes.length

/-- The first-ply ancestor of a node: the result of the ancestor walk of
`propagateScore`. -/
def firstPlyAncestor (nodes : List node_t) (id : Nat) : Option Nat :=
  findDecisionParent (nodes.length + 1) nodes id

/-- Number of nodes of a complete 4-ary tree of height `m`:
`1 + 4 + ... + 4 ^ m`. -/
def fullTree : Nat → Nat
  | 0 => 1
  | m + 1 => 1 + 4 * fullTree m

/-- Number of inner nodes of a complete 4-ary tree of height `m`:
`1 + 4 + ... + 4 ^ (m - 1)`. -/
def innerTree : Nat → Nat
  | 0 => 0
  | m + 1 => 1 + 4 * innerTree m

/-- Sum over the pending nodes of a weight `f` of the levels left below each. -/
def heapSum (f : Nat → Nat) (d : Nat) (nodes : List node_t) (heap : List Nat) : Nat :=
  (heap.map fun id => f (d - depthOf nodes id)).sum

/-- Room left below the pending nodes: each pending node of depth `k` may still
bring a complete subtree of height `d - k` into the explored array. -/
def pendingWeight (d : Nat) (st : SearchState) : Nat :=
  heapSum fullTree d st.nodes st.heap

/-- Expansions left below the pending nodes. -/
def pendingInner (d : Nat) (st : SearchState) : Nat :=
  heapSum innerTree d st.nodes st.heap

/-- The four directions in the order of the `moves` array. -/
def allMoves : List move_t := [move_t.left, move_t.right, move_t.up, move_t.down]

/-- The state right after the pop at the top of the loop body: `current` has left
the heap, has been counted as expanded and stored in the explored array. -/
def afterPop (st : SearchState) (current : Nat) (rest : List Nat) : SearchState :=
  insertIntoExplored { st with heap := rest, expanded := st.expanded + 1 } current

/-- The board handed to `isEqualBoard` in `generatePossibility` for direction `m`:
the moved board, with a random tile when the move succeeded. -/
def childBoard (E : BoardEngine) (b : Board) (m : move_t) (seed : Nat) : Board :=
  (if E.moved b m then E.addRandom (E.slide b m) seed else (E.slide b m, seed)).1

/-- The state of `rand()` after direction `m` has been tried. -/
def childSeed (E : BoardEngine) (b : Board) (m : move_t) (seed : Nat) : Nat :=
  (if E.moved b m then E.addRandom (E.slide b m) seed else (E.slide b m, seed)).2

/-- The node `generatePossibility` creates for direction `m` below `cur`. -/
def childNode (E : BoardEngine) (cur : node_t) (current parentScore : Nat) (m : move_t)
    (seed : Nat) : node_t :=
  ⟨((parentScore + E.points cur.board m) % U32 + E.countEmpty (childBoard E cur.board m seed))
      % U32,
    cur.depth + 1, 0, m, childBoard E cur.board m seed, some current⟩

/-- The child count `propagateScore` leaves in the first-ply ancestor `an` of the
new node `n`: incremented unless `n` is a direct child. -/
def newCount (n an : node_t) : Nat :=
  if n.depth ≠ DECISION_DEPTH + NEXT_LEVEL then an.num_childs + 1 else an.num_childs

/-- The priority `propagateScore` leaves in the first-ply ancestor `an` of the new
node `n`. -/
def newPriority (propagation : propagation_t) (n an : node_t) : Nat :=
  match propagation with
  | .max => if n.priority > an.priority then n.priority else an.priority
  | .avg =>
    if newCount n an = CHILD_INSERTION then n.priority
    else ((an.priority * (newCount n an - CHILD_INSERTION) + n.priority) % U32) / newCount n an

/-- A loop invariant `P` of the drain loop together with the invariant `Q` of the
inner `for` loop (about the node being expanded, its priority at the start of the
expansion, the directions still to try, and the state): the pop establishes `Q`
from `P` (or `P` again when the popped node is at the depth bound), each direction
keeps `Q`, and `Q` with no direction left gives `P` back. -/
structure Carried (d : Nat) (E : BoardEngine) (pick : SearchState → Nat)
    (propagation : propagation_t) (P : SearchState → Prop)
    (Q : Nat → Nat → List move_t → SearchState → Prop) : Prop where
  leaf : ∀ (st : SearchState) (cur : Nat) (rest : List Nat) (cn : node_t), Inv d st → P st →
    heap_delete pick st = some (cur, rest) → st.nodes[cur]? = some cn → ¬ cn.depth < d →
    P (afterPop st cur rest)
  exp : ∀ (st : SearchState) (cur : Nat) (rest : List Nat) (cn : node_t), Inv d st → P st →
    heap_delete pick st = some (cur, rest) → st.nodes[cur]? = some cn → cn.depth < d →
    Q cur cn.priority allMoves (afterPop st cur rest)
  move : ∀ (cur ps : Nat) (m : move_t) (ms : List move_t) (st st' : SearchState)
    (cn : node_t), Inv d st → st.nodes[cur]? = some cn → cn.depth < d → Q cur ps (m :: ms) st →
    expandMove E propagation cur ps st m = some st' → Inv d st' → Q cur ps ms st'
  done : ∀ (cur ps : Nat) (st : SearchState), Inv d st → Q cur ps [] st → P st

/-- Number of popped nodes whose depth is below `max_depth` (the nodes that were
handed to `generatePossibility`). -/
def expandedBelow (d : Nat) (st : SearchState) : Nat :=
  st.explored.countP fun id => decide (depthOf st.nodes id < d)

/-- The value score propagation folds into a first-ply node: `old` is the node's
priority, `k` its child count after the new node has been counted and `s` the
priority of the new node. -/
def foldScore (propagation : propagation_t) (old k s : Nat) : Nat :=
  match propagation with
  | .max => if s > old then s else old
  | .avg => if k = CHILD_INSERTION then s else ((old * (k - CHILD_INSERTION) + s) % U32) / k

/-- Node `id` lies in the subtree of the first-ply node `a`, at depth 2 or more:
the ancestor walk of `propagateScore` started at `id` ends in `a`. -/
def IsDescendant (nodes : List node_t) (a id : Nat) : Prop :=
  ∃ n, nodes[id]? = some n ∧ 2 ≤ n.depth ∧ firstPlyAncestor nodes id = some a

/-- The scores of the nodes of depth 2 or more are at most `B` and the arena holds
at most `L` nodes. -/
def AvgBounded (B L : Nat) (nodes : List node_t) : Prop :=
  (∀ (i : Nat) (n : node_t), nodes[i]? = some n → 2 ≤ n.depth → n.priority ≤ B) ∧
    nodes.length ≤ L

/-- What average propagation keeps true of the first-ply node `an` at index `a`:
its child count is below the size of the arena, it is zero only when the subtree is
empty, and otherwise the priority lies between the scores of two nodes of the
subtree. -/
def AvgClause (nodes : List node_t) (a : Nat) (an : node_t) : Prop :=
  an.num_childs < nodes.length ∧
  (an.num_childs = 0 → ∀ id, ¬ IsDescendant nodes a id) ∧
  (0 < an.num_childs → ∃ i1 n1 i2 n2, IsDescendant nodes a i1 ∧ nodes[i1]? = some n1 ∧
    IsDescendant nodes a i2 ∧ nodes[i2]? = some n2 ∧
    n1.priority ≤ an.priority ∧ an.priority ≤ n2.priority)

/-- The invariant of average propagation: `AvgClause` for every node of depth 1. -/
def AvgInv (nodes : List node_t) : Prop :=
  ∀ (a : Nat) (an : node_t), nodes[a]? = some an → an.depth = 1 → AvgClause nodes a an

/-- The positions of the candidates whose score is `max`, in list order. -/
def tiePositions (max : Nat) (cands : List node_t) : List Nat :=
  (List.range cands.length).filter fun i =>
    match cands[i]? with
    | some n => decide (n.priority = max)
    | none => false

/-- The control points of the loops of `get_next_move`, started in state `s0`.
`Reachable … s0 s none` says that `s` is a state at the top of the `while` loop;
`Reachable … s0 s (some (cur, ps, ms))` says that `s` is a state inside
`generatePossibility` expanding `cur`, whose priority was `ps` when the expansion
began, with the directions `ms` still to try. -/
inductive Reachable (E : BoardEngine) (pick : SearchState → Nat) (d : Nat)
    (propagation : propagation_t) (s0 : SearchState) :
    SearchState → Option (Nat × Nat × List move_t) → Prop where
  | start : Reachable E pick d propagation s0 s0 none
  | popLeaf {s : SearchState} {cur : Nat} {rest : List Nat} {cn : node_t} :
    Reachable E pick d propagation s0 s none → heap_delete pick s = some (cur, rest) →
    s.nodes[cur]? = some cn → ¬ cn.depth < d →
    Reachable E pick d propagation s0 (afterPop s cur rest) none
  | popExpand {s : SearchState} {cur : Nat} {rest : List Nat} {cn : node_t} :
    Reachable E pick d propagation s0 s none → heap_delete pick s = some (cur, rest) →
    s.nodes[cur]? = some cn → cn.depth < d →
    Reachable E pick d propagation s0 (afterPop s cur rest) (some (cur, cn.priority, allMoves))
  | move {s s' : SearchState} {cur ps : Nat} {m : move_t} {ms : List move_t} :
    Reachable E pick d propagation s0 s (some (cur, ps, m :: ms)) →
    expandMove E propagation cur ps s m = some s' →
    Reachable E pick d propagation s0 s' (some (cur, ps, ms))
  | done {s : SearchState} {cur ps : Nat} :
    Reachable E pick d propagation s0 s (some (cur, ps, [])) →
    Reachable E pick d propagation s0 s none

/-- Decidable form of `IsDescendant`. -/
def isDescendantB (nodes : List node_t) (a id : Nat) : Bool :=
  match nodes[id]? with
  | some n => decide (2 ≤ n.depth) && decide (firstPlyAncestor nodes id = some a)
  | none => false

/-- Number of nodes of depth 2 or more in the subtree of the first-ply node `a`. -/
def subtreeSize (nodes : List node_t) (a : Nat) : Nat :=
  (List.range nodes.length).countP (isDescendantB nodes a)

/-- Two sums along the path from the root to node `id`, following the parent
pointers (`fuel` bounds the walk): the merge points earned by the moves on the path,
and the empty cells counted on the boards of the nodes of the path below the root. -/
def pathSums (E : BoardEngine) (nodes : List node_t) : Nat → Nat → Nat × Nat
  | 0, _ => (0, 0)
  | fuel + 1, id =>
    match nodes[id]? with
    | none => (0, 0)
    | some n =>
      match n.parent with
      | none => (0, 0)
      | some p =>
        match nodes[p]? with
        | none => (0, 0)
        | some pn =>
          ((pathSums E nodes fuel p).1 + E.points pn.board n.move,
            (pathSums E nodes fuel p).2 + E.countEmpty n.board)

/-- The score the specification describes for node `id`: the game score after the
generating move (the root's score 0 plus the merge points earned on the path from
the root) plus the number of empty cells of the node's own board, as a `uint32_t`. -/
def specScore (E : BoardEngine) (nodes : List node_t) (id : Nat) : Nat :=
  match nodes[id]? with
  | none => 0
  | some n => ((pathSums E nodes (id + 1) id).1 + E.countEmpty n.board) % U32

/-- The score `generatePossibility` computes for node `id`: the merge points earned
on the path from the root plus the empty cells of the boards of every node on that
path below the root (the node's own board and those of its ancestors), as a
`uint32_t`. -/
def creationScore (E : BoardEngine) (nodes : List node_t) (id : Nat) : Nat :=
  ((pathSums E nodes (id + 1) id).1 + (pathSums E nodes (id + 1) id).2) % U32

/-- Every node that has not been popped, and every node whose depth is not 1, holds
the score it was created with. -/
def ScoreInv (E : BoardEngine) (s : SearchState) : Prop :=
  ∀ (i : Nat) (n : node_t), s.nodes[i]? = some n → (n.depth ≠ 1 ∨ i ∉ s.explored) →
    n.priority = creationScore E s.nodes i

/-- The directions of the recorded first-ply candidates, in the order of the
`decisionMove` array. -/
def candMoves (s : SearchState) : List move_t :=
  (candidates s).map node_t.move

/-- The state of `rand()` after the directions `ms` have been tried, in order, on
the board `b` of the node being expanded, starting from `seed`. -/
def seedAfter (E : BoardEngine) (b : Board) : List move_t → Nat → Nat
  | [], seed => seed
  | m :: ms, seed => seedAfter E b ms (childSeed E b m seed)

/-- The children the specification asks of the expansion of the node `cn` at arena
index `current`, whose score was `parentScore` when the expansion began: one child
for each direction of `ms`, in order, whose board (the moved board, with the random
tile when the move succeeded) differs from the board of `cn`; its score is
`parentScore` plus the merge points of the move plus the empty cells of its board,
its depth one more than that of `cn`, it has no child, its move is the direction and
its parent is `current`. -/
def expectedChildren (E : BoardEngine) (cn : node_t) (current parentScore : Nat) :
    List move_t → Nat → List node_t
  | [], _ => []
  | m :: ms, seed =>
    if isEqualBoard (childBoard E cn.board m seed) cn.board then
      expectedChildren E cn current parentScore ms (childSeed E cn.board m seed)
    else
      ⟨((parentScore + E.points cn.board m) % U32
          + E.countEmpty (childBoard E cn.board m seed)) % U32,
        cn.depth + 1, 0, m, childBoard E cn.board m seed, some current⟩
        :: expectedChildren E cn current parentScore ms (childSeed E cn.board m seed)

/-! ## Board arrays in memory

The functions above pass boards as values.  To state which arrays a function
writes, the board-handling code is given a second time over a memory of board
arrays addressed by references, with the mutating functions writing in place. -/

/-- The `uint8_t [SIZE][SIZE]` arrays that exist during a call of `get_next_move`:
the array of the caller (the parameter `board` points to it), the local array
`newBoard` of `generatePossibility`, and the array embedded in the node at an arena
index (`node -> board`). -/
inductive BoardRef where
  | caller
  | newBoard
  | node (id : Nat)
  deriving DecidableEq, Repr

/-- The memory of a call: the search state, whose nodes hold their own arrays, the
array of the caller and the local array `newBoard`. -/
structure Memory where
  st : SearchState
  caller : Board
  newBoard : Board

/-- The contents of the array a reference points to; `none` for a node that has
not been allocated. -/
def Memory.readBoard (mem : Memory) : BoardRef → Option Board
  | .caller => some mem.caller
  | .newBoard => some mem.newBoard
  | .node id => (mem.st.nodes[id]?).map node_t.board

/-- The memory with the array behind a reference replaced by `b` (every other array
and every other field of every node untouched). -/
def Memory.setBoard (mem : Memory) (p : BoardRef) (b : Board) : Memory :=
  match p with
  | .caller => { mem with caller := b }
  | .newBoard => { mem with newBoard := b }
  | .node id =>
    match mem.st.nodes[id]? with
    | none => mem
    | some n => { mem with st := { mem.st with nodes := mem.st.nodes.set id { n with board := b } } }

/-- The read `p[i][j]`. -/
def Memory.readCell (mem : Memory) (p : BoardRef) (i j : Nat) : Option Nat :=
  (mem.readBoard p).map fun b => b.get i j

/-- The write `p[i][j] = v`. -/
def Memory.writeCell (mem : Memory) (p : BoardRef) (i j v : Nat) : Option Memory :=
  (mem.readBoard p).map fun b => mem.setBoard p (b.set i j v)

/-- Function `copyBoard` of `ai.c` on arrays in memory: the nested loops execute
`duplicate[i][j] = original[i][j]` cell by cell. -/
def copyBoardAt (duplicate original : BoardRef) (mem : Memory) : Option Memory :=
  (List.range SIZE).foldlM (fun mem1 i =>
    (List.range SIZE).foldlM (fun mem2 j =>
      match mem2.readCell original i j with
      | none => none
      | some v => mem2.writeCell duplicate i j v) mem1) mem

/-- Function `isEqualBoard` of `ai.c` on arrays in memory: it only reads, and compares
the contents of the two arrays. -/
def isEqualBoardAt (board1 board2 : BoardRef) (mem : Memory) : Option Bool :=
  match mem.readBoard board1, mem.readBoard board2 with
  | some b1, some b2 => some (isEqualBoard b1 b2)
  | _, _ => none

/-- Modelled from the spec: `utils.c` is not among the sources.
`execute_move_t (board, &score, move)` on an array in memory: the array is moved in
place; returns the success flag, the score after the move and the memory. -/
def execute_move_tAt (E : BoardEngine) (board : BoardRef) (score : Nat) (m : move_t)
    (mem : Memory) : Option (Bool × Nat × Memory) :=
  match mem.readBoard board with
  | none => none
  | some b =>
    some ((execute_move_t E b score m).1, (execute_move_t E b score m).2.2,
      mem.setBoard board (execute_move_t E b score m).2.1)

/-- Modelled from the spec: `utils.c` is not among the sources.  `addRandom (board)`
on an array in memory: the tile is placed in place and the state of `rand()`
advances. -/
def addRandomAt (E : BoardEngine) (board : BoardRef) (mem : Memory) : Option Memory :=
  match mem.readBoard board with
  | none => none
  | some b =>
    some { mem.setBoard board (E.addRandom b mem.st.seed).1 with
      st := { (mem.setBoard board (E.addRandom b mem.st.seed).1).st with
        seed := (E.addRandom b mem.st.seed).2 } }

/-- Modelled from the spec: `utils.c` is not among the sources.  `countEmpty (board)`
on an array in memory: it only reads. -/
def countEmptyAt (E : BoardEngine) (board : BoardRef) (mem : Memory) : Option Nat :=
  (mem.readBoard board).map E.countEmpty

/-- Function `createNewNode` of `ai.c` on arrays in memory: the node is allocated at
the end of the arena, with `junk` the contents `malloc` left in its array, its fields
are assigned, and `copyBoard (new -> board, board)` fills its array.  Returns the
new node and the memory. -/
def createNewNodeAt (score depth num_childs : Nat) (move : move_t) (board : BoardRef)
    (parent : Option Nat) (junk : Board) (mem : Memory) : Option (Nat × Memory) :=
  let new := mem.st.nodes.length
  let mem1 := { mem with st := { mem.st with
    nodes := mem.st.nodes ++ [⟨score, depth, num_childs, move, junk, parent⟩] } }
  match copyBoardAt (.node new) board mem1 with
  | none => none
  | some mem2 => some (new, mem2)

/-- One iteration of the `for` loop of `generatePossibility` on arrays in memory;
`junk` gives the contents `malloc` leaves in the array of a node allocated at an
arena index. -/
def expandMoveAt (E : BoardEngine) (propagation : propagation_t) (current : Nat)
    (parentScore : Nat) (junk : Nat → Board) (mem : Memory) (m : move_t) : Option Memory :=
  match mem.st.nodes[current]? with
  | none => none
  | some cur =>
    match copyBoardAt .newBoard (.node current) mem with
    | none => none
    | some mem1 =>
      match execute_move_tAt E .newBoard parentScore m mem1 with
      | none => none
      | some (success, score, mem2) =>
        match (if success then addRandomAt E .newBoard mem2 else some mem2) with
        | none => none
        | some mem3 =>
          let mem4 := { mem3 with st := { mem3.st with generated := mem3.st.generated + 1 } }
          match isEqualBoardAt .newBoard (.node current) mem4 with
          | none => none
          | some true => some mem4
          | some false =>
            match countEmptyAt E .newBoard mem4 with
            | none => none
            | some empties =>
              match createNewNodeAt ((score + empties) % U32) (cur.depth + NEXT_LEVEL) INITIAL m
                  .newBoard (some current) (junk mem4.st.nodes.length) mem4 with
              | none => none
              | some (new, mem5) =>
                let decision :=
                  if cur.depth + NEXT_LEVEL = DECISION_DEPTH then mem5.st.decisionMove ++ [new]
                  else mem5.st.decisionMove
                let heap1 := heap_push mem5.st.heap new
                match mem5.st.nodes[current]? with
                | none => none
                | some cur5 =>
                  let nodes2 := mem5.st.nodes.set current
                    { cur5 with num_childs := cur5.num_childs + 1 }
                  match propagateScore nodes2 new propagation with
                  | none => none
                  | some nodes3 =>
                    some { mem5 with st := { mem5.st with
                      nodes := nodes3, heap := heap1, decisionMove := decision } }

/-- The `for` loop of `generatePossibility` on arrays in memory. -/
def expandMovesAt (E : BoardEngine) (propagation : propagation_t) (current : Nat)
    (parentScore : Nat) (junk : Nat → Board) : List move_t → Memory → Option Memory
  | [], mem => some mem
  | m :: ms, mem =>
    match expandMoveAt E propagation current parentScore junk mem m with
    | none => none
    | some mem1 => expandMovesAt E propagation current parentScore junk ms mem1

/-- Function `generatePossibility` of `ai.c` on arrays in memory. -/
def generatePossibilityAt (E : BoardEngine) (propagation : propagation_t) (current : Nat)
    (junk : Nat → Board) (mem : Memory) : Option Memory :=
  match mem.st.nodes[current]? with
  | none => none
  | some cur =>
    expandMovesAt E propagation current cur.priority junk
      [move_t.left, move_t.right, move_t.up, move_t.down] mem

/-- The body of the `while` loop of `get_next_move` on arrays in memory. -/
def popStepAt (E : BoardEngine) (pick : SearchState → Nat) (max_depth : Nat)
    (propagation : propagation_t) (junk : Nat → Board) (mem : Memory) : Option Memory :=
  match heap_delete pick mem.st with
  | none => none
  | some (current, rest) =>
    let st1 := { mem.st with heap := rest, expanded := mem.st.expanded + 1 }
    let st2 := insertIntoExplored st1 current
    match st2.nodes[current]? with
    | none => none
    | some cur =>
      if cur.depth < max_depth then
        generatePossibilityAt E propagation current junk { mem with st := st2 }
      else some { mem with st := st2 }

/-- The loop `while (h.count != 0)` of `get_next_move` on arrays in memory. -/
def drainAt (E : BoardEngine) (pick : SearchState → Nat) (max_depth : Nat)
    (propagation : propagation_t) (junk : Nat → Board) : Nat → Memory → Option Memory
  | fuel, mem =>
    if mem.st.heap.length = 0 then some mem
    else
      match fuel with
      | 0 => none
      | fuel + 1 =>
        match popStepAt E pick max_depth propagation junk mem with
        | none => none
        | some mem1 => drainAt E pick max_depth propagation junk fuel mem1

/-- Function `get_next_move` of `ai.c` on arrays in memory.  `board` is the contents of
the caller's array and `local0` those of the local array `newBoard` on entry;
the result is the outcome, whose `board` field is the contents of the caller's array
when the function returns, and the final memory. -/
def get_next_moveAt (E : BoardEngine) (pick : SearchState → Nat) (fuel : Nat) (board : Board)
    (max_depth : Nat) (propagation : propagation_t) (h : List Nat)
    (generated expanded seed r : Nat) (local0 : Board) (junk : Nat → Board) :
    Option (Outcome × Memory) :=
  let mem0 : Memory :=
    { st := { nodes := [], heap := h, explored := [],
              maximumNode := initialCapacity max_depth, decisionMove := [],
              generated := generated, expanded := expanded, seed := seed }
      caller := board
      newBoard := local0 }
  if max_depth = INITIAL then
    some (⟨.ok (move_t.ofCode (r % NUMBER_OF_MOVES)), generated, expanded, h, mem0.caller, []⟩,
      mem0)
  else
    match createNewNodeAt INITIAL INITIAL INITIAL move_t.left .caller none (junk 0) mem0 with
    | none => none
    | some (start, mem1) =>
      let mem2 := { mem1 with st := { mem1.st with heap := heap_push mem1.st.heap start } }
      match drainAt E pick max_depth propagation junk fuel mem2 with
      | none => none
      | some mem3 =>
        some (⟨bestAction (candidates mem3.st) r, mem3.st.generated, mem3.st.expanded,
          mem3.st.heap, mem3.caller, mem3.st.explored⟩, mem3)

/-! ## Boards: equality and copies -/

theorem isEqualBoard_iff (a b : Board) : isEqualBoard a b = true ↔ a = b := by
  obtain ⟨⟨a00, a01, a02, a03⟩, ⟨a10, a11, a12, a13⟩, ⟨a20, a21, a22, a23⟩,
    ⟨a30, a31, a32, a33⟩⟩ := a
  obtain ⟨⟨b00, b01, b02, b03⟩, ⟨b10, b11, b12, b13⟩, ⟨b20, b21, b22, b23⟩,
    ⟨b30, b31, b32, b33⟩⟩ := b
  simp [isEqualBoard, SIZE, List.range_succ, Board.get, Row.get]

theorem isEqualBoard_false_iff (a b : Board) : isEqualBoard a b = false ↔ a ≠ b := by
  rw [Ne, ← isEqualBoard_iff]
  cases isEqualBoard a b <;> simp

theorem copyBoard_eq (b : Board) : copyBoard b = b := rfl

/-! ## The selector -/

theorem getMaximum_foldl (l : List node_t) (init : Nat) :
    init ≤ l.foldl (fun mx n => if n.priority > mx then n.priority else mx) init ∧
    (∀ n ∈ l, n.priority ≤ l.foldl (fun mx n => if n.priority > mx then n.priority else mx) init) ∧
    (l.foldl (fun mx n => if n.priority > mx then n.priority else mx) init = init ∨
      ∃ n ∈ l, n.priority = l.foldl (fun mx n => if n.priority > mx then n.priority else mx) init) := by
  induction l generalizing init with
  | nil => simp
  | cons x xs ih =>
    simp only [List.foldl_cons, List.mem_cons, forall_eq_or_imp, exists_eq_or_imp]
    by_cases hx : x.priority > init
    · simp only [if_pos hx]
      obtain ⟨h1, h2, h3⟩ := ih x.priority
      refine ⟨by omega, ⟨h1, h2⟩, ?_⟩
      rcases h3 with h3 | ⟨n, hn, h3⟩
      · right; left; exact h3.symm
      · right; right; exact ⟨n, hn, h3⟩
    · simp only [if_neg hx]
      obtain ⟨h1, h2, h3⟩ := ih init
      refine ⟨h1, ⟨by omega, h2⟩, ?_⟩
      rcases h3 with h3 | ⟨n, hn, h3⟩
      · left; exact h3
      · right; right; exact ⟨n, hn, h3⟩

theorem getMaximum_ge (l : List node_t) : ∀ n ∈ l, n.priority ≤ getMaximum l :=
  (getMaximum_foldl l 0).2.1

theorem getMaximum_attained (l : List node_t) (h : l ≠ []) :
    ∃ n ∈ l, n.priority = getMaximum l := by
  rcases (getMaximum_foldl l 0).2.2 with h0 | h0
  · obtain ⟨x, hx⟩ := List.exists_mem_of_ne_nil l h
    refine ⟨x, hx, ?_⟩
    have := getMaximum_ge l x hx
    unfold getMaximum at this ⊢
    omega
  · exact h0

theorem tieIndices_spec (max : Nat) (l : List node_t) (k i : Nat)
    (h : i ∈ tieIndices max l k) :
    k ≤ i ∧ ∃ n, l[i - k]? = some n ∧ n.priority = max := by
  induction l generalizing k with
  | nil => simp [tieIndices] at h
  | cons x xs ih =>
    unfold tieIndices at h
    split_ifs at h with hx
    · rcases List.mem_cons.1 h with h | h
      · subst h
        exact ⟨le_refl _, x, by simp, hx⟩
      · obtain ⟨h1, n, h2, h3⟩ := ih (k + 1) h
        refine ⟨by omega, n, ?_, h3⟩
        have : i - k = (i - (k + 1)) + 1 := by omega
        rw [this]
        simpa using h2
    · obtain ⟨h1, n, h2, h3⟩ := ih (k + 1) h
      refine ⟨by omega, n, ?_, h3⟩
      have : i - k = (i - (k + 1)) + 1 := by omega
      rw [this]
      simpa using h2

theorem tieIndices_ne_nil (max : Nat) (l : List node_t) (k : Nat)
    (h : ∃ n ∈ l, n.priority = max) : tieIndices max l k ≠ [] := by
  induction l generalizing k with
  | nil => simp at h
  | cons x xs ih =>
    unfold tieIndices
    split_ifs with hx
    · simp
    · obtain ⟨n, hn, hp⟩ := h
      rcases List.mem_cons.1 hn with hn | hn
      · subst hn
        exact absurd hp hx
      · exact ih (k + 1) ⟨n, hn, hp⟩

theorem tieIndices_nil (max k : Nat) : tieIndices max [] k = [] := rfl

theorem getBestRandomIndex_ok (cands : List node_t) (r : Nat) (hne : cands ≠ []) :
    ∃ i n, getBestRandomIndex cands (getMaximum cands) r = .ok i ∧ i < cands.length ∧
      cands[i]? = some n ∧ n.priority = getMaximum cands := by
  have hties := tieIndices_ne_nil (getMaximum cands) cands 0 (getMaximum_attained cands hne)
  have hlen : 0 < (tieIndices (getMaximum cands) cands 0).length :=
    List.length_pos.2 hties
  have hlt : r % (tieIndices (getMaximum cands) cands 0).length
      < (tieIndices (getMaximum cands) cands 0).length := Nat.mod_lt _ hlen
  obtain ⟨i, hi⟩ : ∃ i, (tieIndices (getMaximum cands) cands 0)[r %
      (tieIndices (getMaximum cands) cands 0).length]? = some i :=
    ⟨_, List.getElem?_eq_getElem hlt⟩
  have hmem : i ∈ tieIndices (getMaximum cands) cands 0 := List.getElem?_mem hi
  obtain ⟨-, n, hn, hp⟩ := tieIndices_spec _ _ _ _ hmem
  simp only [Nat.sub_zero] at hn
  have hidx : getBestRandomIndex cands (getMaximum cands) r = .ok i := by
    unfold getBestRandomIndex
    simp only [hi]
    rw [if_neg (by omega)]
  refine ⟨i, n, hidx, ?_, hn, hp⟩
  by_contra hge
  rw [List.getElem?_eq_none (by omega)] at hn
  cases hn

theorem bestAction_mem (cands : List node_t) (r : Nat) (hne : cands ≠ []) :
    ∃ n ∈ cands, bestAction cands r = .ok n.move := by
  obtain ⟨i, n, h1, -, h3, -⟩ := getBestRandomIndex_ok cands r hne
  refine ⟨n, List.getElem?_mem h3, ?_⟩
  unfold bestAction
  simp only [h1, h3]

/-- C2: on a non-empty candidate list and for every random draw `r`, `getMaximum`
is the greatest score of the list (an upper bound that some candidate attains),
`getBestRandomIndex` returns an in-range index of a candidate holding that score,
and `bestAction` returns the move of that candidate. -/
theorem bestAction_picks_maximum (cands : List node_t) (r : Nat) (hne : cands ≠ []) :
    (∀ n ∈ cands, n.priority ≤ getMaximum cands) ∧
    (∃ n ∈ cands, n.priority = getMaximum cands) ∧
    ∃ i n, getBestRandomIndex cands (getMaximum cands) r = .ok i ∧ i < cands.length ∧
      cands[i]? = some n ∧ n.priority = getMaximum cands ∧
      bestAction cands r = .ok n.move := by
  refine ⟨getMaximum_ge cands, getMaximum_attained cands hne, ?_⟩
  obtain ⟨i, n, hidx, hlt, hn, hp⟩ := getBestRandomIndex_ok cands r hne
  refine ⟨i, n, hidx, hlt, hn, hp, ?_⟩
  unfold bestAction
  simp only [hidx, hn]

/-- Witness: `bestAction_picks_maximum` on a list of two tied candidates. -/
theorem bestAction_picks_maximum_witness :
    ([⟨5, 1, 0, move_t.left, cornerBoard, some 0⟩,
      ⟨5, 1, 0, move_t.down, cornerBoard, some 0⟩] : List node_t) ≠ [] ∧
    bestAction [⟨5, 1, 0, move_t.left, cornerBoard, some 0⟩,
      ⟨5, 1, 0, move_t.down, cornerBoard, some 0⟩] 3 = .ok move_t.down := by
  refine ⟨by simp, ?_⟩
  obtain ⟨-, -, i, n, h1, -, h3, -, h5⟩ := bestAction_picks_maximum
    [⟨5, 1, 0, move_t.left, cornerBoard, some 0⟩,
      ⟨5, 1, 0, move_t.down, cornerBoard, some 0⟩] 3 (by simp)
  have hi : i = 1 := by
    have : getBestRandomIndex [⟨5, 1, 0, move_t.left, cornerBoard, some 0⟩,
      ⟨5, 1, 0, move_t.down, cornerBoard, some 0⟩]
      (getMaximum [⟨5, 1, 0, move_t.left, cornerBoard, some 0⟩,
      ⟨5, 1, 0, move_t.down, cornerBoard, some 0⟩]) 3 = .ok 1 := rfl
    rw [this] at h1
    injection h1 with h1
    exact h1.symm
  subst hi
  simp at h3
  rw [h5, ← h3]

/-- C9: with `max_depth = 0`, `get_next_move` returns, for every board, mode and
fuel, the direction whose integer value is `r % 4` (one of left, right, up, down),
creates and releases no node, and leaves the two counters, the heap and the board
as they were. -/
theorem get_next_move_depth_zero (E : BoardEngine) (pick : SearchState → Nat) (fuel : Nat)
    (board : Board) (propagation : propagation_t) (h : List Nat)
    (generated expanded seed r : Nat) :
    ∃ out m, get_next_move E pick fuel board 0 propagation h generated expanded seed r
        = some out ∧
      out.best_action = .ok m ∧ m.code = r % NUMBER_OF_MOVES ∧
      m ∈ [move_t.left, move_t.right, move_t.up, move_t.down] ∧
      out.generated = generated ∧ out.expanded = expanded ∧ out.heap = h ∧
      out.board = board ∧ out.freed = [] := by
  refine ⟨_, move_t.ofCode (r % NUMBER_OF_MOVES), rfl, rfl, ?_, ?_, rfl, rfl, rfl, rfl, rfl⟩
  · have hlt : r % NUMBER_OF_MOVES < 4 := Nat.mod_lt _ (by decide)
    generalize r % NUMBER_OF_MOVES = k at hlt
    interval_cases k <;> rfl
  · have hlt : r % NUMBER_OF_MOVES < 4 := Nat.mod_lt _ (by decide)
    generalize r % NUMBER_OF_MOVES = k at hlt
    interval_cases k <;> simp [move_t.ofCode]

/-! ## The arena -/

theorem getElem?_map_skel {nodes nodes' : List node_t}
    (h : nodes'.map skel = nodes.map skel) (id : Nat) :
    (nodes'[id]?).map skel = (nodes[id]?).map skel := by
  rw [← List.getElem?_map, ← List.getElem?_map, h]

theorem getElem?_of_map_skel {nodes nodes' : List node_t}
    (h : nodes'.map skel = nodes.map skel) {id : Nat} {n : node_t}
    (hn : nodes[id]? = some n) :
    ∃ n', nodes'[id]? = some n' ∧ n'.depth = n.depth ∧ n'.parent = n.parent ∧
      n'.move = n.move ∧ n'.board = n.board := by
  have := getElem?_map_skel h id
  rw [hn] at this
  cases hn' : nodes'[id]? with
  | none => rw [hn'] at this; cases this
  | some n' =>
    rw [hn'] at this
    simp only [Option.map_some', Option.some.injEq, skel, Prod.mk.injEq] at this
    exact ⟨n', rfl, this.1, this.2.1, this.2.2.1, this.2.2.2⟩

theorem length_of_map_skel {nodes nodes' : List node_t}
    (h : nodes'.map skel = nodes.map skel) : nodes'.length = nodes.length := by
  have := congrArg List.length h
  simpa using this

theorem depthOf_of_map_skel {nodes nodes' : List node_t}
    (h : nodes'.map skel = nodes.map skel) (id : Nat) :
    depthOf nodes' id = depthOf nodes id := by
  unfold depthOf
  have := getElem?_map_skel h id
  cases h1 : nodes'[id]? <;> cases h2 : nodes[id]? <;> rw [h1, h2] at this <;>
    simp_all [skel]

theorem NodesOK_of_map_skel {d : Nat} {nodes nodes' : List node_t}
    (h : nodes'.map skel = nodes.map skel) (hok : NodesOK d nodes) : NodesOK d nodes' := by
  intro id n' hn'
  obtain ⟨n, hn, hd, hp, -, -⟩ := getElem?_of_map_skel h.symm hn'
  obtain ⟨h1, h2⟩ := hok id n hn
  refine ⟨by omega, ?_⟩
  rcases h2 with ⟨h2, h3, h4⟩ | ⟨p, pn, h2, h3, h4, h5⟩
  · left
    exact ⟨by rw [← hp, h2], by omega, h4⟩
  · right
    obtain ⟨pn', hpn', hpd, -, -, -⟩ := getElem?_of_map_skel h h4
    exact ⟨p, pn', by rw [← hp, h2], h3, hpn', by omega⟩

theorem NodesOK_append {d : Nat} {nodes : List node_t} {new cn : node_t} {cur : Nat}
    (hok : NodesOK d nodes) (hcur : nodes[cur]? = some cn) (hd : new.depth = cn.depth + 1)
    (hle : new.depth ≤ d) (hp : new.parent = some cur) : NodesOK d (nodes ++ [new]) := by
  have hcl : cur < nodes.length := by
    by_contra hge
    rw [List.getElem?_eq_none (by omega)] at hcur
    cases hcur
  intro id n hn
  by_cases hid : id < nodes.length
  · rw [List.getElem?_append_left hid] at hn
    obtain ⟨h1, h2⟩ := hok id n hn
    refine ⟨h1, ?_⟩
    rcases h2 with h2 | ⟨p, pn, h2, h3, h4, h5⟩
    · left; exact h2
    · right
      refine ⟨p, pn, h2, h3, ?_, h5⟩
      rw [List.getElem?_append_left (by omega)]
      exact h4
  · rw [List.getElem?_append_right (by omega)] at hn
    have hid0 : id - nodes.length = 0 := by
      by_contra hne
      rw [List.getElem?_eq_none (by simp; omega)] at hn
      cases hn
    rw [hid0] at hn
    simp only [List.getElem?_cons_zero, Option.some.injEq] at hn
    subst hn
    refine ⟨hle, Or.inr ⟨cur, cn, hp, by omega, ?_, hd⟩⟩
    rw [List.getElem?_append_left hcl]
    exact hcur

theorem NodesOK_depth_le_id {d : Nat} {nodes : List node_t} (hok : NodesOK d nodes) :
    ∀ (id : Nat) (n : node_t), nodes[id]? = some n → n.depth ≤ id := by
  intro id
  induction id using Nat.strong_induction_on with
  | _ id ih =>
    intro n hn
    rcases (hok id n hn).2 with ⟨-, h, -⟩ | ⟨p, pn, -, h3, h4, h5⟩
    · omega
    · have := ih p h3 pn h4
      omega

theorem NodesOK_depth_zero_iff {d : Nat} {nodes : List node_t} (hok : NodesOK d nodes)
    {id : Nat} {n : node_t} (hn : nodes[id]? = some n) : n.depth = 0 ↔ id = 0 := by
  rcases (hok id n hn).2 with ⟨-, h, h0⟩ | ⟨p, pn, -, h3, h4, h5⟩
  · exact ⟨fun _ => h0, fun _ => h⟩
  · constructor <;> intro h <;> omega

/-! ## The ancestor walk -/

theorem findDecisionParent_ok {d : Nat} {nodes : List node_t} (hok : NodesOK d nodes) :
    ∀ (fuel id : Nat) (n : node_t), nodes[id]? = some n → 1 ≤ n.depth → n.depth ≤ fuel →
      ∃ a an, findDecisionParent fuel nodes id = some a ∧ nodes[a]? = some an ∧
        an.depth = 1 ∧ a ≤ id ∧ (n.depth = 1 → a = id) ∧ (n.depth = 2 → n.parent = some a) := by
  intro fuel
  induction fuel with
  | zero => intro id n _ h1 h2; omega
  | succ fuel ih =>
    intro id n hn h1 h2
    unfold findDecisionParent
    simp only [hn, DECISION_DEPTH]
    by_cases hd : n.depth = 1
    · rw [if_pos hd]
      exact ⟨id, n, rfl, hn, hd, le_refl _, fun _ => rfl, fun h => by omega⟩
    · rw [if_neg hd]
      rcases (hok id n hn).2 with ⟨-, h, -⟩ | ⟨p, pn, h3, h4, h5, h6⟩
      · omega
      · simp only [h3]
        obtain ⟨a, an, ha1, ha2, ha3, ha4, ha5, -⟩ := ih p pn h5 (by omega) (by omega)
        refine ⟨a, an, ha1, ha2, ha3, by omega, fun h => absurd h hd, fun h => ?_⟩
        rw [ha5 (by omega)]

theorem findDecisionParent_mono {nodes nodes' : List node_t}
    (hext : ∀ (i : Nat) (n : node_t), nodes[i]? = some n →
      ∃ n', nodes'[i]? = some n' ∧ skel n' = skel n) :
    ∀ fuel fuel' id a, fuel ≤ fuel' → findDecisionParent fuel nodes id = some a →
      findDecisionParent fuel' nodes' id = some a := by
  intro fuel
  induction fuel with
  | zero => intro fuel' id a _ h; simp [findDecisionParent] at h
  | succ fuel ih =>
    intro fuel' id a hle h
    obtain ⟨f, rfl⟩ : ∃ f, fuel' = f + 1 := ⟨fuel' - 1, by omega⟩
    unfold findDecisionParent at h ⊢
    cases hn : nodes[id]? with
    | none => simp [hn] at h
    | some n =>
      obtain ⟨n', hn', hs⟩ := hext id n hn
      simp only [skel, Prod.mk.injEq] at hs
      simp only [hn] at h
      simp only [hn', hs.1, hs.2.1]
      split_ifs at h ⊢ with hd
      · exact h
      · cases hp : n.parent with
        | none => simp [hp] at h
        | some p =>
          simp only [hp] at h ⊢
          exact ih f p a (by omega) h

theorem firstPlyAncestor_ok {d : Nat} {nodes : List node_t} (hok : NodesOK d nodes)
    {id : Nat} {n : node_t} (hn : nodes[id]? = some n) (h1 : 1 ≤ n.depth) :
    ∃ a an, firstPlyAncestor nodes id = some a ∧ nodes[a]? = some an ∧ an.depth = 1 ∧
      a ≤ id ∧ (n.depth = 1 → a = id) ∧ (n.depth = 2 → n.parent = some a) := by
  have hlt : id < nodes.length := by
    by_contra hge
    rw [List.getElem?_eq_none (by omega)] at hn
    cases hn
  have := NodesOK_depth_le_id hok id n hn
  exact findDecisionParent_ok hok _ id n hn h1 (by omega)

theorem firstPlyAncestor_extend {d : Nat} {nodes nodes' : List node_t}
    (hok : NodesOK d nodes)
    (hext : ∀ (i : Nat) (n : node_t), nodes[i]? = some n →
      ∃ n', nodes'[i]? = some n' ∧ skel n' = skel n)
    (hlen : nodes.length ≤ nodes'.length)
    {id : Nat} {n : node_t} (hn : nodes[id]? = some n) (h1 : 1 ≤ n.depth) :
    firstPlyAncestor nodes' id = firstPlyAncestor nodes id := by
  obtain ⟨a, an, ha, -⟩ := firstPlyAncestor_ok hok hn h1
  rw [ha]
  exact findDecisionParent_mono hext _ _ id a (by omega) ha

/-! ## `propagateScore` -/

theorem set_eq_self_of_getElem? {α : Type} : ∀ (l : List α) (i : Nat) (x : α),
    l[i]? = some x → l.set i x = l
  | [], _, _, h => by simp at h
  | y :: ys, 0, x, h => by
    simp only [List.getElem?_cons_zero, Option.some.injEq] at h
    simp [h]
  | y :: ys, i + 1, x, h => by
    simp only [List.getElem?_cons_succ] at h
    simp [set_eq_self_of_getElem? ys i x h]

theorem map_skel_set {nodes : List node_t} {a : Nat} {an : node_t} (an' : node_t)
    (ha : nodes[a]? = some an) (hs : skel an' = skel an) :
    (nodes.set a an').map skel = nodes.map skel := by
  rw [List.map_set, hs]
  apply set_eq_self_of_getElem?
  rw [List.getElem?_map, ha]
  rfl

theorem lt_length_of_getElem? {α : Type} {l : List α} {i : Nat} {x : α}
    (h : l[i]? = some x) : i < l.length := by
  by_contra hge
  rw [List.getElem?_eq_none (by omega)] at h
  cases h

theorem propagateScore_cases {nodes nodes' : List node_t} {id : Nat}
    {propagation : propagation_t} (h : propagateScore nodes id propagation = some nodes') :
    ∃ n, nodes[id]? = some n ∧
      ((n.depth = 1 ∧ nodes' = nodes) ∨
        (n.depth ≠ 1 ∧ ∃ a an, firstPlyAncestor nodes id = some a ∧ nodes[a]? = some an ∧
          nodes' = nodes.set a
            { an with priority := newPriority propagation n an, num_childs := newCount n an })) := by
  unfold propagateScore at h
  cases hn : nodes[id]? with
  | none => simp [hn] at h
  | some n =>
    refine ⟨n, rfl, ?_⟩
    simp only [hn, DECISION_DEPTH] at h
    by_cases hd : n.depth = 1
    · left
      rw [if_pos hd] at h
      exact ⟨hd, by injection h with h; exact h.symm⟩
    · right
      rw [if_neg hd] at h
      refine ⟨hd, ?_⟩
      cases ha : findDecisionParent (nodes.length + 1) nodes id with
      | none => simp [ha] at h
      | some a =>
        simp only [ha] at h
        cases han : nodes[a]? with
        | none => simp [han] at h
        | some an =>
          simp only [han] at h
          refine ⟨a, an, ha, han, ?_⟩
          cases propagation with
          | max =>
            simp only [Option.some.injEq] at h
            rw [← h]; rfl
          | avg =>
            simp only [newPriority, newCount, DECISION_DEPTH, NEXT_LEVEL, CHILD_INSERTION] at h ⊢
            split_ifs at h ⊢ <;> (injection h with h; exact h.symm)

theorem propagateScore_skel {nodes nodes' : List node_t} {id : Nat}
    {propagation : propagation_t} (h : propagateScore nodes id propagation = some nodes') :
    nodes'.map skel = nodes.map skel := by
  obtain ⟨n, -, h1 | ⟨-, a, an, -, han, h2⟩⟩ := propagateScore_cases h
  · rw [h1.2]
  · rw [h2]
    exact map_skel_set _ han rfl

theorem propagateScore_isSome {d : Nat} {nodes : List node_t} {id : Nat} {n : node_t}
    (propagation : propagation_t) (hok : NodesOK d nodes) (hn : nodes[id]? = some n)
    (h1 : 1 ≤ n.depth)
    (h2 : n.depth = 2 → ∀ (p : Nat) (pn : node_t), n.parent = some p → nodes[p]? = some pn →
      1 ≤ pn.num_childs) :
    ∃ nodes', propagateScore nodes id propagation = some nodes' := by
  unfold propagateScore
  simp only [hn, DECISION_DEPTH]
  by_cases hd : n.depth = 1
  · rw [if_pos hd]; exact ⟨_, rfl⟩
  · rw [if_neg hd]
    obtain ⟨a, an, ha, han, -, -, -, ha2⟩ := firstPlyAncestor_ok hok hn h1
    unfold firstPlyAncestor at ha
    simp only [ha, han]
    cases propagation with
    | max => exact ⟨_, rfl⟩
    | avg =>
      simp only [NEXT_LEVEL, CHILD_INSERTION]
      by_cases hd2 : n.depth = 2
      · have := h2 hd2 a an (ha2 hd2) han
        simp only [hd2, ne_eq, not_true_eq_false, if_false]
        split_ifs <;> first | exact ⟨_, rfl⟩ | omega
      · simp only [ne_eq, hd2, not_false_eq_true, if_true]
        split_ifs <;> first | exact ⟨_, rfl⟩ | omega | contradiction

/-! ## One direction of `generatePossibility` -/

theorem expandMove_eq {E : BoardEngine} {propagation : propagation_t} {cur ps : Nat}
    {st : SearchState} {m : move_t} {cn : node_t} (hn : st.nodes[cur]? = some cn) :
    expandMove E propagation cur ps st m =
      if isEqualBoard (childBoard E cn.board m st.seed) cn.board = false then
        match propagateScore ((st.nodes ++ [childNode E cn cur ps m st.seed]).set cur
            { cn with num_childs := cn.num_childs + 1 }) st.nodes.length propagation with
        | none => none
        | some nodes3 =>
          some { st with
            generated := st.generated + 1
            seed := childSeed E cn.board m st.seed
            nodes := nodes3
            heap := st.heap ++ [st.nodes.length]
            decisionMove := if cn.depth + 1 = 1 then st.decisionMove ++ [st.nodes.length]
              else st.decisionMove }
      else
        some { st with generated := st.generated + 1, seed := childSeed E cn.board m st.seed } := by
  unfold expandMove
  simp only [hn]
  cases hb : isEqualBoard (childBoard E cn.board m st.seed) cn.board
  · have hb' : isEqualBoard (if (execute_move_t E (copyBoard cn.board) ps m).1 = true then
        E.addRandom (execute_move_t E (copyBoard cn.board) ps m).2.1 st.seed
        else ((execute_move_t E (copyBoard cn.board) ps m).2.1, st.seed)).1 cn.board = false := hb
    simp only [hb', Bool.not_false, if_true]
    rfl
  · have hb' : isEqualBoard (if (execute_move_t E (copyBoard cn.board) ps m).1 = true then
        E.addRandom (execute_move_t E (copyBoard cn.board) ps m).2.1 st.seed
        else ((execute_move_t E (copyBoard cn.board) ps m).2.1, st.seed)).1 cn.board = true := hb
    simp only [hb', Bool.not_true, Bool.false_eq_true, if_false]
    rfl

theorem expandMove_cases {E : BoardEngine} {propagation : propagation_t} {cur ps : Nat}
    {st st' : SearchState} {m : move_t}
    (h : expandMove E propagation cur ps st m = some st') :
    ∃ cn, st.nodes[cur]? = some cn ∧
      st'.generated = st.generated + 1 ∧ st'.expanded = st.expanded ∧
      st'.explored = st.explored ∧ st'.maximumNode = st.maximumNode ∧
      st'.seed = childSeed E cn.board m st.seed ∧
      ((isEqualBoard (childBoard E cn.board m st.seed) cn.board = true ∧
          st'.nodes = st.nodes ∧ st'.heap = st.heap ∧ st'.decisionMove = st.decisionMove) ∨
        (isEqualBoard (childBoard E cn.board m st.seed) cn.board = false ∧
          propagateScore ((st.nodes ++ [childNode E cn cur ps m st.seed]).set cur
            { cn with num_childs := cn.num_childs + 1 }) st.nodes.length propagation
            = some st'.nodes ∧
          st'.heap = st.heap ++ [st.nodes.length] ∧
          st'.decisionMove = (if cn.depth + 1 = 1 then st.decisionMove ++ [st.nodes.length]
            else st.decisionMove))) := by
  cases hn : st.nodes[cur]? with
  | none => simp [expandMove, hn] at h
  | some cn =>
    refine ⟨cn, rfl, ?_⟩
    rw [expandMove_eq hn] at h
    cases hb : isEqualBoard (childBoard E cn.board m st.seed) cn.board
    · rw [if_pos hb] at h
      cases hp : propagateScore ((st.nodes ++ [childNode E cn cur ps m st.seed]).set cur
            { cn with num_childs := cn.num_childs + 1 }) st.nodes.length propagation with
      | none => simp [hp] at h
      | some nodes3 =>
        simp only [hp, Option.some.injEq] at h
        subst h
        exact ⟨rfl, rfl, rfl, rfl, rfl, Or.inr ⟨rfl, rfl, rfl, rfl⟩⟩
    · rw [if_neg (by simp [hb])] at h
      simp only [Option.some.injEq] at h
      subst h
      exact ⟨rfl, rfl, rfl, rfl, rfl, Or.inl ⟨rfl, rfl, rfl, rfl⟩⟩

theorem childNode_getElem? (E : BoardEngine) {nodes : List node_t} {cn : node_t}
    {cur : Nat} (ps seed : Nat) (m : move_t) (hn : nodes[cur]? = some cn) :
    ((nodes ++ [childNode E cn cur ps m seed]).set cur
      { cn with num_childs := cn.num_childs + 1 })[nodes.length]?
      = some (childNode E cn cur ps m seed) := by
  have hlt := lt_length_of_getElem? hn
  rw [List.getElem?_set_ne (by omega), List.getElem?_append_right (le_refl _)]
  simp

theorem map_skel_child (E : BoardEngine) {nodes : List node_t} {cn : node_t}
    {cur : Nat} (ps seed : Nat) (m : move_t) (hn : nodes[cur]? = some cn) :
    ((nodes ++ [childNode E cn cur ps m seed]).set cur
      { cn with num_childs := cn.num_childs + 1 }).map skel
      = nodes.map skel ++ [skel (childNode E cn cur ps m seed)] := by
  have hlt := lt_length_of_getElem? hn
  have h1 : (nodes ++ [childNode E cn cur ps m seed])[cur]? = some cn := by
    rw [List.getElem?_append_left hlt]
    exact hn
  have h2 := map_skel_set { cn with num_childs := cn.num_childs + 1 } h1 rfl
  rw [h2]
  simp

theorem NodesOK_child {d : Nat} (E : BoardEngine) {nodes : List node_t} {cn : node_t}
    {cur : Nat} (ps seed : Nat) (m : move_t) (hok : NodesOK d nodes)
    (hn : nodes[cur]? = some cn) (hd : cn.depth < d) :
    NodesOK d ((nodes ++ [childNode E cn cur ps m seed]).set cur
      { cn with num_childs := cn.num_childs + 1 }) := by
  have h1 : NodesOK d (nodes ++ [childNode E cn cur ps m seed]) :=
    NodesOK_append hok hn rfl (by simp only [childNode]; omega) rfl
  refine NodesOK_of_map_skel ?_ h1
  rw [map_skel_child E ps seed m hn]
  simp

/-- A direction tried on a valid node below the depth bound neither faults nor
breaks the arena. -/
theorem expandMove_ok {d : Nat} {E : BoardEngine} (propagation : propagation_t) {cur : Nat}
    (ps : Nat) {st : SearchState} (m : move_t) {cn : node_t} (hinv : Inv d st)
    (hn : st.nodes[cur]? = some cn) (hd : cn.depth < d) :
    ∃ st', expandMove E propagation cur ps st m = some st' ∧ Inv d st' ∧
      ((st'.nodes.map skel = st.nodes.map skel ∧ st'.heap = st.heap) ∨
        (st'.nodes.map skel = st.nodes.map skel ++ [skel (childNode E cn cur ps m st.seed)] ∧
          st'.heap = st.heap ++ [st.nodes.length])) := by
  have hlt := lt_length_of_getElem? hn
  rw [expandMove_eq hn]
  cases hb : isEqualBoard (childBoard E cn.board m st.seed) cn.board
  · rw [if_pos rfl]
    have hok2 := NodesOK_child E ps st.seed m hinv.1 hn hd
    have hnew := childNode_getElem? E ps st.seed m hn
    obtain ⟨nodes3, h3⟩ := propagateScore_isSome propagation hok2 hnew
      (by simp [childNode]) (by
        intro h2 p pn hp hpn
        simp only [childNode, Option.some.injEq] at hp
        subst hp
        rw [List.getElem?_set_self (by simp; omega)] at hpn
        injection hpn with hpn
        subst hpn
        simp)
    have hsk : nodes3.map skel = st.nodes.map skel ++ [skel (childNode E cn cur ps m st.seed)] := by
      rw [propagateScore_skel h3, map_skel_child E ps st.seed m hn]
    rw [h3]
    refine ⟨_, rfl, ⟨?_, ?_⟩, Or.inr ⟨hsk, rfl⟩⟩
    · exact NodesOK_of_map_skel (propagateScore_skel h3) hok2
    · intro id hid
      have hl : nodes3.length = st.nodes.length + 1 := by
        have := congrArg List.length hsk
        simpa using this
      simp only [List.mem_append, List.mem_singleton] at hid
      show id < nodes3.length
      rcases hid with hid | hid
      · have := hinv.2 id hid
        omega
      · omega
  · rw [if_neg (by simp)]
    exact ⟨_, rfl, ⟨hinv.1, hinv.2⟩, Or.inl ⟨rfl, rfl⟩⟩

/-! ## Extensions of the arena -/

theorem skel_ext {nodes nodes' : List node_t} {extra : List (Nat × Option Nat × move_t × Board)}
    (h : nodes'.map skel = nodes.map skel ++ extra) (i : Nat) (n : node_t)
    (hn : nodes[i]? = some n) : ∃ n', nodes'[i]? = some n' ∧ skel n' = skel n := by
  have hlt := lt_length_of_getElem? hn
  have h1 : (nodes'.map skel)[i]? = some (skel n) := by
    rw [h, List.getElem?_append_left (by simpa using hlt), List.getElem?_map, hn]
    rfl
  rw [List.getElem?_map] at h1
  cases hn' : nodes'[i]? with
  | none => rw [hn'] at h1; cases h1
  | some n' =>
    rw [hn'] at h1
    exact ⟨n', rfl, by simpa using h1⟩

theorem depthOf_ext {nodes nodes' : List node_t} {extra : List (Nat × Option Nat × move_t × Board)}
    (h : nodes'.map skel = nodes.map skel ++ extra) {i : Nat} (hi : i < nodes.length) :
    depthOf nodes' i = depthOf nodes i := by
  obtain ⟨n', hn', hs⟩ := skel_ext h i nodes[i] (List.getElem?_eq_getElem hi)
  unfold depthOf
  rw [hn', List.getElem?_eq_getElem hi]
  simp only [skel, Prod.mk.injEq] at hs
  simp [hs.1]

theorem depthOf_eq {nodes : List node_t} {i : Nat} {n : node_t} (hn : nodes[i]? = some n) :
    depthOf nodes i = n.depth := by
  simp [depthOf, hn]

theorem depthOf_new {nodes nodes' : List node_t} {c : node_t}
    (h : nodes'.map skel = nodes.map skel ++ [skel c]) :
    depthOf nodes' nodes.length = c.depth := by
  have h1 : (nodes'.map skel)[nodes.length]? = some (skel c) := by
    rw [h, List.getElem?_append_right (by simp)]
    simp
  rw [List.getElem?_map] at h1
  cases hn' : nodes'[nodes.length]? with
  | none => rw [hn'] at h1; cases h1
  | some n' =>
    rw [hn'] at h1
    simp only [Option.map_some', Option.some.injEq, skel, Prod.mk.injEq] at h1
    rw [depthOf_eq hn', h1.1]

theorem heapSum_congr (f : Nat → Nat) (d : Nat) {nodes nodes' : List node_t} {heap : List Nat}
    (h : ∀ id ∈ heap, depthOf nodes' id = depthOf nodes id) :
    heapSum f d nodes' heap = heapSum f d nodes heap := by
  unfold heapSum
  congr 1
  apply List.map_congr_left
  intro id hid
  rw [h id hid]

theorem heapSum_append (f : Nat → Nat) (d : Nat) (nodes : List node_t) (h1 h2 : List Nat) :
    heapSum f d nodes (h1 ++ h2) = heapSum f d nodes h1 + heapSum f d nodes h2 := by
  simp [heapSum]

theorem heapSum_singleton (f : Nat → Nat) (d : Nat) (nodes : List node_t) (id : Nat) :
    heapSum f d nodes [id] = f (d - depthOf nodes id) := by
  simp [heapSum]

/-! ## The pop -/

theorem perm_getD_eraseIdx : ∀ (l : List Nat) (k x : Nat), k < l.length →
    l.Perm (l.getD k x :: l.eraseIdx k)
  | [], _, _, h => by simp at h
  | y :: ys, 0, x, _ => by simp
  | y :: ys, k + 1, x, h => by
    have ih := perm_getD_eraseIdx ys k x (by simpa using h)
    simp only [List.getD_eq_getElem?_getD, List.getElem?_cons_succ, List.eraseIdx_cons_succ] at ih ⊢
    exact (List.Perm.cons y ih).trans (List.Perm.swap _ _ _)

theorem heap_delete_perm {pick : SearchState → Nat} {st : SearchState} {cur : Nat}
    {rest : List Nat} (h : heap_delete pick st = some (cur, rest)) :
    st.heap.Perm (cur :: rest) := by
  unfold heap_delete at h
  cases hh : st.heap with
  | nil => simp [hh] at h
  | cons x xs =>
    simp only [hh, Option.some.injEq, Prod.mk.injEq] at h
    rw [← h.1, ← h.2]
    exact perm_getD_eraseIdx (x :: xs) _ x (Nat.mod_lt _ (by simp))

theorem heap_delete_isSome (pick : SearchState → Nat) {st : SearchState} (h : st.heap ≠ []) :
    ∃ cur rest, heap_delete pick st = some (cur, rest) := by
  unfold heap_delete
  cases hh : st.heap with
  | nil => exact absurd hh h
  | cons x xs => exact ⟨_, _, rfl⟩

theorem heapSum_pop (f : Nat → Nat) (d : Nat) (nodes : List node_t) {heap rest : List Nat}
    {cur : Nat} (h : heap.Perm (cur :: rest)) :
    heapSum f d nodes heap = f (d - depthOf nodes cur) + heapSum f d nodes rest := by
  unfold heapSum
  rw [(h.map _).sum_eq]
  simp

@[simp] theorem afterPop_nodes (st : SearchState) (cur : Nat) (rest : List Nat) :
    (afterPop st cur rest).nodes = st.nodes := rfl

@[simp] theorem afterPop_heap (st : SearchState) (cur : Nat) (rest : List Nat) :
    (afterPop st cur rest).heap = rest := rfl

@[simp] theorem afterPop_explored (st : SearchState) (cur : Nat) (rest : List Nat) :
    (afterPop st cur rest).explored = st.explored ++ [cur] := rfl

@[simp] theorem afterPop_decisionMove (st : SearchState) (cur : Nat) (rest : List Nat) :
    (afterPop st cur rest).decisionMove = st.decisionMove := rfl

@[simp] theorem afterPop_generated (st : SearchState) (cur : Nat) (rest : List Nat) :
    (afterPop st cur rest).generated = st.generated := rfl

@[simp] theorem afterPop_expanded (st : SearchState) (cur : Nat) (rest : List Nat) :
    (afterPop st cur rest).expanded = st.expanded + 1 := rfl

@[simp] theorem afterPop_seed (st : SearchState) (cur : Nat) (rest : List Nat) :
    (afterPop st cur rest).seed = st.seed := rfl

theorem Inv_afterPop {d : Nat} {pick : SearchState → Nat} {st : SearchState} {cur : Nat}
    {rest : List Nat} (hinv : Inv d st) (h : heap_delete pick st = some (cur, rest)) :
    Inv d (afterPop st cur rest) ∧ cur < st.nodes.length := by
  have hp := heap_delete_perm h
  refine ⟨⟨hinv.1, ?_⟩, hinv.2 cur (hp.mem_iff.2 (List.mem_cons_self _ _))⟩
  intro id hid
  exact hinv.2 id (hp.mem_iff.2 (List.mem_cons_of_mem _ hid))

theorem popStep_eq {E : BoardEngine} {pick : SearchState → Nat} {d : Nat}
    {propagation : propagation_t} {st : SearchState} {cur : Nat} {rest : List Nat} {cn : node_t}
    (h : heap_delete pick st = some (cur, rest)) (hn : st.nodes[cur]? = some cn) :
    popStep E pick d propagation st =
      if cn.depth < d then
        expandMoves E propagation cur cn.priority allMoves (afterPop st cur rest)
      else some (afterPop st cur rest) := by
  unfold popStep
  simp only [h]
  have hn' : (insertIntoExplored { st with heap := rest, expanded := st.expanded + 1 }
      cur).nodes[cur]? = some cn := hn
  simp only [hn']
  split_ifs
  · unfold generatePossibility
    simp only [hn']
    rfl
  · rfl

/-! ## Induction over the search -/

theorem expandMove_ext {d : Nat} {E : BoardEngine} (propagation : propagation_t) {cur : Nat}
    (ps : Nat) {st : SearchState} (m : move_t) {cn : node_t} (hinv : Inv d st)
    (hn : st.nodes[cur]? = some cn) (hd : cn.depth < d) :
    ∃ st', expandMove E propagation cur ps st m = some st' ∧ Inv d st' ∧
      ∃ cn', st'.nodes[cur]? = some cn' ∧ cn'.depth = cn.depth := by
  obtain ⟨st', h1, h2, h3⟩ := expandMove_ok propagation ps m hinv hn hd
  refine ⟨st', h1, h2, ?_⟩
  have hext : ∃ extra, st'.nodes.map skel = st.nodes.map skel ++ extra := by
    rcases h3 with h3 | h3
    · exact ⟨[], by simpa using h3.1⟩
    · exact ⟨_, h3.1⟩
  obtain ⟨extra, hext⟩ := hext
  obtain ⟨cn', h4, h5⟩ := skel_ext hext cur cn hn
  simp only [skel, Prod.mk.injEq] at h5
  exact ⟨cn', h4, h5.1⟩

/-- The `for` loop of `generatePossibility` never faults on a valid node below the
depth bound, and carries any property `Q` of (remaining directions, state) that each
single direction carries. -/
theorem expandMoves_ok {d : Nat} {E : BoardEngine} {propagation : propagation_t}
    {cur ps : Nat} (Q : List move_t → SearchState → Prop)
    (hmove : ∀ (m : move_t) (ms : List move_t) (st st' : SearchState) (cn : node_t),
      Inv d st → st.nodes[cur]? = some cn → cn.depth < d → Q (m :: ms) st →
      expandMove E propagation cur ps st m = some st' → Inv d st' → Q ms st') :
    ∀ (ms : List move_t) (st : SearchState) (cn : node_t), Inv d st →
      st.nodes[cur]? = some cn → cn.depth < d → Q ms st →
      ∃ st', expandMoves E propagation cur ps ms st = some st' ∧ Inv d st' ∧ Q [] st' := by
  intro ms
  induction ms with
  | nil =>
    intro st cn hinv _ _ hq
    exact ⟨st, rfl, hinv, hq⟩
  | cons m ms ih =>
    intro st cn hinv hn hd hq
    obtain ⟨st1, h1, h2, cn1, h3, h4⟩ := expandMove_ext propagation ps m hinv hn hd
    have hq1 := hmove m ms st st1 cn hinv hn hd hq h1 h2
    obtain ⟨st', h5, h6, h7⟩ := ih st1 cn1 h2 h3 (by omega) hq1
    refine ⟨st', ?_, h6, h7⟩
    unfold expandMoves
    simp only [h1]
    exact h5

/-- One iteration of the drain loop never faults on a state that satisfies the
invariant, and takes a property `P` to a property `P'` when the pop and each
single direction do so (through `Q`, which may mention the node being expanded, its
priority at the start of the expansion and the directions still to try). -/
theorem popStep_ok {d : Nat} {E : BoardEngine} {pick : SearchState → Nat}
    {propagation : propagation_t} (P P' : SearchState → Prop)
    (Q : Nat → Nat → List move_t → SearchState → Prop)
    (hleaf : ∀ (st : SearchState) (cur : Nat) (rest : List Nat) (cn : node_t), Inv d st → P st →
      heap_delete pick st = some (cur, rest) → st.nodes[cur]? = some cn → ¬ cn.depth < d →
      P' (afterPop st cur rest))
    (hexp : ∀ (st : SearchState) (cur : Nat) (rest : List Nat) (cn : node_t), Inv d st → P st →
      heap_delete pick st = some (cur, rest) → st.nodes[cur]? = some cn → cn.depth < d →
      Q cur cn.priority allMoves (afterPop st cur rest))
    (hmove : ∀ (cur ps : Nat) (m : move_t) (ms : List move_t) (st st' : SearchState)
      (cn : node_t), Inv d st → st.nodes[cur]? = some cn → cn.depth < d → Q cur ps (m :: ms) st →
      expandMove E propagation cur ps st m = some st' → Inv d st' → Q cur ps ms st')
    (hdone : ∀ (cur ps : Nat) (st : SearchState), Inv d st → Q cur ps [] st → P' st)
    (st : SearchState) (hinv : Inv d st) (hp : P st) (hne : st.heap ≠ []) :
    ∃ st', popStep E pick d propagation st = some st' ∧ Inv d st' ∧ P' st' := by
  obtain ⟨cur, rest, hdel⟩ := heap_delete_isSome pick hne
  obtain ⟨hinv1, hlt⟩ := Inv_afterPop hinv hdel
  have hn : st.nodes[cur]? = some st.nodes[cur] := List.getElem?_eq_getElem hlt
  rw [popStep_eq hdel hn]
  by_cases hd : st.nodes[cur].depth < d
  · rw [if_pos hd]
    have hq := hexp st cur rest _ hinv hp hdel hn hd
    obtain ⟨st', h1, h2, h3⟩ := expandMoves_ok (Q cur st.nodes[cur].priority)
      (hmove cur st.nodes[cur].priority) allMoves (afterPop st cur rest) _ hinv1 hn hd hq
    exact ⟨st', h1, h2, hdone _ _ _ h2 h3⟩
  · rw [if_neg hd]
    exact ⟨_, rfl, hinv1, hleaf st cur rest _ hinv hp hdel hn hd⟩

/-! ## The measure of the drain loop -/

theorem fullTree_pos (m : Nat) : 0 < fullTree m := by
  cases m <;> simp [fullTree]

theorem fullTree_sub {d k : Nat} (h : k < d) :
    fullTree (d - k) = 1 + 4 * fullTree (d - (k + 1)) := by
  obtain ⟨j, hj⟩ : ∃ j, d - k = j + 1 := ⟨d - k - 1, by omega⟩
  have : d - (k + 1) = j := by omega
  rw [hj, this]
  rfl

theorem innerTree_sub {d k : Nat} (h : k < d) :
    innerTree (d - k) = 1 + 4 * innerTree (d - (k + 1)) := by
  obtain ⟨j, hj⟩ : ∃ j, d - k = j + 1 := ⟨d - k - 1, by omega⟩
  have : d - (k + 1) = j := by omega
  rw [hj, this]
  rfl

theorem heapSum_expandMove (f : Nat → Nat) {d : Nat} {E : BoardEngine}
    {propagation : propagation_t} {cur ps : Nat} {m : move_t} {st st' : SearchState}
    {cn : node_t} (hinv : Inv d st) (hn : st.nodes[cur]? = some cn) (hd : cn.depth < d)
    (h : expandMove E propagation cur ps st m = some st') :
    depthOf st'.nodes cur = cn.depth ∧
    (heapSum f d st'.nodes st'.heap = heapSum f d st.nodes st.heap ∨
      heapSum f d st'.nodes st'.heap = heapSum f d st.nodes st.heap + f (d - (cn.depth + 1))) := by
  obtain ⟨st2, h1, -, h3⟩ := expandMove_ok propagation ps m hinv hn hd
  rw [h] at h1
  injection h1 with h1
  subst h1
  have hlt := lt_length_of_getElem? hn
  rcases h3 with ⟨h3, h4⟩ | ⟨h3, h4⟩
  · refine ⟨?_, Or.inl ?_⟩
    · rw [depthOf_of_map_skel h3, depthOf_eq hn]
    · rw [h4]
      exact heapSum_congr f d fun id _ => depthOf_of_map_skel h3 id
  · refine ⟨?_, Or.inr ?_⟩
    · rw [depthOf_ext h3 hlt, depthOf_eq hn]
    · rw [h4, heapSum_append, heapSum_singleton, depthOf_new h3]
      congr 1
      exact heapSum_congr f d fun id hid => depthOf_ext h3 (hinv.2 id hid)

/-- The drain loop: with fuel at least the weight of the pending nodes it reaches
an empty heap without a fault, and it carries every property `P` that the pop and
each single direction carry. -/
theorem drain_ok {d : Nat} {E : BoardEngine} {pick : SearchState → Nat}
    {propagation : propagation_t} (P : SearchState → Prop)
    (Q : Nat → Nat → List move_t → SearchState → Prop)
    (hleaf : ∀ (st : SearchState) (cur : Nat) (rest : List Nat) (cn : node_t), Inv d st → P st →
      heap_delete pick st = some (cur, rest) → st.nodes[cur]? = some cn → ¬ cn.depth < d →
      P (afterPop st cur rest))
    (hexp : ∀ (st : SearchState) (cur : Nat) (rest : List Nat) (cn : node_t), Inv d st → P st →
      heap_delete pick st = some (cur, rest) → st.nodes[cur]? = some cn → cn.depth < d →
      Q cur cn.priority allMoves (afterPop st cur rest))
    (hmove : ∀ (cur ps : Nat) (m : move_t) (ms : List move_t) (st st' : SearchState)
      (cn : node_t), Inv d st → st.nodes[cur]? = some cn → cn.depth < d → Q cur ps (m :: ms) st →
      expandMove E propagation cur ps st m = some st' → Inv d st' → Q cur ps ms st')
    (hdone : ∀ (cur ps : Nat) (st : SearchState), Inv d st → Q cur ps [] st → P st) :
    ∀ (fuel : Nat) (st : SearchState), Inv d st → P st → pendingWeight d st ≤ fuel →
      ∃ fin, drain E pick d propagation fuel st = some fin ∧ fin.heap = [] ∧ Inv d fin ∧
        P fin := by
  intro fuel
  induction fuel with
  | zero =>
    intro st hinv hp hw
    have hnil : st.heap = [] := by
      cases hh : st.heap with
      | nil => rfl
      | cons x xs =>
        exfalso
        have := fullTree_pos (d - depthOf st.nodes x)
        simp only [pendingWeight, heapSum, hh, List.map_cons, List.sum_cons] at hw
        omega
    refine ⟨st, ?_, hnil, hinv, hp⟩
    unfold drain
    simp [hnil]
  | succ fuel ih =>
    intro st hinv hp hw
    by_cases hnil : st.heap = []
    · refine ⟨st, ?_, hnil, hinv, hp⟩
      unfold drain
      simp [hnil]
    · obtain ⟨st1, h1, h2, h3, h4⟩ := @popStep_ok d E pick propagation
        (fun s => P s ∧ s = st) (fun s => P s ∧ pendingWeight d s + 1 ≤ pendingWeight d st)
        (fun cur ps ms s => Q cur ps ms s ∧ depthOf s.nodes cur < d ∧
          pendingWeight d s + ms.length * fullTree (d - (depthOf s.nodes cur + 1)) + 1
            ≤ pendingWeight d st)
        (by
          rintro s cur rest cn hi ⟨hps, rfl⟩ hdel hn hd
          refine ⟨hleaf s cur rest cn hi hps hdel hn hd, ?_⟩
          have := heapSum_pop fullTree d s.nodes (heap_delete_perm hdel)
          have hpos := fullTree_pos (d - depthOf s.nodes cur)
          simp only [pendingWeight, afterPop_nodes, afterPop_heap]
          omega)
        (by
          rintro s cur rest cn hi ⟨hps, rfl⟩ hdel hn hd
          refine ⟨hexp s cur rest cn hi hps hdel hn hd, ?_, ?_⟩
          · simp only [afterPop_nodes, depthOf_eq hn]; exact hd
          · have := heapSum_pop fullTree d s.nodes (heap_delete_perm hdel)
            simp only [pendingWeight, afterPop_nodes, afterPop_heap, depthOf_eq hn,
              allMoves, List.length_cons, List.length_nil] at this ⊢
            rw [fullTree_sub hd] at this
            omega)
        (by
          rintro cur ps m ms s s' cn hi hn hd ⟨hq, hlt, hm⟩ hmv hi'
          obtain ⟨hdep, hsum⟩ := heapSum_expandMove fullTree hi hn hd hmv
          refine ⟨hmove cur ps m ms s s' cn hi hn hd hq hmv hi', by omega, ?_⟩
          rw [depthOf_eq hn] at hm
          simp only [pendingWeight, List.length_cons, Nat.add_mul, one_mul] at hm ⊢
          rw [hdep]
          rcases hsum with hsum | hsum <;> rw [hsum] <;> omega)
        (by
          rintro cur ps s hi ⟨hq, -, hm⟩
          refine ⟨hdone cur ps s hi hq, ?_⟩
          simp only [List.length_nil, zero_mul, add_zero] at hm
          exact hm)
        st hinv ⟨hp, rfl⟩ hnil
      obtain ⟨fin, h5, h6, h7, h8⟩ := ih st1 h2 h3 (by omega)
      refine ⟨fin, ?_, h6, h7, h8⟩
      unfold drain
      have hlen : st.heap.length ≠ 0 := by
        intro h0
        exact hnil (List.length_eq_zero.1 h0)
      simp only [hlen, if_false, h1]
      exact h5

theorem Carried.and {d : Nat} {E : BoardEngine} {pick : SearchState → Nat}
    {propagation : propagation_t} {P1 P2 : SearchState → Prop}
    {Q1 Q2 : Nat → Nat → List move_t → SearchState → Prop}
    (c1 : Carried d E pick propagation P1 Q1) (c2 : Carried d E pick propagation P2 Q2) :
    Carried d E pick propagation (fun s => P1 s ∧ P2 s)
      (fun cur ps ms s => Q1 cur ps ms s ∧ Q2 cur ps ms s) where
  leaf := fun st cur rest cn hi hp hdel hn hd =>
    ⟨c1.leaf st cur rest cn hi hp.1 hdel hn hd, c2.leaf st cur rest cn hi hp.2 hdel hn hd⟩
  exp := fun st cur rest cn hi hp hdel hn hd =>
    ⟨c1.exp st cur rest cn hi hp.1 hdel hn hd, c2.exp st cur rest cn hi hp.2 hdel hn hd⟩
  move := fun cur ps m ms st st' cn hi hn hd hq hmv hi' =>
    ⟨c1.move cur ps m ms st st' cn hi hn hd hq.1 hmv hi',
      c2.move cur ps m ms st st' cn hi hn hd hq.2 hmv hi'⟩
  done := fun cur ps st hi hq => ⟨c1.done cur ps st hi hq.1, c2.done cur ps st hi hq.2⟩

/-! ## The whole search -/

theorem three_mul_fullTree (m : Nat) : 3 * fullTree m + 1 = 4 ^ (m + 1) := by
  induction m with
  | zero => rfl
  | succ m ih =>
    rw [fullTree, pow_succ]
    omega

theorem three_mul_innerTree (m : Nat) : 3 * innerTree m + 1 = 4 ^ m := by
  induction m with
  | zero => rfl
  | succ m ih =>
    rw [innerTree, pow_succ]
    omega

theorem fullTree_eq (m : Nat) : fullTree m = (4 ^ (m + 1) - 1) / 3 := by
  have := three_mul_fullTree m
  omega

theorem innerTree_eq (m : Nat) : innerTree m = (4 ^ m - 1) / 3 := by
  have := three_mul_innerTree m
  omega

theorem initState_root (board : Board) (d gen exp seed : Nat) (h : List Nat) :
    (initState board d h gen exp seed).nodes = [⟨0, 0, 0, move_t.left, board, none⟩] := rfl

theorem Inv_initState (board : Board) (d gen exp seed : Nat) :
    Inv d (initState board d [] gen exp seed) := by
  constructor
  · intro id n hn
    rw [initState_root] at hn
    cases id with
    | zero =>
      simp only [List.getElem?_cons_zero, Option.some.injEq] at hn
      subst hn
      exact ⟨Nat.zero_le _, Or.inl ⟨rfl, rfl, rfl⟩⟩
    | succ k => simp at hn
  · intro id hid
    simp only [initState, heap_push, List.nil_append, List.mem_singleton] at hid
    subst hid
    exact Nat.zero_lt_one

theorem pendingWeight_initState (board : Board) (d gen exp seed : Nat) :
    pendingWeight d (initState board d [] gen exp seed) = fullTree d := by
  simp [pendingWeight, heapSum, initState, heap_push, depthOf, createNewNode, INITIAL]

/-- The search part of `get_next_move`, started on an empty heap with fuel
`fullTree max_depth`, ends without a fault on an empty heap, in a state that
satisfies the arena invariant and every carried property that holds initially. -/
theorem search_ok {d : Nat} {E : BoardEngine} {pick : SearchState → Nat}
    {propagation : propagation_t} {P : SearchState → Prop}
    {Q : Nat → Nat → List move_t → SearchState → Prop}
    (c : Carried d E pick propagation P Q) (board : Board) (gen exp seed fuel : Nat)
    (h0 : P (initState board d [] gen exp seed)) (hfuel : fullTree d ≤ fuel) :
    ∃ fin, search E pick fuel board d propagation [] gen exp seed = some fin ∧
      fin.heap = [] ∧ Inv d fin ∧ P fin := by
  unfold search
  exact drain_ok P Q c.leaf c.exp c.move c.done fuel _ (Inv_initState board d gen exp seed) h0
    (by rw [pendingWeight_initState]; exact hfuel)

theorem get_next_move_eq {E : BoardEngine} {pick : SearchState → Nat} {fuel : Nat}
    {board : Board} {d : Nat} {propagation : propagation_t} {h : List Nat}
    {gen exp seed r : Nat} {fin : SearchState} (hd : 1 ≤ d)
    (hs : search E pick fuel board d propagation h gen exp seed = some fin) :
    get_next_move E pick fuel board d propagation h gen exp seed r =
      some ⟨bestAction (candidates fin) r, fin.generated, fin.expanded, fin.heap, board,
        fin.explored⟩ := by
  unfold get_next_move
  rw [if_neg (by simp only [INITIAL]; omega)]
  simp only [hs]

/-! ## What one direction does to the state -/

theorem expandMove_summary {d : Nat} {E : BoardEngine} {propagation : propagation_t}
    {cur ps : Nat} {m : move_t} {st st' : SearchState} {cn : node_t} (_hinv : Inv d st)
    (hn : st.nodes[cur]? = some cn) (_hd : cn.depth < d)
    (h : expandMove E propagation cur ps st m = some st') :
    st'.generated = st.generated + 1 ∧ st'.expanded = st.expanded ∧
    st'.explored = st.explored ∧
    ((isEqualBoard (childBoard E cn.board m st.seed) cn.board = true ∧
        st'.nodes = st.nodes ∧ st'.heap = st.heap ∧ st'.decisionMove = st.decisionMove) ∨
      (isEqualBoard (childBoard E cn.board m st.seed) cn.board = false ∧
        st'.nodes.map skel = st.nodes.map skel ++ [skel (childNode E cn cur ps m st.seed)] ∧
        st'.nodes.length = st.nodes.length + 1 ∧
        st'.heap = st.heap ++ [st.nodes.length] ∧
        st'.decisionMove = (if cn.depth + 1 = 1 then st.decisionMove ++ [st.nodes.length]
          else st.decisionMove) ∧
        propagateScore ((st.nodes ++ [childNode E cn cur ps m st.seed]).set cur
          { cn with num_childs := cn.num_childs + 1 }) st.nodes.length propagation
          = some st'.nodes)) := by
  obtain ⟨cn', hn', h1, h2, h3, -, -, h4⟩ := expandMove_cases h
  rw [hn] at hn'
  injection hn' with hn'
  subst hn'
  refine ⟨h1, h2, h3, ?_⟩
  rcases h4 with h4 | ⟨h4, h5, h6, h7⟩
  · exact Or.inl h4
  · have hsk : st'.nodes.map skel
        = st.nodes.map skel ++ [skel (childNode E cn cur ps m st.seed)] := by
      rw [propagateScore_skel h5, map_skel_child E ps st.seed m hn]
    refine Or.inr ⟨h4, hsk, ?_, h6, h7, h5⟩
    have := congrArg List.length hsk
    simpa using this

/-! ## Bookkeeping: every node is pending or explored, exactly once -/

theorem carried_book (d : Nat) (E : BoardEngine) (pick : SearchState → Nat)
    (propagation : propagation_t) :
    Carried d E pick propagation
      (fun s => (s.explored ++ s.heap).Perm (List.range s.nodes.length))
      (fun _ _ _ s => (s.explored ++ s.heap).Perm (List.range s.nodes.length)) where
  leaf := by
    intro st cur rest cn _ hp hdel _ _
    have h1 := heap_delete_perm hdel
    simp only [afterPop_explored, afterPop_heap, afterPop_nodes, List.append_assoc,
      List.singleton_append]
    exact (List.Perm.append_left _ h1.symm).trans hp
  exp := by
    intro st cur rest cn _ hp hdel _ _
    have h1 := heap_delete_perm hdel
    simp only [afterPop_explored, afterPop_heap, afterPop_nodes, List.append_assoc,
      List.singleton_append]
    exact (List.Perm.append_left _ h1.symm).trans hp
  move := by
    intro cur ps m ms st st' cn hi hn hd hq hmv _
    obtain ⟨-, -, h3, h4 | ⟨-, -, h5, h6, -, -⟩⟩ := expandMove_summary hi hn hd hmv
    · rw [h3, h4.2.2.1, h4.2.1]
      exact hq
    · rw [h3, h5, h6, List.range_succ, ← List.append_assoc]
      exact List.Perm.append_right _ hq
  done := fun _ _ _ _ hq => hq

/-! ## The counters -/

theorem expandedBelow_congr {d : Nat} {s s' : SearchState} (he : s'.explored = s.explored)
    (h : ∀ id ∈ s.explored, depthOf s'.nodes id = depthOf s.nodes id) :
    expandedBelow d s' = expandedBelow d s := by
  unfold expandedBelow
  rw [he]
  apply List.countP_congr
  intro id hid
  rw [h id hid]

theorem carried_count (d : Nat) (E : BoardEngine) (pick : SearchState → Nat)
    (propagation : propagation_t) (gen exp : Nat) :
    Carried d E pick propagation
      (fun s => s.expanded = exp + s.explored.length ∧
        s.generated = gen + 4 * expandedBelow d s ∧
        expandedBelow d s + pendingInner d s ≤ innerTree d ∧
        (∀ id ∈ s.explored, id < s.nodes.length) ∧
        s.nodes.length + gen ≤ s.generated + 1)
      (fun cur _ ms s => s.expanded = exp + s.explored.length ∧
        s.generated + ms.length = gen + 4 * expandedBelow d s ∧
        expandedBelow d s + pendingInner d s
          + ms.length * innerTree (d - (depthOf s.nodes cur + 1)) ≤ innerTree d ∧
        (∀ id ∈ s.explored, id < s.nodes.length) ∧
        s.nodes.length + gen ≤ s.generated + 1) where
  leaf := by
    rintro st cur rest cn hi ⟨h1, h2, h3, h4, h5⟩ hdel hn hd
    have hsum := heapSum_pop innerTree d st.nodes (heap_delete_perm hdel)
    have hlt := lt_length_of_getElem? hn
    have hcnt : expandedBelow d (afterPop st cur rest) = expandedBelow d st := by
      simp [expandedBelow, depthOf_eq hn, hd]
    refine ⟨?_, ?_, ?_, ?_, ?_⟩
    · simp only [afterPop_expanded, afterPop_explored, List.length_append, List.length_singleton]
      omega
    · rw [hcnt]; exact h2
    · rw [hcnt]
      simp only [pendingInner, afterPop_nodes, afterPop_heap] at h3 ⊢
      omega
    · intro id hid
      simp only [afterPop_explored, List.mem_append, List.mem_singleton] at hid
      rcases hid with hid | hid
      · exact h4 id hid
      · subst hid; exact hlt
    · exact h5
  exp := by
    rintro st cur rest cn hi ⟨h1, h2, h3, h4, h5⟩ hdel hn hd
    have hsum := heapSum_pop innerTree d st.nodes (heap_delete_perm hdel)
    have hlt := lt_length_of_getElem? hn
    have hcnt : expandedBelow d (afterPop st cur rest) = expandedBelow d st + 1 := by
      simp [expandedBelow, depthOf_eq hn, hd]
    refine ⟨?_, ?_, ?_, ?_, ?_⟩
    · simp only [afterPop_expanded, afterPop_explored, List.length_append, List.length_singleton]
      omega
    · rw [hcnt]
      simp only [afterPop_generated, allMoves, List.length_cons, List.length_nil]
      omega
    · rw [hcnt]
      simp only [pendingInner, afterPop_nodes, afterPop_heap, depthOf_eq hn, allMoves,
        List.length_cons, List.length_nil] at h3 hsum ⊢
      rw [innerTree_sub hd] at hsum
      omega
    · intro id hid
      simp only [afterPop_explored, List.mem_append, List.mem_singleton] at hid
      rcases hid with hid | hid
      · exact h4 id hid
      · subst hid; exact hlt
    · exact h5
  move := by
    rintro cur ps m ms st st' cn hi hn hd ⟨h1, h2, h3, h4, h5⟩ hmv _
    obtain ⟨hdep, hsum⟩ := heapSum_expandMove innerTree hi hn hd hmv
    obtain ⟨g1, g2, g3, g4⟩ := expandMove_summary hi hn hd hmv
    have hlen : st.nodes.length ≤ st'.nodes.length ∧ st'.nodes.length ≤ st.nodes.length + 1 := by
      rcases g4 with g4 | g4
      · rw [g4.2.1]; omega
      · rw [g4.2.2.1]; omega
    have hdepth : ∀ id ∈ st.explored, depthOf st'.nodes id = depthOf st.nodes id := by
      intro id hid
      rcases g4 with g4 | g4
      · rw [g4.2.1]
      · exact depthOf_ext g4.2.1 (h4 id hid)
    have hcnt := expandedBelow_congr (d := d) g3 hdepth
    rw [depthOf_eq hn] at h3
    simp only [List.length_cons, Nat.add_mul, one_mul] at h2 h3
    refine ⟨?_, ?_, ?_, ?_, ?_⟩
    · rw [g2, g3]; exact h1
    · rw [hcnt, g1]; omega
    · rw [hcnt, hdep]
      simp only [pendingInner] at h3 ⊢
      rcases hsum with hsum | hsum <;> rw [hsum] <;> omega
    · intro id hid
      rw [g3] at hid
      have := h4 id hid
      omega
    · rw [g1]; omega
  done := by
    rintro cur ps st _ ⟨h1, h2, h3, h4, h5⟩
    simp only [List.length_nil, zero_mul, add_zero] at h2 h3
    exact ⟨h1, h2, h3, h4, h5⟩

theorem count_initState (board : Board) (d gen exp seed : Nat) :
    (fun s : SearchState => s.expanded = exp + s.explored.length ∧
        s.generated = gen + 4 * expandedBelow d s ∧
        expandedBelow d s + pendingInner d s ≤ innerTree d ∧
        (∀ id ∈ s.explored, id < s.nodes.length) ∧
        s.nodes.length + gen ≤ s.generated + 1) (initState board d [] gen exp seed) := by
  refine ⟨rfl, rfl, ?_, ?_, ?_⟩
  · simp [expandedBelow, pendingInner, heapSum, initState, heap_push, depthOf, createNewNode,
      INITIAL]
  · intro id hid
    simp [initState] at hid
  · simp only [initState, List.length_singleton]
    omega

theorem expandMove_skel_ext {d : Nat} {E : BoardEngine} {propagation : propagation_t}
    {cur ps : Nat} {m : move_t} {st st' : SearchState} {cn : node_t} (hinv : Inv d st)
    (hn : st.nodes[cur]? = some cn) (hd : cn.depth < d)
    (h : expandMove E propagation cur ps st m = some st') :
    ∃ extra, st'.nodes.map skel = st.nodes.map skel ++ extra := by
  obtain ⟨-, -, -, h4 | h4⟩ := expandMove_summary hinv hn hd h
  · exact ⟨[], by rw [h4.2.1]; simp⟩
  · exact ⟨_, h4.2.1⟩

/-! ## The start node -/

theorem carried_root (d : Nat) (E : BoardEngine) (pick : SearchState → Nat)
    (propagation : propagation_t) (board : Board) :
    Carried d E pick propagation
      (fun s => ∃ root, s.nodes[0]? = some root ∧ root.depth = 0 ∧ root.board = board)
      (fun _ _ _ s => ∃ root, s.nodes[0]? = some root ∧ root.depth = 0 ∧ root.board = board)
    where
  leaf := fun _ _ _ _ _ hp _ _ _ => hp
  exp := fun _ _ _ _ _ hp _ _ _ => hp
  move := by
    rintro cur ps m ms st st' cn hi hn hd ⟨root, h1, h2, h3⟩ hmv _
    obtain ⟨extra, hext⟩ := expandMove_skel_ext hi hn hd hmv
    obtain ⟨root', h4, h5⟩ := skel_ext hext 0 root h1
    simp only [skel, Prod.mk.injEq] at h5
    exact ⟨root', h4, by rw [h5.1, h2], by rw [h5.2.2.2, h3]⟩
  done := fun _ _ _ _ hq => hq

theorem root_initState (board : Board) (d gen exp seed : Nat) :
    ∃ root, (initState board d [] gen exp seed).nodes[0]? = some root ∧ root.depth = 0 ∧
      root.board = board :=
  ⟨_, rfl, rfl, rfl⟩

/-! ## Room in the explored array -/

theorem carried_room (d : Nat) (E : BoardEngine) (pick : SearchState → Nat)
    (propagation : propagation_t) :
    Carried d E pick propagation
      (fun s => s.explored.length + pendingWeight d s ≤ fullTree d)
      (fun cur _ ms s => s.explored.length + pendingWeight d s
          + ms.length * fullTree (d - (depthOf s.nodes cur + 1)) ≤ fullTree d) where
  leaf := by
    intro st cur rest cn hi h1 hdel hn hd
    have hsum := heapSum_pop fullTree d st.nodes (heap_delete_perm hdel)
    have hfull : fullTree (d - depthOf st.nodes cur) = 1 := by
      rw [depthOf_eq hn]
      have : d - cn.depth = 0 := by omega
      rw [this]
      rfl
    simp only [pendingWeight, afterPop_nodes, afterPop_heap, afterPop_explored,
      List.length_append, List.length_singleton] at h1 ⊢
    omega
  exp := by
    intro st cur rest cn hi h1 hdel hn hd
    have hsum := heapSum_pop fullTree d st.nodes (heap_delete_perm hdel)
    simp only [pendingWeight, afterPop_nodes, afterPop_heap, afterPop_explored,
      List.length_append, List.length_singleton, depthOf_eq hn, allMoves,
      List.length_cons, List.length_nil] at h1 hsum ⊢
    rw [fullTree_sub hd] at hsum
    omega
  move := by
    intro cur ps m ms st st' cn hi hn hd h1 hmv _
    obtain ⟨hdep, hsum⟩ := heapSum_expandMove fullTree hi hn hd hmv
    obtain ⟨-, -, g3, -⟩ := expandMove_summary hi hn hd hmv
    rw [depthOf_eq hn] at h1
    simp only [pendingWeight, List.length_cons, Nat.add_mul, one_mul] at h1 ⊢
    rw [hdep, g3]
    rcases hsum with hsum | hsum <;> rw [hsum] <;> omega
  done := by
    intro cur ps st _ h1
    simp only [List.length_nil, zero_mul, add_zero] at h1
    exact h1

theorem room_initState (board : Board) (d gen exp seed : Nat) :
    (initState board d [] gen exp seed).explored.length
      + pendingWeight d (initState board d [] gen exp seed) ≤ fullTree d := by
  rw [pendingWeight_initState]
  simp [initState]

theorem book_initState (board : Board) (d gen exp seed : Nat) :
    ((initState board d [] gen exp seed).explored
      ++ (initState board d [] gen exp seed).heap).Perm
      (List.range (initState board d [] gen exp seed).nodes.length) := by
  simp [initState, heap_push, List.range_succ]

/-- At the end of the search the explored array holds every node of the arena. -/
theorem explored_length_of_book {s : SearchState}
    (h : (s.explored ++ s.heap).Perm (List.range s.nodes.length)) (hnil : s.heap = []) :
    s.explored.length = s.nodes.length := by
  have := h.length_eq
  simpa [hnil] using this

/-! ## Termination, the counters and the node bound -/

/-- C8: for every board, mode and `max_depth >= 1`, starting from an empty
worklist, the drain loop of `get_next_move` terminates: with fuel
`(4 ^ (max_depth + 1) - 1) / 3` or more both the search and `get_next_move` return,
the worklist is empty at the end of the loop and when the call returns, every node
created has depth at most `max_depth`, and at most `(4 ^ (max_depth + 1) - 1) / 3`
nodes were ever created. -/
theorem get_next_move_terminates (E : BoardEngine) (pick : SearchState → Nat) (board : Board)
    (d : Nat) (propagation : propagation_t) (gen exp seed r fuel : Nat) (hd : 1 ≤ d)
    (hfuel : (4 ^ (d + 1) - 1) / 3 ≤ fuel) :
    ∃ fin out, search E pick fuel board d propagation [] gen exp seed = some fin ∧
      get_next_move E pick fuel board d propagation [] gen exp seed r = some out ∧
      fin.heap = [] ∧ out.heap = [] ∧ (∀ n ∈ fin.nodes, n.depth ≤ d) ∧
      fin.nodes.length ≤ (4 ^ (d + 1) - 1) / 3 := by
  rw [← fullTree_eq] at hfuel ⊢
  obtain ⟨fin, h1, h2, h3, h4, h5⟩ := search_ok
    ((carried_book d E pick propagation).and (carried_room d E pick propagation))
    board gen exp seed fuel
    ⟨book_initState board d gen exp seed, room_initState board d gen exp seed⟩ hfuel
  refine ⟨fin, _, h1, get_next_move_eq hd h1, h2, h2, ?_, ?_⟩
  · intro n hn
    obtain ⟨i, hi⟩ := List.mem_iff_getElem?.1 hn
    exact (h3.1 i n hi).1
  · have := explored_length_of_book h4 h2
    omega

/-- Witness: `get_next_move_terminates` on the corner board with depth 1. -/
theorem get_next_move_terminates_witness :
    1 ≤ 1 ∧ (4 ^ (1 + 1) - 1) / 3 ≤ 5 ∧
    ∃ fin out, search sampleEngine maxPick 5 cornerBoard 1 propagation_t.max [] 0 0 7 = some fin ∧
      get_next_move sampleEngine maxPick 5 cornerBoard 1 propagation_t.max [] 0 0 7 3 = some out ∧
      fin.heap = [] ∧ out.heap = [] ∧ (∀ n ∈ fin.nodes, n.depth ≤ 1) ∧
      fin.nodes.length ≤ (4 ^ (1 + 1) - 1) / 3 :=
  ⟨by decide, by decide,
    get_next_move_terminates sampleEngine maxPick cornerBoard 1 propagation_t.max 0 0 7 3 5
      (by decide) (by decide)⟩

/-- C7: for every board, mode and `max_depth >= 1`, one call of `get_next_move`
raises the generated counter by exactly 4 times the number of popped nodes whose
depth is below `max_depth`; there are at most `(4 ^ max_depth - 1) / 3` such nodes,
so the increase is at most `4 * (4 ^ max_depth - 1) / 3 + 1`. -/
theorem generated_bound (E : BoardEngine) (pick : SearchState → Nat) (board : Board)
    (d : Nat) (propagation : propagation_t) (gen exp seed r fuel : Nat) (hd : 1 ≤ d)
    (hfuel : (4 ^ (d + 1) - 1) / 3 ≤ fuel) :
    ∃ fin out, search E pick fuel board d propagation [] gen exp seed = some fin ∧
      get_next_move E pick fuel board d propagation [] gen exp seed r = some out ∧
      out.generated = gen + 4 * expandedBelow d fin ∧
      expandedBelow d fin ≤ (4 ^ d - 1) / 3 ∧
      out.generated ≤ gen + (4 * (4 ^ d - 1) / 3 + 1) := by
  rw [← fullTree_eq] at hfuel
  obtain ⟨fin, h1, h2, h3, h4⟩ := search_ok (carried_count d E pick propagation gen exp)
    board gen exp seed fuel (count_initState board d gen exp seed) hfuel
  obtain ⟨-, h5, h6, -, -⟩ := h4
  have h7 : expandedBelow d fin ≤ (4 ^ d - 1) / 3 := by
    rw [← innerTree_eq]; omega
  refine ⟨fin, _, h1, get_next_move_eq hd h1, h5, h7, ?_⟩
  show fin.generated ≤ _
  have h8 := three_mul_innerTree d
  rw [h5]
  have h9 : 4 * (4 ^ d - 1) / 3 = 4 * innerTree d := by omega
  rw [h9, ← innerTree_eq] at *
  omega

/-- Witness: `generated_bound` on the corner board with depth 2. -/
theorem generated_bound_witness :
    1 ≤ 2 ∧ (4 ^ (2 + 1) - 1) / 3 ≤ 21 ∧
    ∃ fin out, search sampleEngine maxPick 21 cornerBoard 2 propagation_t.avg [] 0 0 7 = some fin ∧
      get_next_move sampleEngine maxPick 21 cornerBoard 2 propagation_t.avg [] 0 0 7 3
        = some out ∧
      out.generated = 0 + 4 * expandedBelow 2 fin ∧
      expandedBelow 2 fin ≤ (4 ^ 2 - 1) / 3 ∧
      out.generated ≤ 0 + (4 * (4 ^ 2 - 1) / 3 + 1) :=
  ⟨by decide, by decide,
    generated_bound sampleEngine maxPick cornerBoard 2 propagation_t.avg 0 0 7 3 21
      (by decide) (by decide)⟩

/-- C6 (as amended): for every board, mode and `max_depth >= 1`, with both
counters at zero before the call, `get_next_move` returns with
`nodesExpanded <= nodesGenerated + 1`: the expanded counter is the number of nodes
of the call (the start node and one node per direction that changed a board), and
each node but the start node was counted as generated. -/
theorem expanded_le_generated_succ (E : BoardEngine) (pick : SearchState → Nat)
    (board : Board) (d : Nat) (propagation : propagation_t) (seed r fuel : Nat) (hd : 1 ≤ d)
    (hfuel : (4 ^ (d + 1) - 1) / 3 ≤ fuel) :
    ∃ fin out, search E pick fuel board d propagation [] 0 0 seed = some fin ∧
      get_next_move E pick fuel board d propagation [] 0 0 seed r = some out ∧
      out.expanded = fin.nodes.length ∧ out.expanded ≤ out.generated + 1 := by
  rw [← fullTree_eq] at hfuel
  obtain ⟨fin, h1, h2, h3, h4, h5⟩ := search_ok
    ((carried_count d E pick propagation 0 0).and (carried_book d E pick propagation))
    board 0 0 seed fuel
    ⟨count_initState board d 0 0 seed, book_initState board d 0 0 seed⟩ hfuel
  obtain ⟨h6, -, -, -, h7⟩ := h4
  have h8 := explored_length_of_book h5 h2
  refine ⟨fin, _, h1, get_next_move_eq hd h1, ?_, ?_⟩
  · show fin.expanded = _
    omega
  · show fin.expanded ≤ fin.generated + 1
    omega

/-- Witness: `expanded_le_generated_succ` on the centre board with depth 1. -/
theorem expanded_le_generated_succ_witness :
    1 ≤ 1 ∧ (4 ^ (1 + 1) - 1) / 3 ≤ 5 ∧
    ∃ fin out, search sampleEngine maxPick 5 centreBoard 1 propagation_t.max [] 0 0 0 = some fin ∧
      get_next_move sampleEngine maxPick 5 centreBoard 1 propagation_t.max [] 0 0 0 0 = some out ∧
      out.expanded = fin.nodes.length ∧ out.expanded ≤ out.generated + 1 :=
  ⟨by decide, by decide,
    expanded_le_generated_succ sampleEngine maxPick centreBoard 1 propagation_t.max 0 0 5
      (by decide) (by decide)⟩

/-- C6 (counterexample): on the board whose only tile is at position (1, 1), with
`max_depth = 1`, mode max and both counters at zero, all four directions move the
tile: four directions are generated, and five nodes (the start node and its four
children) are popped and counted as expanded, so `nodesExpanded <= nodesGenerated`
fails. -/
theorem expanded_exceeds_generated :
    ∃ out, get_next_move sampleEngine maxPick 5 centreBoard 1 propagation_t.max [] 0 0 0 0
        = some out ∧
      out.generated = 4 ∧ out.expanded = 5 ∧ ¬ out.expanded ≤ out.generated := by
  have h : (get_next_move sampleEngine maxPick 5 centreBoard 1 propagation_t.max [] 0 0 0 0).map
      (fun o => (o.generated, o.expanded)) = some (4, 5) := by decide!
  cases hg : get_next_move sampleEngine maxPick 5 centreBoard 1 propagation_t.max [] 0 0 0 0 with
  | none => rw [hg] at h; cases h
  | some out =>
    rw [hg] at h
    simp only [Option.map_some', Option.some.injEq, Prod.mk.injEq] at h
    exact ⟨out, rfl, h.1, h.2, by omega⟩

/-- C10: for every board and mode, with `max_depth = 1` one call of
`get_next_move` raises the generated counter by exactly 4: exactly one popped node
(the start node) lies below the depth bound and is expanded, and each of its four
directions is counted. -/
theorem generated_depth_one (E : BoardEngine) (pick : SearchState → Nat) (board : Board)
    (propagation : propagation_t) (gen exp seed r fuel : Nat) (hfuel : 5 ≤ fuel) :
    ∃ fin out, search E pick fuel board 1 propagation [] gen exp seed = some fin ∧
      get_next_move E pick fuel board 1 propagation [] gen exp seed r = some out ∧
      expandedBelow 1 fin = 1 ∧ out.generated = gen + 4 := by
  obtain ⟨fin, h1, h2, h3, ⟨h4, h5⟩, h6⟩ := search_ok
    (((carried_count 1 E pick propagation gen exp).and (carried_book 1 E pick propagation)).and
      (carried_root 1 E pick propagation board))
    board gen exp seed fuel
    ⟨⟨count_initState board 1 gen exp seed, book_initState board 1 gen exp seed⟩,
      root_initState board 1 gen exp seed⟩ hfuel
  obtain ⟨-, h7, h8, -, -⟩ := h4
  obtain ⟨root, h9, h10, -⟩ := h6
  have hle : expandedBelow 1 fin ≤ 1 := by
    have : innerTree 1 = 1 := rfl
    omega
  have hge : 0 < expandedBelow 1 fin := by
    unfold expandedBelow
    rw [List.countP_pos_iff]
    refine ⟨0, ?_, ?_⟩
    · have h0 : 0 ∈ List.range fin.nodes.length :=
        List.mem_range.2 (lt_length_of_getElem? h9)
      have := h5.mem_iff.2 h0
      simpa [h2] using this
    · simp [depthOf_eq h9, h10]
  have heq : expandedBelow 1 fin = 1 := by omega
  refine ⟨fin, _, h1, get_next_move_eq (le_refl 1) h1, heq, ?_⟩
  show fin.generated = gen + 4
  rw [h7, heq]

/-- Witness: `generated_depth_one` on the board of the spec's scenario (one tile of
exponent 1 at position (0, 0)), mode max. -/
theorem generated_depth_one_witness :
    5 ≤ 5 ∧
    ∃ fin out, search sampleEngine maxPick 5 cornerBoard 1 propagation_t.max [] 0 0 7 = some fin ∧
      get_next_move sampleEngine maxPick 5 cornerBoard 1 propagation_t.max [] 0 0 7 3 = some out ∧
      expandedBelow 1 fin = 1 ∧ out.generated = 0 + 4 :=
  ⟨by decide, generated_depth_one sampleEngine maxPick cornerBoard propagation_t.max 0 0 7 3 5
    (by decide)⟩

/-- C5 (counterexample): with an empty candidate list `bestAction` has no guard:
for every draw `r`, `getMaximum` returns 0, `getBestRandomIndex` collects no tie
index and evaluates `rand() % nIndex` with `nIndex = 0`, a division by zero.  The
search reaches that call on a full board on which no direction changes anything
(`max_depth = 1`, mode max): the candidate list stays empty and `get_next_move`
ends in the division by zero instead of a "no move available" outcome. -/
theorem stuck_board_divides_by_zero :
    (∀ r, getMaximum [] = 0 ∧ tieIndices 0 [] 0 = [] ∧
      getBestRandomIndex [] (getMaximum []) r = .error Fault.divisionByZero ∧
      bestAction [] r = .error Fault.divisionByZero) ∧
    ∃ out, get_next_move sampleEngine maxPick 5 stuckBoard 1 propagation_t.max [] 0 0 0 0
        = some out ∧
      out.best_action = .error Fault.divisionByZero := by
  refine ⟨fun _ => ⟨rfl, rfl, rfl, rfl⟩, ?_⟩
  have h : (get_next_move sampleEngine maxPick 5 stuckBoard 1 propagation_t.max [] 0 0 0 0).map
      (fun o => match o.best_action with
        | .error Fault.divisionByZero => true
        | _ => false) = some true := by decide!
  cases hg : get_next_move sampleEngine maxPick 5 stuckBoard 1 propagation_t.max [] 0 0 0 0 with
  | none => rw [hg] at h; cases h
  | some out =>
    rw [hg] at h
    refine ⟨out, rfl, ?_⟩
    simp only [Option.map_some', Option.some.injEq] at h
    cases hb : out.best_action with
    | error e => cases e <;> simp_all
    | ok m => simp [hb] at h

/-! ## The arena after a node has been created -/

theorem newPriority_eq (propagation : propagation_t) (n an : node_t) :
    newPriority propagation n an
      = foldScore propagation an.priority (newCount n an) n.priority := by
  cases propagation <;> rfl

theorem firstPlyAncestor_congr {nodes nodes' : List node_t}
    (h : nodes'.map skel = nodes.map skel) {id a : Nat}
    (ha : firstPlyAncestor nodes id = some a) : firstPlyAncestor nodes' id = some a := by
  unfold firstPlyAncestor at ha ⊢
  rw [length_of_map_skel h]
  refine findDecisionParent_mono ?_ _ _ id a (le_refl _) ha
  intro i n hn
  obtain ⟨n', h1, h2, h3, h4, h5⟩ := getElem?_of_map_skel h hn
  exact ⟨n', h1, by simp [skel, h2, h3, h4, h5]⟩

/-- The arena right after `generatePossibility` has created a node of depth 1:
the new node is stored as created, the start node has one more child, and no
other node has changed. -/
theorem expandMove_created_first {d : Nat} {E : BoardEngine} {propagation : propagation_t}
    {cur ps : Nat} {m : move_t} {st st' : SearchState} {cn : node_t} (hinv : Inv d st)
    (hn : st.nodes[cur]? = some cn) (hd : cn.depth < d)
    (h : expandMove E propagation cur ps st m = some st')
    (hb : isEqualBoard (childBoard E cn.board m st.seed) cn.board = false)
    (h0 : cn.depth = 0) :
    st'.nodes = (st.nodes ++ [childNode E cn cur ps m st.seed]).set cur
      { cn with num_childs := cn.num_childs + 1 } := by
  obtain ⟨-, -, -, h4 | h4⟩ := expandMove_summary hinv hn hd h
  · rw [h4.1] at hb; cases hb
  · obtain ⟨c, hc, h5 | h5⟩ := propagateScore_cases h4.2.2.2.2.2
    · exact h5.2
    · rw [childNode_getElem? E ps st.seed m hn] at hc
      injection hc with hc
      subst hc
      exact absurd (by simp [childNode, h0]) h5.1

/-- The arena right after `generatePossibility` has created a node of depth 2 or
more: the new node is stored as created; its first-ply ancestor `a` has one more
child and the priority folded by `foldScore`; every other node keeps its priority,
and every other node of depth 1 is unchanged. -/
theorem expandMove_created_deep {d : Nat} {E : BoardEngine} {propagation : propagation_t}
    {cur ps : Nat} {m : move_t} {st st' : SearchState} {cn : node_t} (hinv : Inv d st)
    (hn : st.nodes[cur]? = some cn) (hd : cn.depth < d)
    (h : expandMove E propagation cur ps st m = some st')
    (hb : isEqualBoard (childBoard E cn.board m st.seed) cn.board = false)
    (h1 : 1 ≤ cn.depth) :
    ∃ a an, firstPlyAncestor st'.nodes st.nodes.length = some a ∧
      firstPlyAncestor st.nodes cur = some a ∧
      st.nodes[a]? = some an ∧ an.depth = 1 ∧
      st'.nodes[st.nodes.length]? = some (childNode E cn cur ps m st.seed) ∧
      st'.nodes[a]? = some { an with
        priority := foldScore propagation an.priority (an.num_childs + 1)
          (childNode E cn cur ps m st.seed).priority
        num_childs := an.num_childs + 1 } ∧
      (∀ (i : Nat) (n : node_t), st.nodes[i]? = some n → i ≠ a →
        ∃ n', st'.nodes[i]? = some n' ∧ skel n' = skel n ∧ n'.priority = n.priority ∧
          (i ≠ cur → n' = n) ∧
          (i = cur → n' = { n with num_childs := n.num_childs + 1 })) := by
  have hlt := lt_length_of_getElem? hn
  obtain ⟨-, -, -, h4 | h4⟩ := expandMove_summary hinv hn hd h
  · rw [h4.1] at hb; cases hb
  obtain ⟨-, hsk, hlen, -, -, hprop⟩ := h4
  have hnew := childNode_getElem? E ps st.seed m hn
  have hok2 := NodesOK_child E ps st.seed m hinv.1 hn hd
  have hcur2 : ((st.nodes ++ [childNode E cn cur ps m st.seed]).set cur
      { cn with num_childs := cn.num_childs + 1 })[cur]?
      = some { cn with num_childs := cn.num_childs + 1 } := by
    rw [List.getElem?_set_self (by simp; omega)]
  have hother2 : ∀ i, i ≠ cur → i < st.nodes.length →
      ((st.nodes ++ [childNode E cn cur ps m st.seed]).set cur
        { cn with num_childs := cn.num_childs + 1 })[i]? = st.nodes[i]? := by
    intro i hi hil
    rw [List.getElem?_set_ne (Ne.symm hi), List.getElem?_append_left hil]
  obtain ⟨c, hc, h5 | ⟨h5, a, an2, ha, han2, hset⟩⟩ := propagateScore_cases hprop
  · rw [hnew] at hc
    injection hc with hc
    subst hc
    exact absurd h5.1 (by simp [childNode]; omega)
  rw [hnew] at hc
  injection hc with hc
  subst hc
  obtain ⟨a', an', ha', han', hd', hle', -, hpar'⟩ :=
    firstPlyAncestor_ok hok2 hnew (by simp [childNode])
  rw [ha] at ha'
  injection ha' with ha'
  subst ha'
  rw [han2] at han'
  injection han' with han'
  subst han'
  have hane : a ≠ st.nodes.length := by
    intro he
    rw [he, hnew] at han2
    injection han2 with han2
    rw [← han2] at hd'
    simp [childNode] at hd'
    omega
  have halt : a < st.nodes.length := by omega
  -- the ancestor of the new node in the old arena
  have hanc_old : firstPlyAncestor st.nodes cur = some a ∧
      ∃ an, st.nodes[a]? = some an ∧ an.depth = 1 ∧ an2.priority = an.priority ∧
        newCount (childNode E cn cur ps m st.seed) an2 = an.num_childs + 1 ∧
        skel an2 = skel an := by
    obtain ⟨a0, an0, hb1, hb2, hb3, hb4, hb5, -⟩ := firstPlyAncestor_ok hinv.1 hn h1
    have hext : ∀ (i : Nat) (n : node_t), st.nodes[i]? = some n →
        ∃ n', ((st.nodes ++ [childNode E cn cur ps m st.seed]).set cur
          { cn with num_childs := cn.num_childs + 1 })[i]? = some n' ∧ skel n' = skel n :=
      skel_ext (map_skel_child E ps st.seed m hn)
    -- the walk from the new node passes through `cur`
    have hwalk : firstPlyAncestor ((st.nodes ++ [childNode E cn cur ps m st.seed]).set cur
        { cn with num_childs := cn.num_childs + 1 }) st.nodes.length = some a0 := by
      have hb1' := findDecisionParent_mono hext _ (st.nodes.length + 1) cur a0 (le_refl _) hb1
      unfold firstPlyAncestor
      rw [List.length_set, List.length_append, List.length_singleton]
      conv_lhs => unfold findDecisionParent
      simp only [hnew, DECISION_DEPTH]
      rw [if_neg (by simp [childNode]; omega)]
      simpa [childNode] using hb1'
    rw [ha] at hwalk
    injection hwalk with hwalk
    subst hwalk
    refine ⟨hb1, an0, hb2, hb3, ?_⟩
    by_cases hac : a = cur
    · subst hac
      rw [hn] at hb2
      injection hb2 with hb2
      subst hb2
      rw [hcur2] at han2
      injection han2 with han2
      subst han2
      refine ⟨rfl, ?_, rfl⟩
      simp [newCount, childNode, DECISION_DEPTH, NEXT_LEVEL, hb3]
    · rw [hother2 a hac halt, hb2] at han2
      injection han2 with han2
      subst han2
      refine ⟨rfl, ?_, rfl⟩
      have hc2 : cn.depth ≠ 1 := by
        intro h2
        have := hb5 h2
        exact hac this
      simp [newCount, childNode, DECISION_DEPTH, NEXT_LEVEL, hc2]
  obtain ⟨hanc, an, han, hand, hpr, hcnt, hskel⟩ := hanc_old
  have hpsk := propagateScore_skel hprop
  refine ⟨a, an, firstPlyAncestor_congr hpsk ha, hanc, han, hand, ?_, ?_, ?_⟩
  · rw [hset, List.getElem?_set_ne hane]
    exact hnew
  · rw [hset, List.getElem?_set_self (by simp; omega)]
    simp only [skel, Prod.mk.injEq] at hskel
    rw [newPriority_eq, hcnt, hpr]
    congr 1
    obtain ⟨p1, d1, k1, m1, b1, q1⟩ := an
    obtain ⟨p2, d2, k2, m2, b2, q2⟩ := an2
    simp only at hskel ⊢
    obtain ⟨rfl, rfl, rfl, rfl⟩ := hskel
    rfl
  · intro i n hi hia
    have hil := lt_length_of_getElem? hi
    rw [hset, List.getElem?_set_ne (Ne.symm hia)]
    by_cases hic : i = cur
    · subst hic
      rw [hn] at hi
      injection hi with hi
      subst hi
      exact ⟨_, hcur2, rfl, rfl, fun hne => absurd rfl hne, fun _ => rfl⟩
    · rw [hother2 i hic hil]
      exact ⟨n, hi, rfl, rfl, fun _ => rfl, fun h => absurd h hic⟩

/-! ## First-ply candidates -/

theorem skel_new {nodes nodes' : List node_t} {x : Nat × Option Nat × move_t × Board}
    (h : nodes'.map skel = nodes.map skel ++ [x]) :
    ∃ n', nodes'[nodes.length]? = some n' ∧ skel n' = x := by
  have h1 : (nodes'.map skel)[nodes.length]? = some x := by
    rw [h, List.getElem?_append_right (by simp)]
    simp
  rw [List.getElem?_map] at h1
  cases hn' : nodes'[nodes.length]? with
  | none => rw [hn'] at h1; cases h1
  | some n' =>
    rw [hn'] at h1
    exact ⟨n', rfl, by simpa using h1⟩

theorem slide_changes_of_child {E : BoardEngine} {b : Board} {m : move_t} {seed : Nat}
    (hE : ∀ (b : Board) (m : move_t), E.moved b m = true → isEqualBoard (E.slide b m) b = false)
    (hb : isEqualBoard (childBoard E b m seed) b = false) :
    isEqualBoard (E.slide b m) b = false := by
  cases hm : E.moved b m
  · simpa [childBoard, hm] using hb
  · exact hE b m hm

/-- Every entry of `decisionMove` is a node of depth 1 whose direction changes the
caller's board. -/
theorem carried_cand (d : Nat) (E : BoardEngine) (pick : SearchState → Nat)
    (propagation : propagation_t) (board : Board)
    (hE : ∀ (b : Board) (m : move_t), E.moved b m = true → isEqualBoard (E.slide b m) b = false) :
    Carried d E pick propagation
      (fun s => (∃ root, s.nodes[0]? = some root ∧ root.depth = 0 ∧ root.board = board) ∧
        ∀ id ∈ s.decisionMove, ∃ n, s.nodes[id]? = some n ∧ n.depth = 1 ∧
          isEqualBoard (E.slide board n.move) board = false)
      (fun _ _ _ s => (∃ root, s.nodes[0]? = some root ∧ root.depth = 0 ∧ root.board = board) ∧
        ∀ id ∈ s.decisionMove, ∃ n, s.nodes[id]? = some n ∧ n.depth = 1 ∧
          isEqualBoard (E.slide board n.move) board = false) where
  leaf := fun _ _ _ _ _ hp _ _ _ => hp
  exp := fun _ _ _ _ _ hp _ _ _ => hp
  move := by
    rintro cur ps m ms st st' cn hi hn hd ⟨hroot, hc⟩ hmv hi'
    refine ⟨(carried_root d E pick propagation board).move cur ps m ms st st' cn hi hn hd
      hroot hmv hi', ?_⟩
    obtain ⟨extra, hext⟩ := expandMove_skel_ext hi hn hd hmv
    have hold : ∀ id ∈ st.decisionMove, ∃ n, st'.nodes[id]? = some n ∧ n.depth = 1 ∧
        isEqualBoard (E.slide board n.move) board = false := by
      intro id hid
      obtain ⟨n, h1, h2, h3⟩ := hc id hid
      obtain ⟨n', h4, h5⟩ := skel_ext hext id n h1
      simp only [skel, Prod.mk.injEq] at h5
      exact ⟨n', h4, by rw [h5.1, h2], by rw [h5.2.2.1]; exact h3⟩
    obtain ⟨-, -, -, h4 | ⟨hb, hsk, -, -, hdm, -⟩⟩ := expandMove_summary hi hn hd hmv
    · rw [h4.2.2.2]; exact hold
    · rw [hdm]
      split_ifs with h0
      · intro id hid
        rcases List.mem_append.1 hid with hid | hid
        · exact hold id hid
        · simp only [List.mem_singleton] at hid
          subst hid
          have hc0 : cn.depth = 0 := by omega
          have hcur : cur = 0 := (NodesOK_depth_zero_iff hi.1 hn).1 hc0
          subst hcur
          obtain ⟨root, hr1, -, hr3⟩ := hroot
          rw [hn] at hr1
          injection hr1 with hr1
          subst hr1
          obtain ⟨n', h5, h6⟩ := skel_new hsk
          simp only [skel, childNode, Prod.mk.injEq] at h6
          refine ⟨n', h5, by rw [h6.1]; omega, ?_⟩
          rw [h6.2.2.1, ← hr3]
          exact slide_changes_of_child hE hb
      · exact hold
  done := fun _ _ _ _ hq => hq

/-- Once the start node has been expanded, `decisionMove` is not empty, provided
some direction `m0` yields a child board that differs from the caller's board. -/
theorem carried_nonempty (d : Nat) (E : BoardEngine) (pick : SearchState → Nat)
    (propagation : propagation_t) (board : Board) (m0 : move_t) (hd1 : 1 ≤ d)
    (hgood : ∀ seed, isEqualBoard (childBoard E board m0 seed) board = false) :
    Carried d E pick propagation
      (fun s => (∃ root, s.nodes[0]? = some root ∧ root.depth = 0 ∧ root.board = board) ∧
        (0 ∈ s.heap ∨ s.decisionMove ≠ []))
      (fun cur _ ms s =>
        (∃ root, s.nodes[0]? = some root ∧ root.depth = 0 ∧ root.board = board) ∧
        (cur = 0 → m0 ∈ ms ∨ s.decisionMove ≠ []) ∧
        (cur ≠ 0 → 0 ∈ s.heap ∨ s.decisionMove ≠ [])) where
  leaf := by
    rintro st cur rest cn hi ⟨hroot, hp⟩ hdel hn hd
    refine ⟨hroot, ?_⟩
    rcases hp with hp | hp
    · left
      have hperm := heap_delete_perm hdel
      rcases List.mem_cons.1 (hperm.mem_iff.1 hp) with h0 | h0
      · exfalso
        subst h0
        obtain ⟨root, hr1, hr2, -⟩ := hroot
        rw [hn] at hr1
        injection hr1 with hr1
        subst hr1
        omega
      · exact h0
    · right; exact hp
  exp := by
    rintro st cur rest cn hi ⟨hroot, hp⟩ hdel hn hd
    refine ⟨hroot, fun _ => Or.inl (by simp [allMoves]; cases m0 <;> simp), ?_⟩
    intro hc
    rcases hp with hp | hp
    · left
      have hperm := heap_delete_perm hdel
      rcases List.mem_cons.1 (hperm.mem_iff.1 hp) with h0 | h0
      · exact absurd h0.symm hc
      · exact h0
    · right; exact hp
  move := by
    rintro cur ps m ms st st' cn hi hn hd ⟨hroot, hq0, hq1⟩ hmv hi'
    refine ⟨(carried_root d E pick propagation board).move cur ps m ms st st' cn hi hn hd
      hroot hmv hi', ?_, ?_⟩
    · intro hc
      subst hc
      obtain ⟨root, hr1, hr2, hr3⟩ := hroot
      rw [hn] at hr1
      injection hr1 with hr1
      subst hr1
      obtain ⟨-, -, -, h4 | ⟨hb, -, -, -, hdm, -⟩⟩ := expandMove_summary hi hn hd hmv
      · rcases hq0 rfl with h5 | h5
        · rcases List.mem_cons.1 h5 with h6 | h6
          · exfalso
            subst h6
            have := hgood st.seed
            rw [← hr3, h4.1] at this
            cases this
          · exact Or.inl h6
        · right; rw [h4.2.2.2]; exact h5
      · right
        rw [hdm, if_pos (by omega)]
        simp
    · intro hc
      obtain ⟨-, -, -, h4 | ⟨-, -, -, hheap, hdm, -⟩⟩ := expandMove_summary hi hn hd hmv
      · rw [h4.2.2.1, h4.2.2.2]; exact hq1 hc
      · rcases hq1 hc with h5 | h5
        · left; rw [hheap]; exact List.mem_append_left _ h5
        · right
          rw [hdm]
          split_ifs
          · simp
          · exact h5
  done := by
    rintro cur ps st hi ⟨hroot, hq0, hq1⟩
    refine ⟨hroot, ?_⟩
    by_cases hc : cur = 0
    · rcases hq0 hc with h | h
      · simp at h
      · exact Or.inr h
    · exact hq1 hc

theorem candidates_mem {s : SearchState} {n : node_t} :
    n ∈ candidates s ↔ ∃ id ∈ s.decisionMove, s.nodes[id]? = some n := by
  simp [candidates, List.mem_filterMap]

/-- C1: for every board, either mode and `max_depth >= 1`, with a board engine
whose success flag is raised only by a move that changed the board: every first-ply
candidate recorded by `generatePossibility` has depth 1 and carries a direction
that, applied to the original board with `execute_move_t` (whatever the score),
changes the board; and when some direction yields a child whose board differs from
the original board, `get_next_move` returns a move, and that move changes the
original board. -/
theorem first_ply_never_noop (E : BoardEngine) (pick : SearchState → Nat) (board : Board)
    (d : Nat) (propagation : propagation_t) (gen exp seed r fuel : Nat) (hd : 1 ≤ d)
    (hfuel : (4 ^ (d + 1) - 1) / 3 ≤ fuel)
    (hE : ∀ (b : Board) (m : move_t), E.moved b m = true → isEqualBoard (E.slide b m) b = false)
    (hgood : ∃ m0, ∀ s, isEqualBoard (childBoard E board m0 s) board = false) :
    ∃ fin out mv, search E pick fuel board d propagation [] gen exp seed = some fin ∧
      get_next_move E pick fuel board d propagation [] gen exp seed r = some out ∧
      (∀ id ∈ fin.decisionMove, ∃ n, fin.nodes[id]? = some n ∧ n.depth = 1 ∧
        ∀ score, isEqualBoard (execute_move_t E board score n.move).2.1 board = false) ∧
      out.best_action = .ok mv ∧
      ∀ score, isEqualBoard (execute_move_t E board score mv).2.1 board = false := by
  rw [← fullTree_eq] at hfuel
  obtain ⟨m0, hgood⟩ := hgood
  obtain ⟨fin, h1, h2, h3, ⟨-, h4⟩, ⟨-, h5⟩⟩ := search_ok
    ((carried_cand d E pick propagation board hE).and
      (carried_nonempty d E pick propagation board m0 hd hgood))
    board gen exp seed fuel
    ⟨⟨root_initState board d gen exp seed, by simp [initState]⟩,
      ⟨root_initState board d gen exp seed, Or.inl (by simp [initState, heap_push])⟩⟩ hfuel
  have hne : candidates fin ≠ [] := by
    rcases h5 with h5 | h5
    · rw [h2] at h5; cases h5
    · obtain ⟨id, hid⟩ := List.exists_mem_of_ne_nil _ h5
      obtain ⟨n, hn, -, -⟩ := h4 id hid
      exact List.ne_nil_of_mem (candidates_mem.2 ⟨id, hid, hn⟩)
  obtain ⟨n, hn, hbest⟩ := bestAction_mem (candidates fin) r hne
  obtain ⟨id, hid, hnid⟩ := candidates_mem.1 hn
  refine ⟨fin, _, n.move, h1, get_next_move_eq hd h1, ?_, hbest, ?_⟩
  · intro id hid
    obtain ⟨n, hn, hd1, hs⟩ := h4 id hid
    exact ⟨n, hn, hd1, fun _ => hs⟩
  · obtain ⟨n', hn', -, hs⟩ := h4 id hid
    rw [hnid] at hn'
    injection hn' with hn'
    subst hn'
    exact fun _ => hs

/-! ## The sample engine -/

theorem Board.get_ofFn (f : Nat → Nat → Nat) (x y : Nat) (hx : x < 4) (hy : y < 4) :
    (Board.ofFn f).get x y = f x y := by
  interval_cases x <;> interval_cases y <;> rfl

theorem Board.get_set (b : Board) (i j v x y : Nat) (hx : x < 4) (hy : y < 4) :
    (b.set i j v).get x y = if x = i ∧ y = j then v else b.get x y := by
  unfold Board.set
  rw [Board.get_ofFn _ x y hx hy]

theorem getD_mem_cons {α : Type} (c : α) (cs : List α) (k : Nat) :
    (c :: cs).getD k c ∈ c :: cs := by
  rw [List.getD_eq_getElem?_getD]
  cases h : (c :: cs)[k]? with
  | none => simp
  | some x => simpa using List.getElem?_mem h

/-- The random tile of the sample engine never lands on an occupied cell. -/
theorem sampleAddRandom_keeps (b : Board) (seed x y : Nat) (hx : x < 4) (hy : y < 4)
    (h : b.get x y ≠ 0) : (sampleAddRandom b seed).1.get x y = b.get x y := by
  unfold sampleAddRandom
  cases he : emptyCells b with
  | nil => rfl
  | cons c cs =>
    simp only
    have hmem : (c :: cs).getD (seed % (c :: cs).length) c ∈ emptyCells b := by
      rw [he]; exact getD_mem_cons c cs _
    have hzero : b.get ((c :: cs).getD (seed % (c :: cs).length) c).1
        ((c :: cs).getD (seed % (c :: cs).length) c).2 = 0 := by
      unfold emptyCells at hmem
      simpa using (List.mem_filter.1 hmem).2
    rw [Board.get_set _ _ _ _ x y hx hy, if_neg]
    rintro ⟨h1, h2⟩
    rw [h1, h2] at h
    exact h hzero

theorem sampleEngine_moved (b : Board) (m : move_t) (h : sampleEngine.moved b m = true) :
    isEqualBoard (sampleEngine.slide b m) b = false := by
  simpa [sampleEngine] using h

theorem cornerBoard_right_child (seed : Nat) :
    isEqualBoard (childBoard sampleEngine cornerBoard move_t.right seed) cornerBoard = false := by
  have hm : sampleEngine.moved cornerBoard move_t.right = true := by decide
  have hs : sampleEngine.slide cornerBoard move_t.right
      = ⟨⟨0, 0, 0, 1⟩, ⟨0, 0, 0, 0⟩, ⟨0, 0, 0, 0⟩, ⟨0, 0, 0, 0⟩⟩ := by decide
  rw [isEqualBoard_false_iff]
  intro heq
  have h1 := sampleAddRandom_keeps ⟨⟨0, 0, 0, 1⟩, ⟨0, 0, 0, 0⟩, ⟨0, 0, 0, 0⟩, ⟨0, 0, 0, 0⟩⟩
    seed 0 3 (by decide) (by decide) (by decide)
  have h2 : childBoard sampleEngine cornerBoard move_t.right seed
      = (sampleAddRandom ⟨⟨0, 0, 0, 1⟩, ⟨0, 0, 0, 0⟩, ⟨0, 0, 0, 0⟩, ⟨0, 0, 0, 0⟩⟩ seed).1 := by
    simp only [childBoard, hm, if_true, hs]
    rfl
  rw [← h2, heq] at h1
  revert h1
  decide

/-- Witness: `first_ply_never_noop` on the board of the spec's scenario with the
sample engine; sliding right moves the tile away from position (0, 0). -/
theorem first_ply_never_noop_witness :
    1 ≤ 1 ∧ (4 ^ (1 + 1) - 1) / 3 ≤ 5 ∧
    (∀ (b : Board) (m : move_t), sampleEngine.moved b m = true →
      isEqualBoard (sampleEngine.slide b m) b = false) ∧
    (∃ m0, ∀ s, isEqualBoard (childBoard sampleEngine cornerBoard m0 s) cornerBoard = false) ∧
    ∃ fin out mv,
      search sampleEngine maxPick 5 cornerBoard 1 propagation_t.max [] 0 0 7 = some fin ∧
      get_next_move sampleEngine maxPick 5 cornerBoard 1 propagation_t.max [] 0 0 7 3 = some out ∧
      (∀ id ∈ fin.decisionMove, ∃ n, fin.nodes[id]? = some n ∧ n.depth = 1 ∧
        ∀ score,
          isEqualBoard (execute_move_t sampleEngine cornerBoard score n.move).2.1 cornerBoard
            = false) ∧
      out.best_action = .ok mv ∧
      ∀ score,
        isEqualBoard (execute_move_t sampleEngine cornerBoard score mv).2.1 cornerBoard = false :=
  ⟨by decide, by decide, sampleEngine_moved, ⟨move_t.right, cornerBoard_right_child⟩,
    first_ply_never_noop sampleEngine maxPick cornerBoard 1 propagation_t.max 0 0 7 3 5
      (by decide) (by decide) sampleEngine_moved ⟨move_t.right, cornerBoard_right_child⟩⟩

/-! ## Priorities, node by node -/

theorem length_le_of_skel_ext {nodes nodes' : List node_t}
    {extra : List (Nat × Option Nat × move_t × Board)}
    (h : nodes'.map skel = nodes.map skel ++ extra) : nodes.length ≤ nodes'.length := by
  have := congrArg List.length h
  simp at this
  omega

/-- What one direction of `generatePossibility` does to a node that already
exists: depth, parent, move and board stay; the priority stays unless the node has
depth 1; under max propagation the priority never decreases. -/
theorem expandMove_pointwise {d : Nat} {E : BoardEngine} {propagation : propagation_t}
    {cur ps : Nat} {m : move_t} {st st' : SearchState} {cn : node_t} (hinv : Inv d st)
    (hn : st.nodes[cur]? = some cn) (hd : cn.depth < d)
    (h : expandMove E propagation cur ps st m = some st') (i : Nat) (n : node_t)
    (hi : st.nodes[i]? = some n) :
    ∃ n', st'.nodes[i]? = some n' ∧ skel n' = skel n ∧
      (n.depth ≠ 1 → n'.priority = n.priority) ∧
      (propagation = propagation_t.max → n.priority ≤ n'.priority) := by
  have hil := lt_length_of_getElem? hi
  obtain ⟨-, -, -, h4 | h4⟩ := expandMove_summary hinv hn hd h
  · rw [h4.2.1]
    exact ⟨n, hi, rfl, fun _ => rfl, fun _ => le_refl _⟩
  · by_cases h0 : cn.depth = 0
    · rw [expandMove_created_first hinv hn hd h h4.1 h0]
      by_cases hic : i = cur
      · subst hic
        rw [hn] at hi
        injection hi with hi
        subst hi
        rw [List.getElem?_set_self (by simp; omega)]
        exact ⟨_, rfl, rfl, fun _ => rfl, fun _ => le_refl _⟩
      · rw [List.getElem?_set_ne (Ne.symm hic), List.getElem?_append_left hil]
        exact ⟨n, hi, rfl, fun _ => rfl, fun _ => le_refl _⟩
    · obtain ⟨a, an, -, -, han, hand, -, hnew, hrest⟩ :=
        expandMove_created_deep hinv hn hd h h4.1 (by omega)
      by_cases hia : i = a
      · subst hia
        rw [han] at hi
        injection hi with hi
        subst hi
        refine ⟨_, hnew, rfl, fun hne => absurd hand hne, ?_⟩
        intro hp
        subst hp
        simp only [foldScore]
        split_ifs <;> omega
      · obtain ⟨n', h5, h6, h7, -⟩ := hrest i n hi hia
        exact ⟨n', h5, h6, fun _ => h7, fun _ => by omega⟩

theorem IsDescendant_ext {d : Nat} {nodes nodes' : List node_t}
    {extra : List (Nat × Option Nat × move_t × Board)} (hok : NodesOK d nodes)
    (hext : nodes'.map skel = nodes.map skel ++ extra) {a id : Nat}
    (hid : id < nodes.length) : IsDescendant nodes' a id ↔ IsDescendant nodes a id := by
  have hn : nodes[id]? = some nodes[id] := List.getElem?_eq_getElem hid
  obtain ⟨n', hn', hs⟩ := skel_ext hext id _ hn
  simp only [skel, Prod.mk.injEq] at hs
  constructor
  · rintro ⟨n1, h1, h2, h3⟩
    rw [hn'] at h1
    injection h1 with h1
    subst h1
    refine ⟨_, hn, by omega, ?_⟩
    rw [← firstPlyAncestor_extend hok (skel_ext hext) (length_le_of_skel_ext hext) hn (by omega)]
    exact h3
  · rintro ⟨n1, h1, h2, h3⟩
    rw [hn] at h1
    injection h1 with h1
    subst h1
    refine ⟨n', hn', by omega, ?_⟩
    rw [firstPlyAncestor_extend hok (skel_ext hext) (length_le_of_skel_ext hext) hn (by omega)]
    exact h3

/-! ## Max propagation -/

/-- Under max propagation every node of depth 2 or more has a priority at most
that of its first-ply ancestor. -/
theorem carried_max (d : Nat) (E : BoardEngine) (pick : SearchState → Nat) :
    Carried d E pick propagation_t.max
      (fun s => ∀ (a id : Nat) (an n : node_t), IsDescendant s.nodes a id →
        s.nodes[id]? = some n → s.nodes[a]? = some an → n.priority ≤ an.priority)
      (fun _ _ _ s => ∀ (a id : Nat) (an n : node_t), IsDescendant s.nodes a id →
        s.nodes[id]? = some n → s.nodes[a]? = some an → n.priority ≤ an.priority) where
  leaf := fun _ _ _ _ _ hp _ _ _ => hp
  exp := fun _ _ _ _ _ hp _ _ _ => hp
  move := by
    intro cur ps m ms st st' cn hi hn hd hq hmv hi' a id an' n' hdesc hn' han'
    obtain ⟨extra, hext⟩ := expandMove_skel_ext hi hn hd hmv
    by_cases hid : id < st.nodes.length
    · -- a node that existed before
      have hdesc0 := (IsDescendant_ext hi.1 hext hid).1 hdesc
      obtain ⟨n, h1, h2, h3⟩ := hdesc0
      obtain ⟨a0, an0, h4, h5, -⟩ := firstPlyAncestor_ok hi.1 h1 (by omega)
      rw [h3] at h4
      injection h4 with h4
      subst h4
      obtain ⟨n1, g1, -, g3, -⟩ := expandMove_pointwise hi hn hd hmv id n h1
      obtain ⟨an1, g5, -, -, g8⟩ := expandMove_pointwise hi hn hd hmv a an0 h5
      rw [hn'] at g1
      injection g1 with g1
      subst g1
      rw [han'] at g5
      injection g5 with g5
      subst g5
      have := hq a id an0 n ⟨n, h1, h2, h3⟩ h1 h5
      have := g3 (by omega)
      have := g8 rfl
      omega
    · -- the node just created
      obtain ⟨-, -, -, h4 | h4⟩ := expandMove_summary hi hn hd hmv
      · rw [h4.2.1] at hn'
        exact absurd (lt_length_of_getElem? hn') hid
      · have hlen := h4.2.2.1
        have hid' : id = st.nodes.length := by
          have := lt_length_of_getElem? hn'
          omega
        subst hid'
        obtain ⟨n1, h1, h2, h3⟩ := hdesc
        rw [hn'] at h1
        injection h1 with h1
        subst h1
        obtain ⟨c, hc, hcs⟩ := skel_new h4.2.1
        rw [hn'] at hc
        injection hc with hc
        subst hc
        simp only [skel, childNode, Prod.mk.injEq] at hcs
        obtain ⟨a1, an1, g1, -, -, -, g5, g6, -⟩ :=
          expandMove_created_deep hi hn hd hmv h4.1 (by omega)
        rw [h3] at g1
        injection g1 with g1
        subst g1
        rw [hn'] at g5
        injection g5 with g5
        rw [han'] at g6
        injection g6 with g6
        rw [g6, g5]
        simp only [foldScore]
        split_ifs <;> omega
  done := fun _ _ _ _ hq => hq

theorem max_initState (board : Board) (d gen exp seed : Nat) :
    ∀ (a id : Nat) (an n : node_t),
      IsDescendant (initState board d [] gen exp seed).nodes a id →
      (initState board d [] gen exp seed).nodes[id]? = some n →
      (initState board d [] gen exp seed).nodes[a]? = some an → n.priority ≤ an.priority := by
  rintro a id an n ⟨n1, h1, h2, -⟩ - -
  rw [initState_root] at h1
  cases id with
  | zero =>
    simp only [List.getElem?_cons_zero, Option.some.injEq] at h1
    subst h1
    simp at h2
  | succ k => simp at h1

/-- The entries of `decisionMove` are exactly the nodes of depth 1. -/
theorem carried_dec (d : Nat) (E : BoardEngine) (pick : SearchState → Nat)
    (propagation : propagation_t) :
    Carried d E pick propagation
      (fun s => ∀ id, id ∈ s.decisionMove ↔ ∃ n, s.nodes[id]? = some n ∧ n.depth = 1)
      (fun _ _ _ s => ∀ id, id ∈ s.decisionMove ↔ ∃ n, s.nodes[id]? = some n ∧ n.depth = 1)
    where
  leaf := fun _ _ _ _ _ hp _ _ _ => hp
  exp := fun _ _ _ _ _ hp _ _ _ => hp
  move := by
    intro cur ps m ms st st' cn hi hn hd hq hmv hi' id
    obtain ⟨-, -, -, h4 | ⟨-, hsk, hlen, -, hdm, -⟩⟩ := expandMove_summary hi hn hd hmv
    · rw [h4.2.2.2, h4.2.1]; exact hq id
    · obtain ⟨c, hc, hcs⟩ := skel_new hsk
      simp only [skel, childNode, Prod.mk.injEq] at hcs
      by_cases hid : id < st.nodes.length
      · have hn0 : st.nodes[id]? = some st.nodes[id] := List.getElem?_eq_getElem hid
        obtain ⟨n', hn', hs⟩ := skel_ext hsk id _ hn0
        simp only [skel, Prod.mk.injEq] at hs
        have hmem : id ∈ st'.decisionMove ↔ id ∈ st.decisionMove := by
          rw [hdm]
          split_ifs
          · simp only [List.mem_append, List.mem_singleton]
            constructor
            · rintro (h | h)
              · exact h
              · omega
            · exact Or.inl
          · rfl
        rw [hmem, hq id]
        constructor
        · rintro ⟨n, h1, h2⟩
          rw [hn0] at h1
          injection h1 with h1
          subst h1
          exact ⟨n', hn', by omega⟩
        · rintro ⟨n, h1, h2⟩
          rw [hn'] at h1
          injection h1 with h1
          subst h1
          exact ⟨_, hn0, by omega⟩
      · by_cases hid' : id = st.nodes.length
        · subst hid'
          rw [hdm]
          constructor
          · intro h
            split_ifs at h with h0
            · exact ⟨c, hc, by omega⟩
            · have := (hq _).1 h
              obtain ⟨n, h1, -⟩ := this
              exact absurd (lt_length_of_getElem? h1) hid
          · rintro ⟨n, h1, h2⟩
            rw [hc] at h1
            injection h1 with h1
            subst h1
            rw [if_pos (by omega)]
            simp
        · constructor
          · intro h
            rw [hdm] at h
            have h' : id ∈ st.decisionMove := by
              split_ifs at h
              · rcases List.mem_append.1 h with h | h
                · exact h
                · simp only [List.mem_singleton] at h
                  exact absurd h hid'
              · exact h
            obtain ⟨n, h1, -⟩ := (hq _).1 h'
            exact absurd (lt_length_of_getElem? h1) hid
          · rintro ⟨n, h1, -⟩
            have := lt_length_of_getElem? h1
            omega
  done := fun _ _ _ _ hq => hq

theorem dec_initState (board : Board) (d gen exp seed : Nat) :
    ∀ id, id ∈ (initState board d [] gen exp seed).decisionMove ↔
      ∃ n, (initState board d [] gen exp seed).nodes[id]? = some n ∧ n.depth = 1 := by
  intro id
  rw [initState_root]
  constructor
  · intro h
    simp [initState] at h
  · rintro ⟨n, h1, h2⟩
    cases id with
    | zero =>
      simp only [List.getElem?_cons_zero, Option.some.injEq] at h1
      subst h1
      simp at h2
    | succ k => simp at h1

/-- C3: under max propagation, for every board and `max_depth >= 1`, when the
drain loop of `get_next_move` has ended (and `get_next_move` returns) every
first-ply candidate is a node of depth 1 whose score is at least the score of every
node of depth 2 or more in its subtree; a node of depth 2 or more keeps the score it
was created with (`expandMove_pointwise`). -/
theorem max_propagation_dominates (E : BoardEngine) (pick : SearchState → Nat)
    (board : Board) (d : Nat) (gen exp seed r fuel : Nat) (hd : 1 ≤ d)
    (hfuel : (4 ^ (d + 1) - 1) / 3 ≤ fuel) :
    ∃ fin out, search E pick fuel board d propagation_t.max [] gen exp seed = some fin ∧
      get_next_move E pick fuel board d propagation_t.max [] gen exp seed r = some out ∧
      fin.heap = [] ∧
      ∀ a ∈ fin.decisionMove, ∃ an, fin.nodes[a]? = some an ∧ an.depth = 1 ∧
        ∀ (id : Nat) (n : node_t), IsDescendant fin.nodes a id → fin.nodes[id]? = some n →
          n.priority ≤ an.priority := by
  rw [← fullTree_eq] at hfuel
  obtain ⟨fin, h1, h2, h3, h4, h5⟩ := search_ok
    ((carried_max d E pick).and (carried_dec d E pick propagation_t.max))
    board gen exp seed fuel
    ⟨max_initState board d gen exp seed, dec_initState board d gen exp seed⟩ hfuel
  refine ⟨fin, _, h1, get_next_move_eq hd h1, h2, ?_⟩
  intro a ha
  obtain ⟨an, han, hand⟩ := (h5 a).1 ha
  exact ⟨an, han, hand, fun id n hdesc hn => h4 a id an n hdesc hn han⟩

/-- Witness: `max_propagation_dominates` on the corner board with depth 3. -/
theorem max_propagation_dominates_witness :
    1 ≤ 3 ∧ (4 ^ (3 + 1) - 1) / 3 ≤ 85 ∧
    ∃ fin out,
      search sampleEngine maxPick 85 cornerBoard 3 propagation_t.max [] 0 0 7 = some fin ∧
      get_next_move sampleEngine maxPick 85 cornerBoard 3 propagation_t.max [] 0 0 7 3
        = some out ∧
      fin.heap = [] ∧
      ∀ a ∈ fin.decisionMove, ∃ an, fin.nodes[a]? = some an ∧ an.depth = 1 ∧
        ∀ (id : Nat) (n : node_t), IsDescendant fin.nodes a id → fin.nodes[id]? = some n →
          n.priority ≤ an.priority :=
  ⟨by decide, by decide,
    max_propagation_dominates sampleEngine maxPick cornerBoard 3 0 0 7 3 85
      (by decide) (by decide)⟩

/-! ## Average propagation -/

/-- The running mean stays between a lower and an upper bound of the old mean and
the new sample, as long as the 32-bit product does not wrap. -/
theorem foldScore_avg_bounds {old k cp lo hi B L : Nat} (hk : 2 ≤ k) (hlo1 : lo ≤ old)
    (hlo2 : lo ≤ cp) (hhi1 : old ≤ hi) (hhi2 : cp ≤ hi) (hB : hi ≤ B) (hkL : k ≤ L)
    (hBL : B * L < U32) :
    lo ≤ foldScore propagation_t.avg old k cp ∧ foldScore propagation_t.avg old k cp ≤ hi := by
  obtain ⟨j, rfl⟩ : ∃ j, k = j + 1 := ⟨k - 1, by omega⟩
  have h1 : old * j ≤ hi * j := Nat.mul_le_mul_right j hhi1
  have h2 : lo * j ≤ old * j := Nat.mul_le_mul_right j hlo1
  have h3 : hi * (j + 1) ≤ B * L := Nat.mul_le_mul hB hkL
  have h4 : hi * (j + 1) = hi * j + hi := Nat.mul_succ hi j
  have h5 : lo * (j + 1) = lo * j + lo := Nat.mul_succ lo j
  have hnw : (old * j + cp) % U32 = old * j + cp := Nat.mod_eq_of_lt (by omega)
  simp only [foldScore, CHILD_INSERTION, Nat.add_sub_cancel]
  rw [if_neg (by omega), hnw]
  constructor
  · rw [Nat.le_div_iff_mul_le (by omega)]
    omega
  · apply Nat.div_le_of_le_mul
    have h6 : (j + 1) * hi = hi * (j + 1) := Nat.mul_comm _ _
    omega

/-- A first-ply node that a creation leaves untouched, and below which the new
node does not lie, keeps its `AvgClause`. -/
theorem AvgClause_transfer {d : Nat} {nodes nodes' : List node_t}
    {x : Nat × Option Nat × move_t × Board} (hok : NodesOK d nodes)
    (hsk : nodes'.map skel = nodes.map skel ++ [x])
    (hpr : ∀ (i : Nat) (n : node_t), nodes[i]? = some n → 2 ≤ n.depth →
      ∃ n', nodes'[i]? = some n' ∧ n'.priority = n.priority)
    {a : Nat} {an : node_t} (hnot : ¬ IsDescendant nodes' a nodes.length)
    (hcl : AvgClause nodes a an) : AvgClause nodes' a an := by
  obtain ⟨c1, c2, c3⟩ := hcl
  have hlen : nodes'.length = nodes.length + 1 := by
    have := congrArg List.length hsk
    simpa using this
  refine ⟨by omega, ?_, ?_⟩
  · intro h0 id hdesc
    by_cases hid : id < nodes.length
    · exact c2 h0 id ((IsDescendant_ext hok hsk hid).1 hdesc)
    · have hdesc' := hdesc
      obtain ⟨n, hn, -, -⟩ := hdesc'
      have := lt_length_of_getElem? hn
      have hid' : id = nodes.length := by omega
      subst hid'
      exact hnot hdesc
  · intro hpos
    obtain ⟨i1, n1, i2, n2, d1, g1, d2, g2, b1, b2⟩ := c3 hpos
    have hi1 := lt_length_of_getElem? g1
    have hi2 := lt_length_of_getElem? g2
    obtain ⟨m1, f1, f2, f3⟩ := d1
    obtain ⟨m2, e1, e2, e3⟩ := d2
    rw [g1] at f1
    injection f1 with f1
    subst f1
    rw [g2] at e1
    injection e1 with e1
    subst e1
    obtain ⟨n1', q1, q2⟩ := hpr i1 n1 g1 f2
    obtain ⟨n2', r1, r2⟩ := hpr i2 n2 g2 e2
    exact ⟨i1, n1', i2, n2', (IsDescendant_ext hok hsk hi1).2 ⟨n1, g1, f2, f3⟩, q1,
      (IsDescendant_ext hok hsk hi2).2 ⟨n2, g2, e2, e3⟩, r1, by omega, by omega⟩

/-- Under average propagation, as long as the scores of the nodes of depth 2 or
more stay at most `B` and the arena at most `L` nodes with `B * L < 2 ^ 32`, every
first-ply node satisfies `AvgClause`. -/
theorem carried_avg (d : Nat) (E : BoardEngine) (pick : SearchState → Nat) (B L : Nat)
    (hBL : B * L < U32) :
    Carried d E pick propagation_t.avg
      (fun s => AvgBounded B L s.nodes → AvgInv s.nodes)
      (fun _ _ _ s => AvgBounded B L s.nodes → AvgInv s.nodes) where
  leaf := fun _ _ _ _ _ hp _ _ _ => hp
  exp := fun _ _ _ _ _ hp _ _ _ => hp
  move := by
    intro cur ps m ms st st' cn hi hn hd hq hmv hi' hbd'
    obtain ⟨extra, hext⟩ := expandMove_skel_ext hi hn hd hmv
    have hpr : ∀ (i : Nat) (n : node_t), st.nodes[i]? = some n → 2 ≤ n.depth →
        ∃ n', st'.nodes[i]? = some n' ∧ n'.priority = n.priority ∧ n'.depth = n.depth := by
      intro i n h1 h2
      obtain ⟨n', g1, g2, g3, -⟩ := expandMove_pointwise hi hn hd hmv i n h1
      simp only [skel, Prod.mk.injEq] at g2
      exact ⟨n', g1, g3 (by omega), g2.1⟩
    have hbd : AvgBounded B L st.nodes := by
      refine ⟨fun i n h1 h2 => ?_, ?_⟩
      · obtain ⟨n', g1, g2, g3⟩ := hpr i n h1 h2
        have := hbd'.1 i n' g1 (by omega)
        omega
      · have := length_le_of_skel_ext hext
        have := hbd'.2
        omega
    have hav := hq hbd
    obtain ⟨-, -, -, h4 | ⟨hb, hsk, hlen, -, -, -⟩⟩ := expandMove_summary hi hn hd hmv
    · rw [h4.2.1]; exact hav
    have hpr' : ∀ (i : Nat) (n : node_t), st.nodes[i]? = some n → 2 ≤ n.depth →
        ∃ n', st'.nodes[i]? = some n' ∧ n'.priority = n.priority := by
      intro i n h1 h2
      obtain ⟨n', g1, g2, -⟩ := hpr i n h1 h2
      exact ⟨n', g1, g2⟩
    intro a an' han' hand'
    have halt := lt_length_of_getElem? han'
    by_cases h0 : cn.depth = 0
    · -- the new node has depth 1
      have hst := expandMove_created_first hi hn hd hmv hb h0
      have hnewnode : st'.nodes[st.nodes.length]? = some (childNode E cn cur ps m st.seed) := by
        rw [hst]; exact childNode_getElem? E ps st.seed m hn
      by_cases hal : a < st.nodes.length
      · have hac : a ≠ cur := by
          intro hac
          subst hac
          rw [hst, List.getElem?_set_self (by simp; omega)] at han'
          injection han' with han'
          subst han'
          simp at hand'
          omega
        have han : st.nodes[a]? = some an' := by
          rw [hst, List.getElem?_set_ne (Ne.symm hac), List.getElem?_append_left hal] at han'
          exact han'
        refine AvgClause_transfer hi.1 hsk hpr' ?_ (hav a an' han hand')
        rintro ⟨n1, g1, g2, -⟩
        rw [hnewnode] at g1
        injection g1 with g1
        subst g1
        simp [childNode] at g2
        omega
      · have hal' : a = st.nodes.length := by omega
        subst hal'
        rw [hnewnode] at han'
        injection han' with han'
        subst han'
        refine ⟨by simp [childNode]; omega, ?_, ?_⟩
        · rintro - id ⟨n1, g1, g2, g3⟩
          obtain ⟨a0, -, q1, -, -, q4, -, -⟩ := firstPlyAncestor_ok hi'.1 g1 (by omega)
          rw [g3] at q1
          injection q1 with q1
          subst q1
          have := lt_length_of_getElem? g1
          have hid : id = st.nodes.length := by omega
          subst hid
          rw [hnewnode] at g1
          injection g1 with g1
          subst g1
          simp [childNode] at g2
          omega
        · intro hpos
          simp [childNode] at hpos
    · -- the new node has depth 2 or more
      obtain ⟨a0, an0, g1, g2, g3, g4, g5, g6, g7⟩ :=
        expandMove_created_deep hi hn hd hmv hb (by omega)
      have hcd : 2 ≤ (childNode E cn cur ps m st.seed).depth := by
        simp only [childNode]; omega
      have hchild : IsDescendant st'.nodes a0 st.nodes.length := ⟨_, g5, hcd, g1⟩
      by_cases haa : a = a0
      · subst haa
        rw [g6] at han'
        injection han' with han'
        subst han'
        obtain ⟨c1, c2, c3⟩ := hav a an0 g3 g4
        refine ⟨by simp only; omega, fun h => by simp at h, fun _ => ?_⟩
        by_cases hz : an0.num_childs = 0
        · refine ⟨_, _, _, _, hchild, g5, hchild, g5, ?_, ?_⟩ <;>
            simp [foldScore, hz, CHILD_INSERTION]
        · obtain ⟨i1, n1, i2, n2, d1, e1, d2, e2, b1, b2⟩ := c3 (by omega)
          have hi1 := lt_length_of_getElem? e1
          have hi2 := lt_length_of_getElem? e2
          have hd1 : 2 ≤ n1.depth := by
            obtain ⟨x, x1, x2, -⟩ := d1
            rw [e1] at x1
            injection x1 with x1
            subst x1
            exact x2
          have hd2 : 2 ≤ n2.depth := by
            obtain ⟨x, x1, x2, -⟩ := d2
            rw [e2] at x1
            injection x1 with x1
            subst x1
            exact x2
          obtain ⟨n1', q1, q2, q3⟩ := hpr i1 n1 e1 hd1
          obtain ⟨n2', r1, r2, r3⟩ := hpr i2 n2 e2 hd2
          have hB1 := hbd'.1 _ _ g5 hcd
          have hB2 := hbd'.1 i2 n2' r1 (by omega)
          have hL := hbd'.2
          have hlo : ∃ i n, IsDescendant st'.nodes a i ∧ st'.nodes[i]? = some n ∧
              n.priority ≤ an0.priority ∧
              n.priority ≤ (childNode E cn cur ps m st.seed).priority := by
            rcases le_total n1.priority (childNode E cn cur ps m st.seed).priority with hl | hl
            · exact ⟨i1, n1', (IsDescendant_ext hi.1 hsk hi1).2 d1, q1, by omega, by omega⟩
            · exact ⟨_, _, hchild, g5, by omega, le_refl _⟩
          have hhi : ∃ i n, IsDescendant st'.nodes a i ∧ st'.nodes[i]? = some n ∧
              an0.priority ≤ n.priority ∧
              (childNode E cn cur ps m st.seed).priority ≤ n.priority ∧ n.priority ≤ B := by
            rcases le_total (childNode E cn cur ps m st.seed).priority n2.priority with hl | hl
            · exact ⟨i2, n2', (IsDescendant_ext hi.1 hsk hi2).2 d2, r1, by omega, by omega,
                hB2⟩
            · exact ⟨_, _, hchild, g5, by omega, le_refl _, hB1⟩
          obtain ⟨j1, m1, x1, x2, x3, x4⟩ := hlo
          obtain ⟨j2, m2, y1, y2, y3, y4, y5⟩ := hhi
          have hfold := @foldScore_avg_bounds an0.priority (an0.num_childs + 1)
            (childNode E cn cur ps m st.seed).priority m1.priority m2.priority B L
            (by omega) x3 x4 y3 y4 y5 (by omega) hBL
          exact ⟨j1, m1, j2, m2, x1, x2, y1, y2, hfold.1, hfold.2⟩
      · have hal : a < st.nodes.length := by
          by_contra hge
          have hal' : a = st.nodes.length := by omega
          subst hal'
          rw [g5] at han'
          injection han' with han'
          subst han'
          omega
        have hn0 : st.nodes[a]? = some st.nodes[a] := List.getElem?_eq_getElem hal
        obtain ⟨n', q1, q2, -, q4, -⟩ := g7 a _ hn0 haa
        rw [han'] at q1
        injection q1 with q1
        subst q1
        simp only [skel, Prod.mk.injEq] at q2
        have hac : a ≠ cur := by
          intro hac
          subst hac
          rw [hn] at hn0
          injection hn0 with hn0
          obtain ⟨x, -, y1, -, -, -, y5, -⟩ := firstPlyAncestor_ok hi.1 hn (by omega)
          rw [g2] at y1
          injection y1 with y1
          subst y1
          rw [← hn0] at q2
          exact haa (y5 (by omega)).symm
        have han : st.nodes[a]? = some an' := by rw [q4 hac]; exact hn0
        refine AvgClause_transfer hi.1 hsk hpr' ?_ (hav a an' han hand')
        rintro ⟨n1, e1, e2, e3⟩
        rw [g1] at e3
        injection e3 with e3
        exact haa e3.symm
  done := fun _ _ _ _ hq => hq

theorem avg_initState (board : Board) (d gen exp seed : Nat) :
    AvgInv (initState board d [] gen exp seed).nodes := by
  intro a an han hand
  rw [initState_root] at han
  cases a with
  | zero =>
    simp only [List.getElem?_cons_zero, Option.some.injEq] at han
    subst han
    simp at hand
  | succ k => simp at han

/-- C4: under average propagation, for every board and `max_depth >= 1`, when the
drain loop of `get_next_move` has ended: if the scores of all nodes of depth 2 or
more are at most `B`, with `B * (4 ^ (max_depth + 1) - 1) / 3 < 2 ^ 32` (so that no
32-bit product of the running mean wraps), then the score of every first-ply
candidate with at least one node in its subtree lies between the scores of two
nodes of that subtree, hence between the minimum and the maximum score of the
subtree, both bounds included. -/
theorem average_propagation_bounds (E : BoardEngine) (pick : SearchState → Nat)
    (board : Board) (d : Nat) (gen exp seed r fuel B : Nat) (hd : 1 ≤ d)
    (hfuel : (4 ^ (d + 1) - 1) / 3 ≤ fuel) (hB : B * ((4 ^ (d + 1) - 1) / 3) < 2 ^ 32) :
    ∃ fin out, search E pick fuel board d propagation_t.avg [] gen exp seed = some fin ∧
      get_next_move E pick fuel board d propagation_t.avg [] gen exp seed r = some out ∧
      fin.heap = [] ∧
      ((∀ (i : Nat) (n : node_t), fin.nodes[i]? = some n → 2 ≤ n.depth → n.priority ≤ B) →
        ∀ a ∈ fin.decisionMove, ∃ an, fin.nodes[a]? = some an ∧ an.depth = 1 ∧
          ((∃ id, IsDescendant fin.nodes a id) →
            ∃ i1 n1 i2 n2, IsDescendant fin.nodes a i1 ∧ fin.nodes[i1]? = some n1 ∧
              IsDescendant fin.nodes a i2 ∧ fin.nodes[i2]? = some n2 ∧
              n1.priority ≤ an.priority ∧ an.priority ≤ n2.priority)) := by
  rw [← fullTree_eq] at hfuel hB
  obtain ⟨fin, h1, h2, h3, ⟨⟨h4, h5⟩, h6⟩, h7⟩ := search_ok
    ((((carried_avg d E pick B (fullTree d) hB).and (carried_dec d E pick propagation_t.avg)).and
      (carried_book d E pick propagation_t.avg)).and (carried_room d E pick propagation_t.avg))
    board gen exp seed fuel
    ⟨⟨⟨fun _ => avg_initState board d gen exp seed, dec_initState board d gen exp seed⟩,
      book_initState board d gen exp seed⟩, room_initState board d gen exp seed⟩ hfuel
  refine ⟨fin, _, h1, get_next_move_eq hd h1, h2, ?_⟩
  intro hbound a ha
  obtain ⟨an, han, hand⟩ := (h5 a).1 ha
  refine ⟨an, han, hand, ?_⟩
  rintro ⟨id, hdesc⟩
  have hlen : fin.nodes.length ≤ fullTree d := by
    have := explored_length_of_book h6 h2
    omega
  obtain ⟨-, c2, c3⟩ := h4 ⟨hbound, hlen⟩ a an han hand
  have hpos : 0 < an.num_childs := by
    by_contra hz
    exact c2 (by omega) id hdesc
  exact c3 hpos

/-- Witness: `average_propagation_bounds` on the corner board with depth 2 and
`B = 1000`; on this run every score is at most 1000. -/
theorem average_propagation_bounds_witness :
    1 ≤ 2 ∧ (4 ^ (2 + 1) - 1) / 3 ≤ 21 ∧ 1000 * ((4 ^ (2 + 1) - 1) / 3) < 2 ^ 32 ∧
    (search sampleEngine maxPick 21 cornerBoard 2 propagation_t.avg [] 0 0 7).all
      (fun fin => fin.nodes.all fun n => decide (n.priority ≤ 1000)) = true ∧
    ∃ fin out,
      search sampleEngine maxPick 21 cornerBoard 2 propagation_t.avg [] 0 0 7 = some fin ∧
      get_next_move sampleEngine maxPick 21 cornerBoard 2 propagation_t.avg [] 0 0 7 3
        = some out ∧
      fin.heap = [] ∧
      ((∀ (i : Nat) (n : node_t), fin.nodes[i]? = some n → 2 ≤ n.depth → n.priority ≤ 1000) →
        ∀ a ∈ fin.decisionMove, ∃ an, fin.nodes[a]? = some an ∧ an.depth = 1 ∧
          ((∃ id, IsDescendant fin.nodes a id) →
            ∃ i1 n1 i2 n2, IsDescendant fin.nodes a i1 ∧ fin.nodes[i1]? = some n1 ∧
              IsDescendant fin.nodes a i2 ∧ fin.nodes[i2]? = some n2 ∧
              n1.priority ≤ an.priority ∧ an.priority ≤ n2.priority)) :=
  ⟨by decide, by decide, by decide, by decide!,
    average_propagation_bounds sampleEngine maxPick cornerBoard 2 0 0 7 3 21 1000
      (by decide) (by decide) (by decide)⟩

/-! ## Tie-break by the random draw -/

theorem tiePositions_cons (max : Nat) (x : node_t) (xs : List node_t) :
    tiePositions max (x :: xs) =
      (if x.priority = max then [0] else []) ++ (tiePositions max xs).map Nat.succ := by
  unfold tiePositions
  rw [List.length_cons, List.range_succ_eq_map, List.filter_cons, List.filter_map]
  have hcomp : ((fun i => match (x :: xs)[i]? with
      | some n => decide (n.priority = max)
      | none => false) ∘ Nat.succ) = fun i => match xs[i]? with
      | some n => decide (n.priority = max)
      | none => false := by
    funext i
    simp
  rw [hcomp]
  by_cases hx : x.priority = max <;> simp [hx]

theorem tieIndices_eq (max : Nat) (l : List node_t) (k : Nat) :
    tieIndices max l k = (tiePositions max l).map (fun i => i + k) := by
  induction l generalizing k with
  | nil => rfl
  | cons x xs ih =>
    rw [tiePositions_cons]
    unfold tieIndices
    rw [ih (k + 1)]
    by_cases hx : x.priority = max
    · simp only [hx, if_true, List.map_append, List.map_cons, List.map_nil, List.map_map,
        List.singleton_append, Nat.zero_add]
      congr 1
      apply List.map_congr_left
      intro i _
      simp only [Function.comp]
      omega
    · simp only [hx, if_false, List.nil_append, List.map_map]
      apply List.map_congr_left
      intro i _
      simp only [Function.comp]
      omega

theorem tieIndices_zero (max : Nat) (l : List node_t) :
    tieIndices max l 0 = tiePositions max l := by
  rw [tieIndices_eq]
  simp

theorem getBestRandomIndex_eq (cands : List node_t) (max r : Nat)
    (hk : 1 ≤ (tiePositions max cands).length) :
    getBestRandomIndex cands max r
      = .ok ((tiePositions max cands).getD (r % (tiePositions max cands).length) 0) := by
  unfold getBestRandomIndex
  simp only [tieIndices_zero]
  rw [if_neg (by omega)]
  have hlt : r % (tiePositions max cands).length < (tiePositions max cands).length :=
    Nat.mod_lt _ (by omega)
  rw [List.getElem?_eq_getElem hlt, List.getD_eq_getElem?_getD, List.getElem?_eq_getElem hlt]
  rfl

/-- C11: with the random draw `r` as an input and `k >= 1` candidates holding the
score `max`, `getBestRandomIndex` returns the `(r mod k)`-th of their positions in
list order; every tied candidate is returned for some draw; and when exactly two
candidates tie, an even draw returns the first and an odd draw the second. -/
theorem tie_break_by_draw (cands : List node_t) (max r : Nat)
    (hk : 1 ≤ (tiePositions max cands).length) :
    getBestRandomIndex cands max r
      = .ok ((tiePositions max cands).getD (r % (tiePositions max cands).length) 0) ∧
    (∀ j, j < (tiePositions max cands).length →
      ∃ r', getBestRandomIndex cands max r' = .ok ((tiePositions max cands).getD j 0)) ∧
    (∀ i1 i2, tiePositions max cands = [i1, i2] →
      getBestRandomIndex cands max r = .ok (if r % 2 = 0 then i1 else i2)) := by
  refine ⟨getBestRandomIndex_eq cands max r hk, ?_, ?_⟩
  · intro j hj
    refine ⟨j, ?_⟩
    rw [getBestRandomIndex_eq cands max j hk, Nat.mod_eq_of_lt hj]
  · intro i1 i2 h2
    rw [getBestRandomIndex_eq cands max r hk, h2]
    simp only [List.length_cons, List.length_nil]
    rcases Nat.mod_two_eq_zero_or_one r with h | h
    · simp [h]
    · simp [h]

/-- Witness: `tie_break_by_draw` on three candidates of which the first and the
last tie at the maximum 5; the odd draw 3 selects the last. -/
theorem tie_break_by_draw_witness :
    1 ≤ (tiePositions 5 [⟨5, 1, 0, move_t.left, cornerBoard, some 0⟩,
      ⟨4, 1, 0, move_t.up, cornerBoard, some 0⟩,
      ⟨5, 1, 0, move_t.down, cornerBoard, some 0⟩]).length ∧
    getBestRandomIndex [⟨5, 1, 0, move_t.left, cornerBoard, some 0⟩,
      ⟨4, 1, 0, move_t.up, cornerBoard, some 0⟩,
      ⟨5, 1, 0, move_t.down, cornerBoard, some 0⟩] 5 3 = .ok 2 := by
  have hk : 1 ≤ (tiePositions 5 [⟨5, 1, 0, move_t.left, cornerBoard, some 0⟩,
      ⟨4, 1, 0, move_t.up, cornerBoard, some 0⟩,
      ⟨5, 1, 0, move_t.down, cornerBoard, some 0⟩]).length := by decide
  refine ⟨hk, ?_⟩
  have h := (tie_break_by_draw [⟨5, 1, 0, move_t.left, cornerBoard, some 0⟩,
      ⟨4, 1, 0, move_t.up, cornerBoard, some 0⟩,
      ⟨5, 1, 0, move_t.down, cornerBoard, some 0⟩] 5 3 hk).2.2 0 2 (by decide)
  rw [h]
  rfl

/-! ## Score propagation: the value written and the frame -/

/-- C14: under average propagation, for a new node `n` of depth 2 or more in a
well-formed arena (a direct child having been counted by `generatePossibility`
beforehand), `propagateScore` returns, and with `k` the child count of the
first-ply ancestor after `n` has been counted (unchanged for a direct child, one
more otherwise) the ancestor's score becomes `n.score` if `k = 1`, and otherwise
`(old score * (k - 1) + n.score) mod 2 ^ 32`, divided by `k` with truncation. -/
theorem propagateScore_average {d : Nat} {nodes : List node_t} {id : Nat} {n : node_t}
    (hok : NodesOK d nodes) (hn : nodes[id]? = some n) (h2 : 2 ≤ n.depth)
    (hcnt : n.depth = 2 → ∀ (p : Nat) (pn : node_t), n.parent = some p → nodes[p]? = some pn →
      1 ≤ pn.num_childs) :
    ∃ a an nodes' an', firstPlyAncestor nodes id = some a ∧ nodes[a]? = some an ∧
      an.depth = 1 ∧ propagateScore nodes id propagation_t.avg = some nodes' ∧
      nodes'[a]? = some an' ∧
      an'.num_childs = (if n.depth = 2 then an.num_childs else an.num_childs + 1) ∧
      an'.priority = (if an'.num_childs = 1 then n.priority
        else (an.priority * (an'.num_childs - 1) + n.priority) % 2 ^ 32 / an'.num_childs) := by
  obtain ⟨nodes', hp⟩ := propagateScore_isSome propagation_t.avg hok hn (by omega) hcnt
  obtain ⟨n1, hn1, h3 | ⟨-, a, an, ha, han, hset⟩⟩ := propagateScore_cases hp
  · rw [hn] at hn1
    injection hn1 with hn1
    subst hn1
    omega
  · rw [hn] at hn1
    injection hn1 with hn1
    subst hn1
    obtain ⟨a', an0, ha', han', hd', -⟩ := firstPlyAncestor_ok hok hn (by omega)
    rw [ha] at ha'
    injection ha' with ha'
    subst ha'
    rw [han] at han'
    injection han' with han'
    subst han'
    have halt := lt_length_of_getElem? han
    refine ⟨a, an, nodes', node_t.mk (newPriority propagation_t.avg n an) an.depth
      (newCount n an) an.move an.board an.parent, ha, han, hd', hp, ?_, ?_, ?_⟩
    · rw [hset, List.getElem?_set_self halt]
    · simp only [newCount, DECISION_DEPTH, NEXT_LEVEL]
      by_cases h : n.depth = 2 <;> simp [h]
    · simp only [newPriority, CHILD_INSERTION, U32]

/-- Witness: `propagateScore_average` on an arena of four nodes: the start node, a
first-ply node of score 14 that has counted its first child (score 20), and a
second child of score 27; the mean becomes `(20 * 1 + 27) / 2 = 23`. -/
theorem propagateScore_average_witness :
    NodesOK 2 [⟨0, 0, 1, move_t.left, cornerBoard, none⟩,
      ⟨20, 1, 2, move_t.right, cornerBoard, some 0⟩,
      ⟨20, 2, 0, move_t.left, cornerBoard, some 1⟩,
      ⟨27, 2, 0, move_t.up, cornerBoard, some 1⟩] ∧
    propagateScore [⟨0, 0, 1, move_t.left, cornerBoard, none⟩,
      ⟨20, 1, 2, move_t.right, cornerBoard, some 0⟩,
      ⟨20, 2, 0, move_t.left, cornerBoard, some 1⟩,
      ⟨27, 2, 0, move_t.up, cornerBoard, some 1⟩] 3 propagation_t.avg
      = some [⟨0, 0, 1, move_t.left, cornerBoard, none⟩,
        ⟨23, 1, 2, move_t.right, cornerBoard, some 0⟩,
        ⟨20, 2, 0, move_t.left, cornerBoard, some 1⟩,
        ⟨27, 2, 0, move_t.up, cornerBoard, some 1⟩] := by
  have hok : NodesOK 2 [⟨0, 0, 1, move_t.left, cornerBoard, none⟩,
      ⟨20, 1, 2, move_t.right, cornerBoard, some 0⟩,
      ⟨20, 2, 0, move_t.left, cornerBoard, some 1⟩,
      ⟨27, 2, 0, move_t.up, cornerBoard, some 1⟩] := by
    intro id n hn
    match id, hn with
    | 0, hn =>
      simp only [List.getElem?_cons_zero, Option.some.injEq] at hn
      subst hn
      exact ⟨by decide, Or.inl ⟨rfl, rfl, rfl⟩⟩
    | 1, hn =>
      simp only [List.getElem?_cons_succ, List.getElem?_cons_zero, Option.some.injEq] at hn
      subst hn
      exact ⟨by decide, Or.inr ⟨0, _, rfl, by decide, rfl, rfl⟩⟩
    | 2, hn =>
      simp only [List.getElem?_cons_succ, List.getElem?_cons_zero, Option.some.injEq] at hn
      subst hn
      exact ⟨by decide, Or.inr ⟨1, _, rfl, by decide, rfl, rfl⟩⟩
    | 3, hn =>
      simp only [List.getElem?_cons_succ, List.getElem?_cons_zero, Option.some.injEq] at hn
      subst hn
      exact ⟨by decide, Or.inr ⟨1, _, rfl, by decide, rfl, rfl⟩⟩
    | k + 4, hn => simp at hn
  refine ⟨hok, ?_⟩
  obtain ⟨a, an, nodes', an', -, -, -, h4, -, -, -⟩ := @propagateScore_average 2 _ 3
    ⟨27, 2, 0, move_t.up, cornerBoard, some 1⟩ hok rfl (by decide)
    (by
      intro _ p pn hp hpn
      simp only [Option.some.injEq] at hp
      subst hp
      simp only [List.getElem?_cons_succ, List.getElem?_cons_zero, Option.some.injEq] at hpn
      subst hpn
      decide)
  rw [h4]
  have : propagateScore [⟨0, 0, 1, move_t.left, cornerBoard, none⟩,
      ⟨20, 1, 2, move_t.right, cornerBoard, some 0⟩,
      ⟨20, 2, 0, move_t.left, cornerBoard, some 1⟩,
      ⟨27, 2, 0, move_t.up, cornerBoard, some 1⟩] 3 propagation_t.avg
      = some [⟨0, 0, 1, move_t.left, cornerBoard, none⟩,
        ⟨23, 1, 2, move_t.right, cornerBoard, some 0⟩,
        ⟨20, 2, 0, move_t.left, cornerBoard, some 1⟩,
        ⟨27, 2, 0, move_t.up, cornerBoard, some 1⟩] := by decide!
  rw [← h4, this]

theorem findDecisionParent_depth {nodes : List node_t} :
    ∀ (fuel id a : Nat), findDecisionParent fuel nodes id = some a →
      ∃ an, nodes[a]? = some an ∧ an.depth = 1 := by
  intro fuel
  induction fuel with
  | zero => intro id a h; simp [findDecisionParent] at h
  | succ fuel ih =>
    intro id a h
    unfold findDecisionParent at h
    cases hn : nodes[id]? with
    | none => simp [hn] at h
    | some n =>
      simp only [hn, DECISION_DEPTH] at h
      split_ifs at h with hd
      · injection h with h
        subst h
        exact ⟨n, hn, hd⟩
      · cases hp : n.parent with
        | none => simp [hp] at h
        | some p =>
          simp only [hp] at h
          exact ih p a h

/-- C17: when `propagateScore (n, mode)` returns, the node `n` itself is unchanged;
nothing at all has changed if `n.depth = 1`; otherwise exactly one node may have
changed, the depth-1 node the ancestor walk ends in, which differs from `n` and
keeps its depth, move, board and parent (only its score and child count are
written).  In `generatePossibility` the score of a node whose depth is not 1 is
never changed by a direction, so a score is mutated after creation only for
first-ply nodes and only by `propagateScore`. -/
theorem propagateScore_changes_only_anchor {nodes nodes' : List node_t} {id : Nat}
    {propagation : propagation_t} (h : propagateScore nodes id propagation = some nodes') :
    (∃ n, nodes[id]? = some n ∧ nodes'[id]? = some n ∧ nodes'.length = nodes.length ∧
      (n.depth = 1 → nodes' = nodes) ∧
      (n.depth ≠ 1 → ∃ a an an', firstPlyAncestor nodes id = some a ∧ a ≠ id ∧
        nodes[a]? = some an ∧ an.depth = 1 ∧ nodes'[a]? = some an' ∧
        an'.depth = an.depth ∧ an'.move = an.move ∧ an'.board = an.board ∧
        an'.parent = an.parent ∧ ∀ (i : Nat), i ≠ a → nodes'[i]? = nodes[i]?)) ∧
    (∀ (E : BoardEngine) (d cur ps : Nat) (m : move_t) (st st' : SearchState) (cn : node_t),
      Inv d st → st.nodes[cur]? = some cn → cn.depth < d →
      expandMove E propagation cur ps st m = some st' →
      ∀ (i : Nat) (x : node_t), st.nodes[i]? = some x → x.depth ≠ 1 →
        ∃ x', st'.nodes[i]? = some x' ∧ x'.priority = x.priority ∧ x'.depth = x.depth ∧
          x'.move = x.move ∧ x'.board = x.board ∧ x'.parent = x.parent) := by
  constructor
  · obtain ⟨n, hn, h1 | ⟨h1, a, an, ha, han, hset⟩⟩ := propagateScore_cases h
    · obtain ⟨h1, h2⟩ := h1
      subst h2
      exact ⟨n, hn, hn, rfl, fun _ => rfl, fun hne => absurd h1 hne⟩
    · obtain ⟨an0, han0, hd0⟩ := findDecisionParent_depth _ _ _ ha
      rw [han] at han0
      injection han0 with han0
      subst han0
      have hne : a ≠ id := by
        intro he
        subst he
        rw [hn] at han
        injection han with han
        subst han
        exact h1 hd0
      have halt := lt_length_of_getElem? han
      refine ⟨n, hn, ?_, ?_, fun h1' => absurd h1' h1, fun _ => ?_⟩
      · rw [hset, List.getElem?_set_ne hne]; exact hn
      · rw [hset, List.length_set]
      · refine ⟨a, an, node_t.mk (newPriority propagation n an) an.depth (newCount n an)
          an.move an.board an.parent, ha, hne, han, hd0, ?_, rfl, rfl, rfl, rfl, ?_⟩
        · rw [hset, List.getElem?_set_self halt]
        · intro i hi
          rw [hset, List.getElem?_set_ne (Ne.symm hi)]
  · intro E d cur ps m st st' cn hinv hn hd hmv i x hx hdx
    obtain ⟨x', g1, g2, g3, -⟩ := expandMove_pointwise hinv hn hd hmv i x hx
    simp only [skel, Prod.mk.injEq] at g2
    exact ⟨x', g1, g3 hdx, g2.1, g2.2.2.1, g2.2.2.2, g2.2.1⟩

/-- Witness: `propagateScore_changes_only_anchor` on the call that folds a second
child of score 27 into a first-ply node. -/
theorem propagateScore_changes_only_anchor_witness :
    propagateScore [⟨0, 0, 1, move_t.left, cornerBoard, none⟩,
      ⟨20, 1, 2, move_t.right, cornerBoard, some 0⟩,
      ⟨20, 2, 0, move_t.left, cornerBoard, some 1⟩,
      ⟨27, 2, 0, move_t.up, cornerBoard, some 1⟩] 3 propagation_t.max
      = some [⟨0, 0, 1, move_t.left, cornerBoard, none⟩,
        ⟨27, 1, 2, move_t.right, cornerBoard, some 0⟩,
        ⟨20, 2, 0, move_t.left, cornerBoard, some 1⟩,
        ⟨27, 2, 0, move_t.up, cornerBoard, some 1⟩] ∧
    ∃ n, ([⟨0, 0, 1, move_t.left, cornerBoard, none⟩,
        ⟨20, 1, 2, move_t.right, cornerBoard, some 0⟩,
        ⟨20, 2, 0, move_t.left, cornerBoard, some 1⟩,
        ⟨27, 2, 0, move_t.up, cornerBoard, some 1⟩] : List node_t)[3]? = some n ∧
      ([⟨0, 0, 1, move_t.left, cornerBoard, none⟩,
        ⟨27, 1, 2, move_t.right, cornerBoard, some 0⟩,
        ⟨20, 2, 0, move_t.left, cornerBoard, some 1⟩,
        ⟨27, 2, 0, move_t.up, cornerBoard, some 1⟩] : List node_t)[3]? = some n := by
  have h : propagateScore [⟨0, 0, 1, move_t.left, cornerBoard, none⟩,
      ⟨20, 1, 2, move_t.right, cornerBoard, some 0⟩,
      ⟨20, 2, 0, move_t.left, cornerBoard, some 1⟩,
      ⟨27, 2, 0, move_t.up, cornerBoard, some 1⟩] 3 propagation_t.max
      = some [⟨0, 0, 1, move_t.left, cornerBoard, none⟩,
        ⟨27, 1, 2, move_t.right, cornerBoard, some 0⟩,
        ⟨20, 2, 0, move_t.left, cornerBoard, some 1⟩,
        ⟨27, 2, 0, move_t.up, cornerBoard, some 1⟩] := by decide!
  obtain ⟨n, h1, h2, -⟩ := (propagateScore_changes_only_anchor h).1
  exact ⟨h, n, h1, h2⟩

/-! ## Every control point of the search -/

/-- A carried property holds at every control point of the search, together with
the arena invariant; inside `generatePossibility` the node being expanded is valid
and below the depth bound. -/
theorem reachable_carried {d : Nat} {E : BoardEngine} {pick : SearchState → Nat}
    {propagation : propagation_t} {P : SearchState → Prop}
    {Q : Nat → Nat → List move_t → SearchState → Prop}
    (c : Carried d E pick propagation P Q) {s0 : SearchState} (hinv0 : Inv d s0) (h0 : P s0)
    {s : SearchState} {ctl : Option (Nat × Nat × List move_t)}
    (hr : Reachable E pick d propagation s0 s ctl) :
    Inv d s ∧ (ctl = none → P s) ∧
      (∀ (cur ps : Nat) (ms : List move_t), ctl = some (cur, ps, ms) →
        Q cur ps ms s ∧ ∃ cn, s.nodes[cur]? = some cn ∧ cn.depth < d) := by
  induction hr with
  | start => exact ⟨hinv0, fun _ => h0, fun _ _ _ h => by cases h⟩
  | popLeaf hr hdel hn hd ih =>
    obtain ⟨hi, hp, -⟩ := ih
    exact ⟨(Inv_afterPop hi hdel).1, fun _ => c.leaf _ _ _ _ hi (hp rfl) hdel hn hd,
      fun _ _ _ h => by cases h⟩
  | popExpand hr hdel hn hd ih =>
    obtain ⟨hi, hp, -⟩ := ih
    refine ⟨(Inv_afterPop hi hdel).1, (fun h => by cases h), ?_⟩
    intro cur ps ms h
    injection h with h
    simp only [Prod.mk.injEq] at h
    obtain ⟨rfl, rfl, rfl⟩ := h
    exact ⟨c.exp _ _ _ _ hi (hp rfl) hdel hn hd, _, hn, hd⟩
  | move hr hmv ih =>
    obtain ⟨hi, -, hq⟩ := ih
    obtain ⟨hq1, cn, hn, hd⟩ := hq _ _ _ rfl
    obtain ⟨st2, h1, h2, cn', h3, h4⟩ := expandMove_ext propagation _ _ hi hn hd
    rw [hmv] at h1
    injection h1 with h1
    subst h1
    refine ⟨h2, (fun h => by cases h), ?_⟩
    intro cur ps ms h
    injection h with h
    simp only [Prod.mk.injEq] at h
    obtain ⟨rfl, rfl, rfl⟩ := h
    exact ⟨c.move _ _ _ _ _ _ cn hi hn hd hq1 hmv h2, cn', h3, by omega⟩
  | done hr ih =>
    obtain ⟨hi, -, hq⟩ := ih
    obtain ⟨hq1, -⟩ := hq _ _ _ rfl
    exact ⟨hi, fun _ => c.done _ _ _ hi hq1, fun _ _ _ h => by cases h⟩

theorem expandMoves_reachable {d : Nat} {E : BoardEngine} {pick : SearchState → Nat}
    {propagation : propagation_t} {s0 : SearchState} {cur ps : Nat} :
    ∀ (ms : List move_t) (s s' : SearchState),
      Reachable E pick d propagation s0 s (some (cur, ps, ms)) →
      expandMoves E propagation cur ps ms s = some s' →
      Reachable E pick d propagation s0 s' none := by
  intro ms
  induction ms with
  | nil =>
    intro s s' hr h
    simp only [expandMoves, Option.some.injEq] at h
    subst h
    exact Reachable.done hr
  | cons m ms ih =>
    intro s s' hr h
    unfold expandMoves at h
    cases h1 : expandMove E propagation cur ps s m with
    | none => simp [h1] at h
    | some s1 =>
      simp only [h1] at h
      exact ih s1 s' (Reachable.move hr h1) h

theorem popStep_reachable {d : Nat} {E : BoardEngine} {pick : SearchState → Nat}
    {propagation : propagation_t} {s0 s s' : SearchState}
    (hr : Reachable E pick d propagation s0 s none)
    (h : popStep E pick d propagation s = some s') :
    Reachable E pick d propagation s0 s' none := by
  cases hdel : heap_delete pick s with
  | none => simp [popStep, hdel] at h
  | some cr =>
    obtain ⟨cur, rest⟩ := cr
    cases hn : s.nodes[cur]? with
    | none =>
      have hn' : (insertIntoExplored { s with heap := rest, expanded := s.expanded + 1 }
          cur).nodes[cur]? = none := hn
      simp [popStep, hdel, hn'] at h
    | some cn =>
      rw [popStep_eq hdel hn] at h
      split_ifs at h with hd
      · exact expandMoves_reachable allMoves _ _ (Reachable.popExpand hr hdel hn hd) h
      · injection h with h
        subst h
        exact Reachable.popLeaf hr hdel hn hd

/-- The state in which the drain loop ends is one of its control points. -/
theorem drain_reachable {d : Nat} {E : BoardEngine} {pick : SearchState → Nat}
    {propagation : propagation_t} {s0 : SearchState} :
    ∀ (fuel : Nat) (s fin : SearchState), Reachable E pick d propagation s0 s none →
      drain E pick d propagation fuel s = some fin →
      Reachable E pick d propagation s0 fin none := by
  intro fuel
  induction fuel with
  | zero =>
    intro s fin hr h
    unfold drain at h
    split_ifs at h
    injection h with h
    subst h
    exact hr
  | succ fuel ih =>
    intro s fin hr h
    unfold drain at h
    split_ifs at h
    · injection h with h
      subst h
      exact hr
    · cases h1 : popStep E pick d propagation s with
      | none => simp [h1] at h
      | some s1 =>
        simp only [h1] at h
        exact ih s1 fin (popStep_reachable hr h1) h

theorem carried_true (d : Nat) (E : BoardEngine) (pick : SearchState → Nat)
    (propagation : propagation_t) :
    Carried d E pick propagation (fun _ => True) (fun _ _ _ _ => True) where
  leaf := fun _ _ _ _ _ _ _ _ _ => True.intro
  exp := fun _ _ _ _ _ _ _ _ _ => True.intro
  move := fun _ _ _ _ _ _ _ _ _ _ _ _ _ => True.intro
  done := fun _ _ _ _ _ => True.intro

theorem reachable_inv {d : Nat} {E : BoardEngine} {pick : SearchState → Nat}
    {propagation : propagation_t} {s0 : SearchState} (hinv0 : Inv d s0)
    {s : SearchState} {ctl : Option (Nat × Nat × List move_t)}
    (hr : Reachable E pick d propagation s0 s ctl) : Inv d s :=
  (reachable_carried (carried_true d E pick propagation) hinv0 True.intro hr).1

theorem search_reachable {d : Nat} {E : BoardEngine} {pick : SearchState → Nat}
    {propagation : propagation_t} {fuel : Nat} {board : Board} {gen exp seed : Nat}
    {fin : SearchState}
    (h : search E pick fuel board d propagation [] gen exp seed = some fin) :
    Reachable E pick d propagation (initState board d [] gen exp seed) fin none :=
  drain_reachable fuel _ fin Reachable.start h

theorem findDecisionParent_short {d : Nat} {nodes : List node_t} (hok : NodesOK d nodes) :
    ∀ (fuel id : Nat) (n : node_t), nodes[id]? = some n → fuel < n.depth →
      findDecisionParent fuel nodes id = none := by
  intro fuel
  induction fuel with
  | zero => intro id n _ _; rfl
  | succ fuel ih =>
    intro id n hn hlt
    unfold findDecisionParent
    simp only [hn, DECISION_DEPTH]
    rw [if_neg (by omega)]
    rcases (hok id n hn).2 with ⟨h1, -, -⟩ | ⟨p, pn, h1, -, h3, h4⟩
    · simp [h1]
    · simp only [h1]
      exact ih p pn h3 (by omega)

/-- C18: for every board, mode and `max_depth >= 1` the search returns, its final
state is a control point of the loops, and at every control point of the call
(the top of the `while` loop and every point between two directions of
`generatePossibility`) each node of the arena satisfies: it has depth 0 exactly
when it is the start node (index 0), which has no parent; its depth is at most
`max_depth`; if it is not the start node its parent is an earlier node and its
depth is the parent's depth plus 1; and if its depth is at least 1 the ancestor
walk of `propagateScore` reaches a node of depth 1 after `depth - 1` parent steps
and not earlier, without meeting a `NULL` parent. -/
theorem tree_shape_throughout (E : BoardEngine) (pick : SearchState → Nat) (board : Board)
    (d : Nat) (propagation : propagation_t) (gen exp seed r fuel : Nat) (hd : 1 ≤ d)
    (hfuel : (4 ^ (d + 1) - 1) / 3 ≤ fuel) :
    (∃ fin out, search E pick fuel board d propagation [] gen exp seed = some fin ∧
      get_next_move E pick fuel board d propagation [] gen exp seed r = some out ∧
      Reachable E pick d propagation (initState board d [] gen exp seed) fin none) ∧
    ∀ (s : SearchState) (ctl : Option (Nat × Nat × List move_t)),
      Reachable E pick d propagation (initState board d [] gen exp seed) s ctl →
      ∀ (i : Nat) (n : node_t), s.nodes[i]? = some n →
        (n.depth = 0 ↔ i = 0) ∧ n.depth ≤ d ∧ (i = 0 → n.parent = none) ∧
        (i ≠ 0 → ∃ p pn, n.parent = some p ∧ p < i ∧ s.nodes[p]? = some pn ∧
          n.depth = pn.depth + 1) ∧
        (1 ≤ n.depth → ∃ a an, findDecisionParent n.depth s.nodes i = some a ∧
          s.nodes[a]? = some an ∧ an.depth = 1 ∧
          findDecisionParent (n.depth - 1) s.nodes i = none ∧
          firstPlyAncestor s.nodes i = some a) := by
  constructor
  · rw [← fullTree_eq] at hfuel
    obtain ⟨fin, h1, -, -, -⟩ := search_ok (carried_true d E pick propagation) board gen exp
      seed fuel True.intro hfuel
    exact ⟨fin, _, h1, get_next_move_eq hd h1, search_reachable h1⟩
  · intro s ctl hr i n hn
    have hinv := reachable_inv (Inv_initState board d gen exp seed) hr
    have hz := NodesOK_depth_zero_iff hinv.1 hn
    obtain ⟨hle, hpar⟩ := hinv.1 i n hn
    refine ⟨hz, hle, ?_, ?_, ?_⟩
    · intro h0
      rcases hpar with ⟨h1, -, -⟩ | ⟨p, pn, -, h2, -, -⟩
      · exact h1
      · omega
    · intro h0
      rcases hpar with ⟨-, -, h1⟩ | ⟨p, pn, h1, h2, h3, h4⟩
      · exact absurd h1 h0
      · exact ⟨p, pn, h1, h2, h3, h4⟩
    · intro h1
      obtain ⟨a, an, g1, g2, g3, -⟩ := findDecisionParent_ok hinv.1 n.depth i n hn h1 (le_refl _)
      have hlt := lt_length_of_getElem? hn
      have hdi := NodesOK_depth_le_id hinv.1 i n hn
      refine ⟨a, an, g1, g2, g3, findDecisionParent_short hinv.1 _ i n hn (by omega), ?_⟩
      exact findDecisionParent_mono (fun _ x hx => ⟨x, hx, rfl⟩) _ _ i a (by omega) g1

/-- Witness: `tree_shape_throughout` on the corner board with depth 2. -/
theorem tree_shape_throughout_witness :
    1 ≤ 2 ∧ (4 ^ (2 + 1) - 1) / 3 ≤ 21 ∧
    ∃ fin out,
      search sampleEngine maxPick 21 cornerBoard 2 propagation_t.max [] 0 0 7 = some fin ∧
      get_next_move sampleEngine maxPick 21 cornerBoard 2 propagation_t.max [] 0 0 7 3
        = some out ∧
      Reachable sampleEngine maxPick 2 propagation_t.max (initState cornerBoard 2 [] 0 0 7)
        fin none :=
  ⟨by decide, by decide,
    (tree_shape_throughout sampleEngine maxPick cornerBoard 2 propagation_t.max 0 0 7 3 21
      (by decide) (by decide)).1⟩

/-! ## Boards are copied by value -/

theorem generatePossibility_eq {E : BoardEngine} {propagation : propagation_t} {cur : Nat}
    {st : SearchState} {cn : node_t} (hn : st.nodes[cur]? = some cn) :
    generatePossibility E propagation cur st
      = expandMoves E propagation cur cn.priority allMoves st := by
  unfold generatePossibility
  simp only [hn]
  rfl

theorem get_next_move_board {E : BoardEngine} {pick : SearchState → Nat} {fuel : Nat}
    {board : Board} {d : Nat} {propagation : propagation_t} {h : List Nat}
    {gen exp seed r : Nat} {out : Outcome}
    (hg : get_next_move E pick fuel board d propagation h gen exp seed r = some out) :
    out.board = board := by
  unfold get_next_move at hg
  split_ifs at hg
  · injection hg with hg
    subst hg
    rfl
  · cases hs : search E pick fuel board d propagation h gen exp seed with
    | none => simp [hs] at hg
    | some st =>
      simp only [hs, Option.some.injEq] at hg
      subst hg
      rfl

/-- On values: a board copied by `copyBoard` is equal to the original, a node
created from a board stores that board, and `generatePossibility` leaves the board
of every node that existed before the call, the expanded node included, as it
was. -/
theorem boards_kept_on_values :
    (∀ o : Board, isEqualBoard (copyBoard o) o = true ∧ copyBoard o = o) ∧
    (∀ (score depth k : Nat) (m : move_t) (b : Board) (p : Option Nat),
      (createNewNode score depth k m b p).board = b) ∧
    (∀ (E : BoardEngine) (pick : SearchState → Nat) (fuel : Nat) (board : Board) (d : Nat)
      (propagation : propagation_t) (h : List Nat) (gen exp seed r : Nat) (out : Outcome),
      get_next_move E pick fuel board d propagation h gen exp seed r = some out →
      out.board = board) ∧
    (∀ (E : BoardEngine) (d : Nat) (propagation : propagation_t) (cur : Nat)
      (st st' : SearchState) (cn : node_t), Inv d st → st.nodes[cur]? = some cn →
      cn.depth < d → generatePossibility E propagation cur st = some st' →
      ∀ (i : Nat) (n : node_t), st.nodes[i]? = some n →
        ∃ n', st'.nodes[i]? = some n' ∧ n'.board = n.board) := by
  refine ⟨fun o => ⟨(isEqualBoard_iff _ _).2 rfl, rfl⟩, fun _ _ _ _ _ _ => rfl,
    fun _ _ _ _ _ _ _ _ _ _ _ _ hg => get_next_move_board hg, ?_⟩
  intro E d propagation cur st st' cn hinv hn hd hgp i n hi
  rw [generatePossibility_eq hn] at hgp
  obtain ⟨st2, h1, -, h3⟩ := expandMoves_ok
    (fun _ s => ∃ n', s.nodes[i]? = some n' ∧ n'.board = n.board)
    (by
      rintro m ms s s' cn1 hi1 hn1 hd1 ⟨n1, g1, g2⟩ hmv -
      obtain ⟨extra, hext⟩ := expandMove_skel_ext hi1 hn1 hd1 hmv
      obtain ⟨n2, g3, g4⟩ := skel_ext hext i n1 g1
      simp only [skel, Prod.mk.injEq] at g4
      exact ⟨n2, g3, by rw [g4.2.2.2, g2]⟩)
    allMoves st cn hinv hn hd ⟨n, hi, rfl⟩
  rw [hgp] at h1
  injection h1 with h1
  subst h1
  exact h3

/-! ## Every node is popped exactly once -/

/-- C16: for every board, mode, `max_depth >= 1` and every choice made by the
worklist's pop (`pick`), when `get_next_move` returns the worklist is empty and the
explored array is a rearrangement of all node indices of the call, without
repetition: every node pushed (the start node and every created child) was popped,
counted and retained exactly once, and `freeExplored` releases exactly that array.
The expanded counter rose by 1 plus the number of nodes created, and the nodes
handed to `generatePossibility` are all the nodes of depth below `max_depth`. -/
theorem every_node_popped_once (E : BoardEngine) (pick : SearchState → Nat) (board : Board)
    (d : Nat) (propagation : propagation_t) (gen exp seed r fuel : Nat) (hd : 1 ≤ d)
    (hfuel : (4 ^ (d + 1) - 1) / 3 ≤ fuel) :
    ∃ fin out, search E pick fuel board d propagation [] gen exp seed = some fin ∧
      get_next_move E pick fuel board d propagation [] gen exp seed r = some out ∧
      out.heap = [] ∧ fin.explored.Perm (List.range fin.nodes.length) ∧
      fin.explored.Nodup ∧ out.freed = fin.explored ∧ 1 ≤ fin.nodes.length ∧
      out.expanded = exp + 1 + (fin.nodes.length - 1) ∧
      expandedBelow d fin
        = (List.range fin.nodes.length).countP (fun i => decide (depthOf fin.nodes i < d)) ∧
      out.generated = gen + 4 * expandedBelow d fin := by
  rw [← fullTree_eq] at hfuel
  obtain ⟨fin, h1, h2, h3, ⟨h4, h5⟩, h6⟩ := search_ok
    (((carried_count d E pick propagation gen exp).and (carried_book d E pick propagation)).and
      (carried_root d E pick propagation board))
    board gen exp seed fuel
    ⟨⟨count_initState board d gen exp seed, book_initState board d gen exp seed⟩,
      root_initState board d gen exp seed⟩ hfuel
  obtain ⟨g1, g2, -, -, -⟩ := h4
  obtain ⟨root, hroot, -, -⟩ := h6
  have hperm : fin.explored.Perm (List.range fin.nodes.length) := by
    simpa [h2] using h5
  have hlen := explored_length_of_book h5 h2
  have hpos := lt_length_of_getElem? hroot
  refine ⟨fin, _, h1, get_next_move_eq hd h1, h2, hperm,
    hperm.nodup_iff.2 (List.nodup_range _), rfl, by omega, ?_, ?_, g2⟩
  · show fin.expanded = _
    omega
  · unfold expandedBelow
    exact hperm.countP_eq _

/-- Witness: `every_node_popped_once` on the centre board with depth 2, the
worklist popping the most recently pushed node instead of a maximum. -/
theorem every_node_popped_once_witness :
    1 ≤ 2 ∧ (4 ^ (2 + 1) - 1) / 3 ≤ 21 ∧
    ∃ fin out,
      search sampleEngine (fun s => s.heap.length - 1) 21 centreBoard 2 propagation_t.avg
        [] 0 0 7 = some fin ∧
      get_next_move sampleEngine (fun s => s.heap.length - 1) 21 centreBoard 2
        propagation_t.avg [] 0 0 7 3 = some out ∧
      out.heap = [] ∧ fin.explored.Perm (List.range fin.nodes.length) ∧
      fin.explored.Nodup ∧ out.freed = fin.explored ∧ 1 ≤ fin.nodes.length ∧
      out.expanded = 0 + 1 + (fin.nodes.length - 1) ∧
      expandedBelow 2 fin
        = (List.range fin.nodes.length).countP (fun i => decide (depthOf fin.nodes i < 2)) ∧
      out.generated = 0 + 4 * expandedBelow 2 fin :=
  ⟨by decide, by decide,
    every_node_popped_once sampleEngine (fun s => s.heap.length - 1) centreBoard 2
      propagation_t.avg 0 0 7 3 21 (by decide) (by decide)⟩

/-! ## The children created by `generatePossibility` -/

/-- The arena after a direction that created a node: the new node is stored as
created, the expanded node has one more child (its other immutable fields
unchanged), and every node allocated after the expanded node is untouched. -/
theorem expandMove_effect {d : Nat} {E : BoardEngine} {propagation : propagation_t}
    {cur ps : Nat} {m : move_t} {st st' : SearchState} {cn : node_t} (hinv : Inv d st)
    (hn : st.nodes[cur]? = some cn) (hd : cn.depth < d)
    (h : expandMove E propagation cur ps st m = some st')
    (hb : isEqualBoard (childBoard E cn.board m st.seed) cn.board = false) :
    st'.nodes[st.nodes.length]? = some (childNode E cn cur ps m st.seed) ∧
    (∃ cn', st'.nodes[cur]? = some cn' ∧ skel cn' = skel cn ∧
      cn'.num_childs = cn.num_childs + 1) ∧
    (∀ (i : Nat) (n : node_t), st.nodes[i]? = some n → cur < i → st'.nodes[i]? = some n) := by
  have hlt := lt_length_of_getElem? hn
  by_cases h0 : cn.depth = 0
  · have hst := expandMove_created_first hinv hn hd h hb h0
    refine ⟨?_, ?_, ?_⟩
    · rw [hst]; exact childNode_getElem? E ps st.seed m hn
    · rw [hst, List.getElem?_set_self (by simp; omega)]
      exact ⟨_, rfl, rfl, rfl⟩
    · intro i n hi hci
      have hil := lt_length_of_getElem? hi
      rw [hst, List.getElem?_set_ne (by omega), List.getElem?_append_left hil]
      exact hi
  · obtain ⟨a, an, -, g2, g3, -, g5, g6, g7⟩ :=
      expandMove_created_deep hinv hn hd h hb (by omega)
    obtain ⟨a', -, q1, -, -, q4, -, -⟩ := firstPlyAncestor_ok hinv.1 hn (by omega)
    rw [g2] at q1
    injection q1 with q1
    subst q1
    refine ⟨g5, ?_, ?_⟩
    · by_cases hac : a = cur
      · subst hac
        rw [hn] at g3
        injection g3 with g3
        subst g3
        exact ⟨_, g6, rfl, rfl⟩
      · obtain ⟨n', r1, r2, -, -, r5⟩ := g7 cur cn hn (Ne.symm hac)
        refine ⟨n', r1, r2, ?_⟩
        rw [r5 rfl]
    · intro i n hi hci
      obtain ⟨n', r1, -, -, r4, -⟩ := g7 i n hi (by omega)
      rw [r1, r4 (by omega)]

/-- When `generatePossibility` expands a valid node `current` below the depth
bound, every node it creates has score `(s + merge points of its move on current's
board + countEmpty of its own board) mod 2 ^ 32`, where `s` is current's score
read before the loop, depth `current.depth + 1`, parent `current`, no child, and
a board that is the moved board of current with the random tile placed and differs
from current's board; and when the call is over `current` has gained as many
children as nodes were created, its depth, parent, move and board unchanged. -/
theorem generatePossibility_created_fields {d : Nat} {E : BoardEngine}
    {propagation : propagation_t}
    {cur : Nat} {st st' : SearchState} {cn : node_t} (hinv : Inv d st)
    (hn : st.nodes[cur]? = some cn) (hd : cn.depth < d)
    (h : generatePossibility E propagation cur st = some st') :
    st.nodes.length ≤ st'.nodes.length ∧
    (∃ cn', st'.nodes[cur]? = some cn' ∧ skel cn' = skel cn ∧
      cn'.num_childs = cn.num_childs + (st'.nodes.length - st.nodes.length)) ∧
    ∀ (i : Nat) (n : node_t), st.nodes.length ≤ i → st'.nodes[i]? = some n →
      n.priority = ((cn.priority + E.points cn.board n.move) % 2 ^ 32
        + E.countEmpty n.board) % 2 ^ 32 ∧
      n.depth = cn.depth + 1 ∧ n.parent = some cur ∧ n.num_childs = 0 ∧
      (∃ seed, n.board = childBoard E cn.board n.move seed) ∧
      isEqualBoard n.board cn.board = false := by
  rw [generatePossibility_eq hn] at h
  obtain ⟨st2, h1, -, h3⟩ := @expandMoves_ok d E propagation cur cn.priority
    (fun _ s => st.nodes.length ≤ s.nodes.length ∧
      (∃ cn', s.nodes[cur]? = some cn' ∧ skel cn' = skel cn ∧
        cn'.num_childs = cn.num_childs + (s.nodes.length - st.nodes.length)) ∧
      ∀ (i : Nat) (n : node_t), st.nodes.length ≤ i → s.nodes[i]? = some n →
        n.priority = ((cn.priority + E.points cn.board n.move) % 2 ^ 32
          + E.countEmpty n.board) % 2 ^ 32 ∧
        n.depth = cn.depth + 1 ∧ n.parent = some cur ∧ n.num_childs = 0 ∧
        (∃ seed, n.board = childBoard E cn.board n.move seed) ∧
        isEqualBoard n.board cn.board = false)
    (by
      rintro m ms s s' cn1 hi1 hn1 hd1 ⟨q1, ⟨cn', q2, q3, q4⟩, q5⟩ hmv -
      rw [hn1] at q2
      injection q2 with q2
      subst q2
      simp only [skel, Prod.mk.injEq] at q3
      have hcl := lt_length_of_getElem? hn
      obtain ⟨-, -, -, g4 | ⟨hb, -, hlen, -, -, -⟩⟩ := expandMove_summary hi1 hn1 hd1 hmv
      · rw [g4.2.1]
        exact ⟨q1, ⟨cn1, hn1, by simp [skel, q3], q4⟩, q5⟩
      · obtain ⟨e1, ⟨cn2, e2, e3, e4⟩, e5⟩ := expandMove_effect hi1 hn1 hd1 hmv hb
        refine ⟨by omega, ⟨cn2, e2, by rw [e3]; simp [skel, q3], by omega⟩, ?_⟩
        intro i n hil hi
        have hi' := lt_length_of_getElem? hi
        by_cases hlast : i = s.nodes.length
        · subst hlast
          rw [e1] at hi
          injection hi with hi
          subst hi
          have hcb : cn1.board = cn.board := q3.2.2.2
          have hcd : cn1.depth = cn.depth := q3.1
          exact ⟨by simp [childNode, U32, hcb], by simp [childNode, hcd], rfl, rfl,
            ⟨s.seed, by simp [childNode, hcb]⟩, by simpa [childNode, hcb] using hb⟩
        · have hold : s.nodes[i]? = some s.nodes[i] :=
            List.getElem?_eq_getElem (by omega)
          have hnew := e5 i _ hold (by omega)
          rw [hi] at hnew
          injection hnew with hnew
          subst hnew
          exact q5 i _ hil hold)
    allMoves st cn hinv hn hd
    ⟨le_refl _, ⟨cn, hn, rfl, by simp⟩, fun i n hil hi => by
      have := lt_length_of_getElem? hi
      omega⟩
  rw [h] at h1
  injection h1 with h1
  subst h1
  exact h3

theorem generatePossibility_isSome {d : Nat} (E : BoardEngine) (propagation : propagation_t)
    {cur : Nat} {st : SearchState} {cn : node_t} (hinv : Inv d st)
    (hn : st.nodes[cur]? = some cn) (hd : cn.depth < d) :
    ∃ st', generatePossibility E propagation cur st = some st' := by
  rw [generatePossibility_eq hn]
  obtain ⟨st', h1, -, -⟩ := @expandMoves_ok d E propagation cur cn.priority (fun _ _ => True)
    (fun _ _ _ _ _ _ _ _ _ _ _ => True.intro) allMoves st cn hinv hn hd True.intro
  exact ⟨st', h1⟩

theorem Inv_popped_root (board : Board) (d gen exp seed : Nat) :
    Inv d (afterPop (initState board d [] gen exp seed) 0 []) :=
  ⟨(Inv_initState board d gen exp seed).1, fun _ hid => by cases hid⟩

/-! ## The child count of a first-ply node -/

theorem isDescendantB_iff (nodes : List node_t) (a id : Nat) :
    isDescendantB nodes a id = true ↔ IsDescendant nodes a id := by
  unfold isDescendantB IsDescendant
  cases hn : nodes[id]? with
  | none => simp
  | some n => simp

theorem subtreeSize_step {d : Nat} {nodes nodes' : List node_t}
    {x : Nat × Option Nat × move_t × Board} (hok : NodesOK d nodes)
    (hsk : nodes'.map skel = nodes.map skel ++ [x]) (a : Nat) :
    subtreeSize nodes' a
      = subtreeSize nodes a + (if isDescendantB nodes' a nodes.length = true then 1 else 0) := by
  have hlen : nodes'.length = nodes.length + 1 := by
    have := congrArg List.length hsk
    simpa using this
  unfold subtreeSize
  rw [hlen, List.range_succ, List.countP_append, List.countP_singleton]
  congr 1
  apply List.countP_congr
  intro i hi
  rw [isDescendantB_iff, isDescendantB_iff]
  exact IsDescendant_ext hok hsk (List.mem_range.1 hi)

theorem not_isDescendant_of_ge {nodes : List node_t} {a id : Nat} (ha : nodes.length ≤ a) :
    ¬ IsDescendant nodes a id := by
  rintro ⟨n, -, -, h3⟩
  obtain ⟨an, han, -⟩ := findDecisionParent_depth _ _ _ h3
  have := lt_length_of_getElem? han
  omega

theorem subtreeSize_of_ge {nodes : List node_t} {a : Nat} (ha : nodes.length ≤ a) :
    subtreeSize nodes a = 0 := by
  unfold subtreeSize
  rw [List.countP_eq_zero]
  intro i _
  rw [isDescendantB_iff]
  exact not_isDescendant_of_ge ha

/-- The child count of every node of depth 1 is the number of nodes of depth 2 or
more in its subtree. -/
theorem carried_sub (d : Nat) (E : BoardEngine) (pick : SearchState → Nat)
    (propagation : propagation_t) :
    Carried d E pick propagation
      (fun s => ∀ (a : Nat) (an : node_t), s.nodes[a]? = some an → an.depth = 1 →
        an.num_childs = subtreeSize s.nodes a)
      (fun _ _ _ s => ∀ (a : Nat) (an : node_t), s.nodes[a]? = some an → an.depth = 1 →
        an.num_childs = subtreeSize s.nodes a) where
  leaf := fun _ _ _ _ _ hp _ _ _ => hp
  exp := fun _ _ _ _ _ hp _ _ _ => hp
  move := by
    intro cur ps m ms st st' cn hi hn hd hq hmv hi' a an' han' hand'
    obtain ⟨-, -, -, h4 | ⟨hb, hsk, hlen, -, -, -⟩⟩ := expandMove_summary hi hn hd hmv
    · rw [h4.2.1] at han' ⊢
      exact hq a an' han' hand'
    have halt := lt_length_of_getElem? han'
    rw [subtreeSize_step hi.1 hsk a]
    by_cases h0 : cn.depth = 0
    · have hst := expandMove_created_first hi hn hd hmv hb h0
      have hnewnode : st'.nodes[st.nodes.length]? = some (childNode E cn cur ps m st.seed) := by
        rw [hst]; exact childNode_getElem? E ps st.seed m hn
      have hnot : isDescendantB st'.nodes a st.nodes.length = false := by
        rw [Bool.eq_false_iff, Ne, isDescendantB_iff]
        rintro ⟨n1, g1, g2, -⟩
        rw [hnewnode] at g1
        injection g1 with g1
        subst g1
        simp [childNode] at g2
        omega
      rw [hnot]
      simp only [Bool.false_eq_true, if_false, Nat.add_zero]
      by_cases hal : a < st.nodes.length
      · have hac : a ≠ cur := by
          intro hac
          subst hac
          rw [hst, List.getElem?_set_self (by simp; omega)] at han'
          injection han' with han'
          subst han'
          simp at hand'
          omega
        have han : st.nodes[a]? = some an' := by
          rw [hst, List.getElem?_set_ne (Ne.symm hac), List.getElem?_append_left hal] at han'
          exact han'
        exact hq a an' han hand'
      · have hal' : a = st.nodes.length := by omega
        subst hal'
        rw [hnewnode] at han'
        injection han' with han'
        subst han'
        rw [subtreeSize_of_ge (le_refl _)]
        rfl
    · obtain ⟨a0, an0, g1, g2, g3, g4, g5, g6, g7⟩ :=
        expandMove_created_deep hi hn hd hmv hb (by omega)
      have hcd : 2 ≤ (childNode E cn cur ps m st.seed).depth := by
        simp only [childNode]; omega
      by_cases haa : a = a0
      · subst haa
        rw [g6] at han'
        injection han' with han'
        subst han'
        have hyes : isDescendantB st'.nodes a st.nodes.length = true :=
          (isDescendantB_iff _ _ _).2 ⟨_, g5, hcd, g1⟩
        rw [hyes, if_pos rfl, ← hq a an0 g3 g4]
      · have hnot : isDescendantB st'.nodes a st.nodes.length = false := by
          rw [Bool.eq_false_iff, Ne, isDescendantB_iff]
          rintro ⟨n1, -, -, e3⟩
          rw [g1] at e3
          injection e3 with e3
          exact haa e3.symm
        rw [hnot]
        simp only [Bool.false_eq_true, if_false, Nat.add_zero]
        have hal : a < st.nodes.length := by
          by_contra hge
          have hal' : a = st.nodes.length := by omega
          subst hal'
          rw [g5] at han'
          injection han' with han'
          subst han'
          omega
        have hn0 : st.nodes[a]? = some st.nodes[a] := List.getElem?_eq_getElem hal
        obtain ⟨n', q1, q2, -, q4, -⟩ := g7 a _ hn0 haa
        rw [han'] at q1
        injection q1 with q1
        subst q1
        simp only [skel, Prod.mk.injEq] at q2
        have hac : a ≠ cur := by
          intro hac
          subst hac
          rw [hn] at hn0
          injection hn0 with hn0
          obtain ⟨x, -, y1, -, -, -, y5, -⟩ := firstPlyAncestor_ok hi.1 hn (by omega)
          rw [g2] at y1
          injection y1 with y1
          subst y1
          rw [← hn0] at q2
          exact haa (y5 (by omega)).symm
        have han : st.nodes[a]? = some an' := by rw [q4 hac]; exact hn0
        exact hq a an' han hand'
  done := fun _ _ _ _ hq => hq

theorem sub_initState (board : Board) (d gen exp seed : Nat) :
    ∀ (a : Nat) (an : node_t), (initState board d [] gen exp seed).nodes[a]? = some an →
      an.depth = 1 → an.num_childs = subtreeSize (initState board d [] gen exp seed).nodes a := by
  intro a an han hand
  rw [initState_root] at han
  cases a with
  | zero =>
    simp only [List.getElem?_cons_zero, Option.some.injEq] at han
    subst han
    simp at hand
  | succ k => simp at han

/-- C15: for every board, either mode and `max_depth >= 1` the search returns, its
final state is a control point of the loops, and at every control point of the call
(in particular right after `generatePossibility` has finished handling a newly
created node) every first-ply candidate is a node of depth 1 whose child count
equals the number of nodes of depth 2 or more created so far in its subtree, each
counted once. -/
theorem child_count_is_subtree_size (E : BoardEngine) (pick : SearchState → Nat)
    (board : Board) (d : Nat) (propagation : propagation_t) (gen exp seed r fuel : Nat)
    (hd : 1 ≤ d) (hfuel : (4 ^ (d + 1) - 1) / 3 ≤ fuel) :
    (∃ fin out, search E pick fuel board d propagation [] gen exp seed = some fin ∧
      get_next_move E pick fuel board d propagation [] gen exp seed r = some out ∧
      Reachable E pick d propagation (initState board d [] gen exp seed) fin none) ∧
    ∀ (s : SearchState) (ctl : Option (Nat × Nat × List move_t)),
      Reachable E pick d propagation (initState board d [] gen exp seed) s ctl →
      ∀ a ∈ s.decisionMove, ∃ an, s.nodes[a]? = some an ∧ an.depth = 1 ∧
        an.num_childs = subtreeSize s.nodes a := by
  constructor
  · rw [← fullTree_eq] at hfuel
    obtain ⟨fin, h1, -, -, -⟩ := search_ok (carried_true d E pick propagation) board gen exp
      seed fuel True.intro hfuel
    exact ⟨fin, _, h1, get_next_move_eq hd h1, search_reachable h1⟩
  · intro s ctl hr a ha
    obtain ⟨-, hP, hQ⟩ := reachable_carried
      ((carried_sub d E pick propagation).and (carried_dec d E pick propagation))
      (Inv_initState board d gen exp seed)
      ⟨sub_initState board d gen exp seed, dec_initState board d gen exp seed⟩ hr
    have hboth : (∀ (a : Nat) (an : node_t), s.nodes[a]? = some an → an.depth = 1 →
        an.num_childs = subtreeSize s.nodes a) ∧
        ∀ id, id ∈ s.decisionMove ↔ ∃ n, s.nodes[id]? = some n ∧ n.depth = 1 := by
      cases ctl with
      | none => exact hP rfl
      | some c =>
        obtain ⟨cur, ps, ms⟩ := c
        exact (hQ cur ps ms rfl).1
    obtain ⟨an, han, hand⟩ := (hboth.2 a).1 ha
    exact ⟨an, han, hand, hboth.1 a an han hand⟩

/-- Witness: `child_count_is_subtree_size` on the corner board with depth 3. -/
theorem child_count_is_subtree_size_witness :
    1 ≤ 3 ∧ (4 ^ (3 + 1) - 1) / 3 ≤ 85 ∧
    ∃ fin, search sampleEngine maxPick 85 cornerBoard 3 propagation_t.avg [] 0 0 7 = some fin ∧
      ∀ a ∈ fin.decisionMove, ∃ an, fin.nodes[a]? = some an ∧ an.depth = 1 ∧
        an.num_childs = subtreeSize fin.nodes a := by
  obtain ⟨⟨fin, out, h1, -, h3⟩, h4⟩ := child_count_is_subtree_size sampleEngine maxPick
    cornerBoard 3 propagation_t.avg 0 0 7 3 85 (by decide) (by decide)
  exact ⟨by decide, by decide, fin, h1, h4 fin none h3⟩

/-! ## Heap keys -/

theorem findDecisionParent_self_or_parent {nodes : List node_t} :
    ∀ (fuel id a : Nat), findDecisionParent fuel nodes id = some a →
      a = id ∨ ∃ (j : Nat) (nj : node_t), nodes[j]? = some nj ∧ nj.parent = some a := by
  intro fuel
  induction fuel with
  | zero => intro id a h; simp [findDecisionParent] at h
  | succ fuel ih =>
    intro id a h
    unfold findDecisionParent at h
    cases hn : nodes[id]? with
    | none => simp [hn] at h
    | some n =>
      simp only [hn, DECISION_DEPTH] at h
      split_ifs at h with hd
      · injection h with h
        exact Or.inl h.symm
      · cases hp : n.parent with
        | none => simp [hp] at h
        | some p =>
          simp only [hp] at h
          rcases ih p a h with h1 | h1
          · subst h1
            exact Or.inr ⟨id, n, hn, hp⟩
          · exact Or.inr h1

/-- Every node that has a child has been popped, and so has the node being
expanded. -/
theorem carried_par (d : Nat) (E : BoardEngine) (pick : SearchState → Nat)
    (propagation : propagation_t) :
    Carried d E pick propagation
      (fun s => ∀ (i : Nat) (n : node_t) (p : Nat), s.nodes[i]? = some n →
        n.parent = some p → p ∈ s.explored)
      (fun cur _ _ s => (∀ (i : Nat) (n : node_t) (p : Nat), s.nodes[i]? = some n →
        n.parent = some p → p ∈ s.explored) ∧ cur ∈ s.explored) where
  leaf := by
    intro st cur rest cn _ hp _ _ _ i n p hi hpar
    simp only [afterPop_nodes] at hi
    simp only [afterPop_explored, List.mem_append, List.mem_singleton]
    exact Or.inl (hp i n p hi hpar)
  exp := by
    intro st cur rest cn _ hp _ _ _
    refine ⟨?_, by simp⟩
    intro i n p hi hpar
    simp only [afterPop_nodes] at hi
    simp only [afterPop_explored, List.mem_append, List.mem_singleton]
    exact Or.inl (hp i n p hi hpar)
  move := by
    rintro cur ps m ms st st' cn hi hn hd ⟨hq, hcur⟩ hmv _
    obtain ⟨-, -, h3, h4 | ⟨-, hsk, hlen, -, -, -⟩⟩ := expandMove_summary hi hn hd hmv
    · rw [h3, h4.2.1]
      exact ⟨hq, hcur⟩
    · rw [h3]
      refine ⟨?_, hcur⟩
      intro i n' p hi' hpar
      have hil := lt_length_of_getElem? hi'
      by_cases hlt : i < st.nodes.length
      · obtain ⟨n1, g1, g2⟩ := skel_ext hsk i _ (List.getElem?_eq_getElem hlt)
        rw [hi'] at g1
        injection g1 with g1
        subst g1
        simp only [skel, Prod.mk.injEq] at g2
        exact hq i _ p (List.getElem?_eq_getElem hlt) (by rw [← g2.2.1]; exact hpar)
      · have hil' : i = st.nodes.length := by omega
        subst hil'
        obtain ⟨n1, g1, g2⟩ := skel_new hsk
        rw [hi'] at g1
        injection g1 with g1
        subst g1
        simp only [skel, childNode, Prod.mk.injEq] at g2
        rw [g2.2.1] at hpar
        injection hpar with hpar
        subst hpar
        exact hcur
  done := fun _ _ _ _ hq => hq.1

theorem par_initState (board : Board) (d gen exp seed : Nat) :
    ∀ (i : Nat) (n : node_t) (p : Nat), (initState board d [] gen exp seed).nodes[i]? = some n →
      n.parent = some p → p ∈ (initState board d [] gen exp seed).explored := by
  intro i n p hi hpar
  rw [initState_root] at hi
  cases i with
  | zero =>
    simp only [List.getElem?_cons_zero, Option.some.injEq] at hi
    subst hi
    cases hpar
  | succ k => simp at hi

/-- One direction of `generatePossibility` leaves every node of the worklist as it
was: the only nodes written are the node being expanded and its first-ply ancestor,
and both have been popped. -/
theorem expandMove_heap_frame {d : Nat} {E : BoardEngine} {propagation : propagation_t}
    {cur ps : Nat} {m : move_t} {st st' : SearchState} {cn : node_t} (hinv : Inv d st)
    (hn : st.nodes[cur]? = some cn) (hd : cn.depth < d)
    (h : expandMove E propagation cur ps st m = some st')
    (hpar : ∀ (i : Nat) (n : node_t) (p : Nat), st.nodes[i]? = some n →
      n.parent = some p → p ∈ st.explored)
    (hcur : cur ∈ st.explored) :
    ∀ (i : Nat) (n : node_t), st.nodes[i]? = some n → i ∉ st.explored →
      st'.nodes[i]? = some n := by
  intro i n hi hie
  have hil := lt_length_of_getElem? hi
  have hic : i ≠ cur := fun hic => hie (hic ▸ hcur)
  obtain ⟨-, -, -, h4 | h4⟩ := expandMove_summary hinv hn hd h
  · rw [h4.2.1]; exact hi
  · by_cases h0 : cn.depth = 0
    · rw [expandMove_created_first hinv hn hd h h4.1 h0,
        List.getElem?_set_ne (Ne.symm hic), List.getElem?_append_left hil]
      exact hi
    · obtain ⟨a, an, -, g2, -, -, -, -, g7⟩ :=
        expandMove_created_deep hinv hn hd h h4.1 (by omega)
      have hae : a ∈ st.explored := by
        rcases findDecisionParent_self_or_parent _ _ _ g2 with g | ⟨j, nj, g, g'⟩
        · rw [g]; exact hcur
        · exact hpar j nj a g g'
      have hia : i ≠ a := fun hia => hie (hia ▸ hae)
      obtain ⟨n', q1, -, -, q4, -⟩ := g7 i n hi hia
      rw [q1, q4 hic]

theorem mem_heap_not_explored {st : SearchState}
    (hbook : (st.explored ++ st.heap).Perm (List.range st.nodes.length)) {i : Nat}
    (hi : i ∈ st.heap) : i ∉ st.explored := by
  have hnd : (st.explored ++ st.heap).Nodup := hbook.nodup_iff.2 (List.nodup_range _)
  exact fun he => List.disjoint_of_nodup_append hnd he hi

/-! ## The score a node is created with -/

theorem pathSums_fuel {d : Nat} (E : BoardEngine) {nodes : List node_t}
    (hok : NodesOK d nodes) :
    ∀ (f1 id f2 : Nat), id < f1 → id < f2 → pathSums E nodes f1 id = pathSums E nodes f2 id := by
  intro f1
  induction f1 with
  | zero => intro id f2 h; omega
  | succ f1 ih =>
    intro id f2 h1 h2
    cases f2 with
    | zero => omega
    | succ f2 =>
      cases hn : nodes[id]? with
      | none => simp only [pathSums, hn]
      | some n =>
        obtain ⟨-, h | ⟨p, pn, g1, g2, g3, -⟩⟩ := hok id n hn
        · simp only [pathSums, hn, h.1]
        · simp only [pathSums, hn, g1, g3]
          rw [ih p f2 (by omega) (by omega)]

theorem pathSums_ext {d : Nat} (E : BoardEngine) {nodes nodes' : List node_t}
    (hok : NodesOK d nodes)
    (hext : ∀ (i : Nat) (n : node_t), nodes[i]? = some n →
      ∃ n', nodes'[i]? = some n' ∧ skel n' = skel n) :
    ∀ (fuel id : Nat), id < nodes.length →
      pathSums E nodes' fuel id = pathSums E nodes fuel id := by
  intro fuel
  induction fuel with
  | zero => intro id _; simp only [pathSums]
  | succ fuel ih =>
    intro id hlt
    have hn : nodes[id]? = some nodes[id] := List.getElem?_eq_getElem hlt
    obtain ⟨n', hn', hs⟩ := hext id _ hn
    simp only [skel, Prod.mk.injEq] at hs
    obtain ⟨-, h | ⟨p, pn, g1, g2, g3, -⟩⟩ := hok id _ hn
    · simp only [pathSums, hn, hn', h.1, hs.2.1]
    · obtain ⟨pn', hpn', hps⟩ := hext p pn g3
      simp only [skel, Prod.mk.injEq] at hps
      have hp' : n'.parent = some p := by rw [hs.2.1, g1]
      simp only [pathSums, hn, hn', g1, hp', g3, hpn']
      rw [ih p (by omega), hs.2.2.1, hps.2.2.2, hs.2.2.2]

theorem creationScore_child {d : Nat} (E : BoardEngine) {nodes : List node_t}
    (hok : NodesOK d nodes) {id p : Nat} {n pn : node_t} (hn : nodes[id]? = some n)
    (hp : n.parent = some p) (hpn : nodes[p]? = some pn) :
    creationScore E nodes id
      = ((creationScore E nodes p + E.points pn.board n.move) % U32
          + E.countEmpty n.board) % U32 := by
  have hlt : p < id := by
    obtain ⟨-, h | ⟨p', pn', g1, g2, -, -⟩⟩ := hok id n hn
    · rw [hp] at h; cases h.1
    · rw [hp] at g1
      injection g1 with g1
      omega
  have e : pathSums E nodes (id + 1) id
      = ((pathSums E nodes (p + 1) p).1 + E.points pn.board n.move,
          (pathSums E nodes (p + 1) p).2 + E.countEmpty n.board) := by
    rw [pathSums_fuel E hok (p + 1) p id (by omega) hlt]
    simp only [pathSums, hn, hp, hpn]
  unfold creationScore
  rw [e]
  simp only [U32]
  omega

theorem creationScore_root (E : BoardEngine) {nodes : List node_t} {id : Nat} {n : node_t}
    (hn : nodes[id]? = some n) (hp : n.parent = none) : creationScore E nodes id = 0 := by
  simp only [creationScore, pathSums, hn, hp]
  rfl

theorem creationScore_ext {d : Nat} (E : BoardEngine) {nodes nodes' : List node_t}
    (hok : NodesOK d nodes)
    (hext : ∀ (i : Nat) (n : node_t), nodes[i]? = some n →
      ∃ n', nodes'[i]? = some n' ∧ skel n' = skel n) {id : Nat} (hlt : id < nodes.length) :
    creationScore E nodes' id = creationScore E nodes id := by
  unfold creationScore
  rw [pathSums_ext E hok hext (id + 1) id hlt]

theorem ScoreInv_afterPop {E : BoardEngine} {st : SearchState} (hs : ScoreInv E st)
    (cur : Nat) (rest : List Nat) : ScoreInv E (afterPop st cur rest) := by
  intro i n hi hc
  simp only [afterPop_nodes] at hi ⊢
  apply hs i n hi
  rcases hc with hc | hc
  · exact Or.inl hc
  · refine Or.inr fun he => hc ?_
    simp only [afterPop_explored, List.mem_append, List.mem_singleton]
    exact Or.inl he

/-- Every node that has not been popped, and every node whose depth is not 1, holds
its creation score, and the score `generatePossibility` read before its loop is the
creation score of the node it expands. -/
theorem carried_score (d : Nat) (E : BoardEngine) (pick : SearchState → Nat)
    (propagation : propagation_t) :
    Carried d E pick propagation
      (fun s => ((s.explored ++ s.heap).Perm (List.range s.nodes.length) ∧
          ∀ (i : Nat) (n : node_t) (p : Nat), s.nodes[i]? = some n →
            n.parent = some p → p ∈ s.explored) ∧ ScoreInv E s)
      (fun cur ps _ s => ((s.explored ++ s.heap).Perm (List.range s.nodes.length) ∧
          ((∀ (i : Nat) (n : node_t) (p : Nat), s.nodes[i]? = some n →
            n.parent = some p → p ∈ s.explored) ∧ cur ∈ s.explored)) ∧
        (ScoreInv E s ∧ ps = creationScore E s.nodes cur)) where
  leaf := by
    rintro st cur rest cn hi ⟨hbp, hs⟩ hdel hn hd
    exact ⟨((carried_book d E pick propagation).and (carried_par d E pick propagation)).leaf
      st cur rest cn hi hbp hdel hn hd, ScoreInv_afterPop hs cur rest⟩
  exp := by
    rintro st cur rest cn hi ⟨hbp, hs⟩ hdel hn hd
    refine ⟨((carried_book d E pick propagation).and (carried_par d E pick propagation)).exp
      st cur rest cn hi hbp hdel hn hd, ScoreInv_afterPop hs cur rest, ?_⟩
    simp only [afterPop_nodes]
    have hmem : cur ∈ st.heap := (heap_delete_perm hdel).mem_iff.2 (List.mem_cons_self _ _)
    exact hs cur cn hn (Or.inr (mem_heap_not_explored hbp.1 hmem))
  move := by
    rintro cur ps m ms st st' cn hi hn hd ⟨hbp, hs, hps⟩ hmv hi'
    refine ⟨((carried_book d E pick propagation).and (carried_par d E pick propagation)).move
      cur ps m ms st st' cn hi hn hd hbp hmv hi', ?_⟩
    have hcl := lt_length_of_getElem? hn
    obtain ⟨-, -, h3, h4 | ⟨hb, hsk, hlen, -, -, -⟩⟩ := expandMove_summary hi hn hd hmv
    · refine ⟨?_, by rw [h4.2.1]; exact hps⟩
      intro i n hi1 hc
      rw [h4.2.1] at hi1 ⊢
      rw [h3] at hc
      exact hs i n hi1 hc
    have hext : ∀ (i : Nat) (n : node_t), st.nodes[i]? = some n →
        ∃ n', st'.nodes[i]? = some n' ∧ skel n' = skel n := skel_ext hsk
    have hnew : st'.nodes[st.nodes.length]? = some (childNode E cn cur ps m st.seed) := by
      by_cases h0 : cn.depth = 0
      · rw [expandMove_created_first hi hn hd hmv hb h0]
        exact childNode_getElem? E ps st.seed m hn
      · obtain ⟨a, an, -, -, -, -, g5, -, -⟩ :=
          expandMove_created_deep hi hn hd hmv hb (by omega)
        exact g5
    refine ⟨?_, by rw [creationScore_ext E hi.1 hext hcl]; exact hps⟩
    intro i n' hi1 hc
    rw [h3] at hc
    have hil := lt_length_of_getElem? hi1
    by_cases hlt : i < st.nodes.length
    · have hn0 : st.nodes[i]? = some st.nodes[i] := List.getElem?_eq_getElem hlt
      rw [creationScore_ext E hi.1 hext hlt]
      obtain ⟨n1, g1, g2, g3, -⟩ := expandMove_pointwise hi hn hd hmv i _ hn0
      rw [hi1] at g1
      injection g1 with g1
      subst g1
      simp only [skel, Prod.mk.injEq] at g2
      by_cases hd1 : (st.nodes[i]).depth = 1
      · have hie : i ∉ st.explored := by
          rcases hc with hc | hc
          · exact absurd (g2.1.trans hd1) hc
          · exact hc
        have := expandMove_heap_frame hi hn hd hmv hbp.2.1 hbp.2.2 i _ hn0 hie
        rw [hi1] at this
        injection this with this
        rw [this]
        exact hs i _ hn0 (Or.inr hie)
      · rw [g3 hd1]
        exact hs i _ hn0 (Or.inl hd1)
    · have hil' : i = st.nodes.length := by omega
      subst hil'
      rw [hi1] at hnew
      injection hnew with hnew
      subst hnew
      obtain ⟨cn', hcn', hcs⟩ := hext cur cn hn
      simp only [skel, Prod.mk.injEq] at hcs
      rw [creationScore_child E hi'.1 hi1 rfl hcn', creationScore_ext E hi.1 hext hcl, ← hps,
        hcs.2.2.2]
      rfl
  done := fun _ _ _ _ hq => ⟨⟨hq.1.1, hq.1.2.1⟩, hq.2.1⟩

theorem score_initState (E : BoardEngine) (board : Board) (d gen exp seed : Nat) :
    ScoreInv E (initState board d [] gen exp seed) := by
  intro i n hi _
  rw [creationScore_root E hi]
  · rw [initState_root] at hi
    cases i with
    | zero =>
      simp only [List.getElem?_cons_zero, Option.some.injEq] at hi
      subst hi
      rfl
    | succ k => simp at hi
  · rw [initState_root] at hi
    cases i with
    | zero =>
      simp only [List.getElem?_cons_zero, Option.some.injEq] at hi
      subst hi
      rfl
    | succ k => simp at hi

/-- A direction of `generatePossibility` changes the priority of an existing node
only if that node has depth 1, has been popped, and the node just created is one of
its descendants. -/
theorem expandMove_priority_change {d : Nat} {E : BoardEngine} {propagation : propagation_t}
    {cur ps : Nat} {m : move_t} {st st' : SearchState} {cn : node_t} (hinv : Inv d st)
    (hn : st.nodes[cur]? = some cn) (hd : cn.depth < d)
    (h : expandMove E propagation cur ps st m = some st')
    (hpar : ∀ (i : Nat) (n : node_t) (p : Nat), st.nodes[i]? = some n →
      n.parent = some p → p ∈ st.explored)
    (hcur : cur ∈ st.explored) (i : Nat) (n n' : node_t) (hi : st.nodes[i]? = some n)
    (hi' : st'.nodes[i]? = some n') (hne : n'.priority ≠ n.priority) :
    n.depth = 1 ∧ i ∈ st.explored ∧ st'.nodes.length = st.nodes.length + 1 ∧
      IsDescendant st'.nodes i st.nodes.length := by
  have hil := lt_length_of_getElem? hi
  obtain ⟨-, -, -, h4 | h4⟩ := expandMove_summary hinv hn hd h
  · rw [h4.2.1, hi] at hi'
    injection hi' with hi'
    subst hi'
    exact absurd rfl hne
  · by_cases h0 : cn.depth = 0
    · rw [expandMove_created_first hinv hn hd h h4.1 h0] at hi'
      by_cases hic : i = cur
      · subst hic
        rw [hn] at hi
        injection hi with hi
        subst hi
        rw [List.getElem?_set_self (by simp; omega)] at hi'
        injection hi' with hi'
        subst hi'
        exact absurd rfl hne
      · rw [List.getElem?_set_ne (Ne.symm hic), List.getElem?_append_left hil, hi] at hi'
        injection hi' with hi'
        subst hi'
        exact absurd rfl hne
    · obtain ⟨a, an, g1, g2, g3, g4, g5, -, g7⟩ :=
        expandMove_created_deep hinv hn hd h h4.1 (by omega)
      by_cases hia : i = a
      · subst hia
        rw [hi] at g3
        injection g3 with g3
        subst g3
        have hae : i ∈ st.explored := by
          rcases findDecisionParent_self_or_parent _ _ _ g2 with g | ⟨j, nj, g, g'⟩
          · rw [g]; exact hcur
          · exact hpar j nj i g g'
        exact ⟨g4, hae, h4.2.2.1, _, g5, by simp only [childNode]; omega, g1⟩
      · obtain ⟨n1, q1, -, q3, -, -⟩ := g7 i n hi hia
        rw [hi'] at q1
        injection q1 with q1
        subst q1
        exact absurd q3 hne

/-- C20: for every board, either mode and `max_depth >= 1` the call returns and its
final state is a control point of the loops.  A pop does not write the arena.  At
every control point inside `generatePossibility`, the next direction leaves every
node of the worklist exactly as it was; an existing node whose priority it changes
has depth 1, has already been popped (it is in the retention list and not in the
worklist), and the node created by this direction is one of its descendants; the
node it creates is stored with its creation score, and the creation score of a node
never changes.  At every control point each node of the worklist still holds its
creation score, so the key a node is popped with is the key it was pushed with. -/
theorem heap_keys_stable (E : BoardEngine) (pick : SearchState → Nat) (board : Board)
    (d : Nat) (propagation : propagation_t) (gen exp seed r fuel : Nat)
    (hd : 1 ≤ d) (hfuel : (4 ^ (d + 1) - 1) / 3 ≤ fuel) :
    (∃ fin out, search E pick fuel board d propagation [] gen exp seed = some fin ∧
      get_next_move E pick fuel board d propagation [] gen exp seed r = some out ∧
      Reachable E pick d propagation (initState board d [] gen exp seed) fin none) ∧
    (∀ (s : SearchState) (cur : Nat) (rest : List Nat), (afterPop s cur rest).nodes = s.nodes) ∧
    (∀ (s s' : SearchState) (cur ps : Nat) (m : move_t) (ms : List move_t),
      Reachable E pick d propagation (initState board d [] gen exp seed) s
        (some (cur, ps, m :: ms)) →
      expandMove E propagation cur ps s m = some s' →
      (∀ i ∈ s.heap, s'.nodes[i]? = s.nodes[i]?) ∧
      (∀ (i : Nat) (n n' : node_t), s.nodes[i]? = some n → s'.nodes[i]? = some n' →
        n'.priority ≠ n.priority →
        n.depth = 1 ∧ i ∈ s.explored ∧ i ∉ s.heap ∧
          s'.nodes.length = s.nodes.length + 1 ∧ IsDescendant s'.nodes i s.nodes.length) ∧
      (s'.nodes.length = s.nodes.length + 1 →
        ∃ c, s'.nodes[s.nodes.length]? = some c ∧
          c.priority = creationScore E s'.nodes s.nodes.length) ∧
      (∀ i, i < s.nodes.length → creationScore E s'.nodes i = creationScore E s.nodes i)) ∧
    (∀ (s : SearchState) (ctl : Option (Nat × Nat × List move_t)),
      Reachable E pick d propagation (initState board d [] gen exp seed) s ctl →
      ∀ i ∈ s.heap, ∃ n, s.nodes[i]? = some n ∧ n.priority = creationScore E s.nodes i) := by
  have hc := carried_score d E pick propagation
  have h0 : ((((initState board d [] gen exp seed).explored
        ++ (initState board d [] gen exp seed).heap).Perm
        (List.range (initState board d [] gen exp seed).nodes.length)) ∧
      ∀ (i : Nat) (n : node_t) (p : Nat),
        (initState board d [] gen exp seed).nodes[i]? = some n →
        n.parent = some p → p ∈ (initState board d [] gen exp seed).explored) ∧
      ScoreInv E (initState board d [] gen exp seed) :=
    ⟨⟨book_initState board d gen exp seed, par_initState board d gen exp seed⟩,
      score_initState E board d gen exp seed⟩
  refine ⟨?_, fun s cur rest => afterPop_nodes s cur rest, ?_, ?_⟩
  · rw [← fullTree_eq] at hfuel
    obtain ⟨fin, h1, -, -, -⟩ := search_ok (carried_true d E pick propagation) board gen exp
      seed fuel True.intro hfuel
    exact ⟨fin, _, h1, get_next_move_eq hd h1, search_reachable h1⟩
  · intro s s' cur ps m ms hr hmv
    obtain ⟨hi, -, hQ⟩ := reachable_carried hc (Inv_initState board d gen exp seed) h0 hr
    obtain ⟨⟨⟨hbook, hpar, hcur⟩, hs, hps⟩, cn, hn, hcd⟩ := hQ cur ps (m :: ms) rfl
    have hr' := Reachable.move hr hmv
    obtain ⟨hi', -, hQ'⟩ := reachable_carried hc (Inv_initState board d gen exp seed) h0 hr'
    obtain ⟨⟨⟨hbook', hpar', hcur'⟩, hs', hps'⟩, -⟩ := hQ' cur ps ms rfl
    obtain ⟨extra, hext⟩ := expandMove_skel_ext hi hn hcd hmv
    obtain ⟨-, -, h3, -⟩ := expandMove_summary hi hn hcd hmv
    refine ⟨?_, ?_, ?_, ?_⟩
    · intro i hih
      have hil := hi.2 i hih
      have hn0 : s.nodes[i]? = some s.nodes[i] := List.getElem?_eq_getElem hil
      rw [hn0]
      exact expandMove_heap_frame hi hn hcd hmv hpar hcur i _ hn0
        (mem_heap_not_explored hbook hih)
    · intro i n n' g1 g2 g3
      obtain ⟨q1, q2, q3, q4⟩ :=
        expandMove_priority_change hi hn hcd hmv hpar hcur i n n' g1 g2 g3
      exact ⟨q1, q2, fun hih => mem_heap_not_explored hbook hih q2, q3, q4⟩
    · intro hlen
      have hlt : s.nodes.length < s'.nodes.length := by omega
      refine ⟨s'.nodes[s.nodes.length], List.getElem?_eq_getElem hlt, ?_⟩
      apply hs' _ _ (List.getElem?_eq_getElem hlt)
      refine Or.inr fun he => ?_
      rw [h3] at he
      have hmem : s.nodes.length ∈ List.range s.nodes.length :=
        hbook.mem_iff.1 (List.mem_append_left _ he)
      simp at hmem
    · intro i hil
      exact creationScore_ext E hi.1 (skel_ext hext) hil
  · intro s ctl hr i hih
    obtain ⟨hi, hP, hQ⟩ := reachable_carried hc (Inv_initState board d gen exp seed) h0 hr
    have hboth : (s.explored ++ s.heap).Perm (List.range s.nodes.length) ∧ ScoreInv E s := by
      cases ctl with
      | none => exact ⟨(hP rfl).1.1, (hP rfl).2⟩
      | some c =>
        obtain ⟨cur, ps, ms⟩ := c
        obtain ⟨⟨⟨hbook, -⟩, hs, -⟩, -⟩ := hQ cur ps ms rfl
        exact ⟨hbook, hs⟩
    have hil := hi.2 i hih
    exact ⟨s.nodes[i], List.getElem?_eq_getElem hil,
      hboth.2 i _ (List.getElem?_eq_getElem hil) (Or.inr (mem_heap_not_explored hboth.1 hih))⟩

/-- Witness: `heap_keys_stable` on the corner board with depth 2; the start node,
alone in the worklist when the loop is entered, holds its creation score. -/
theorem heap_keys_stable_witness :
    1 ≤ 2 ∧ (4 ^ (2 + 1) - 1) / 3 ≤ 21 ∧
    (∃ fin, search sampleEngine maxPick 21 cornerBoard 2 propagation_t.max [] 0 0 7
      = some fin) ∧
    ∀ i ∈ (initState cornerBoard 2 [] 0 0 7).heap, ∃ n,
      (initState cornerBoard 2 [] 0 0 7).nodes[i]? = some n ∧
      n.priority = creationScore sampleEngine (initState cornerBoard 2 [] 0 0 7).nodes i := by
  obtain ⟨⟨fin, out, h1, -, -⟩, -, -, h4⟩ := heap_keys_stable sampleEngine maxPick cornerBoard 2
    propagation_t.max 0 0 7 0 21 (by decide) (by decide)
  exact ⟨by decide, by decide, ⟨fin, h1⟩, h4 _ none Reachable.start⟩

/-! ## The creation score against the specification's formula -/

theorem pathSums_child {d : Nat} (E : BoardEngine) {nodes : List node_t}
    (hok : NodesOK d nodes) {id p : Nat} {n pn : node_t} (hn : nodes[id]? = some n)
    (hp : n.parent = some p) (hpn : nodes[p]? = some pn) :
    pathSums E nodes (id + 1) id
      = ((pathSums E nodes (p + 1) p).1 + E.points pn.board n.move,
          (pathSums E nodes (p + 1) p).2 + E.countEmpty n.board) := by
  have hlt : p < id := by
    obtain ⟨-, h | ⟨p', pn', g1, g2, -, -⟩⟩ := hok id n hn
    · rw [hp] at h; cases h.1
    · rw [hp] at g1
      injection g1 with g1
      omega
  rw [pathSums_fuel E hok (p + 1) p id (by omega) hlt]
  simp only [pathSums, hn, hp, hpn]

theorem expandMove_new_node {d : Nat} {E : BoardEngine} {propagation : propagation_t}
    {cur ps : Nat} {m : move_t} {st st' : SearchState} {cn : node_t} (hinv : Inv d st)
    (hn : st.nodes[cur]? = some cn) (hd : cn.depth < d)
    (h : expandMove E propagation cur ps st m = some st')
    (hb : isEqualBoard (childBoard E cn.board m st.seed) cn.board = false) :
    st'.nodes[st.nodes.length]? = some (childNode E cn cur ps m st.seed) := by
  by_cases h0 : cn.depth = 0
  · rw [expandMove_created_first hinv hn hd h hb h0]
    exact childNode_getElem? E ps st.seed m hn
  · obtain ⟨a, an, -, -, -, -, g5, -, -⟩ :=
      expandMove_created_deep hinv hn hd h hb (by omega)
    exact g5

/-- C13 (counterexample): on the board whose only tile is at position (0, 0), with
`max_depth = 2`, mode max and `rand()` state 7, the node at arena index 3 has depth 2
and was created with score 27 (its parent, node 1, had score 14, the move earned no
points and the node's own board has 13 empty cells), whereas the merge points on the
path from the root plus the empty cells of the node's own board are 13: the stored
score contains the 14 empty cells of the parent's board as well. -/
theorem creation_score_counts_parent_bonus :
    ∃ fin n pn, search sampleEngine maxPick 21 cornerBoard 2 propagation_t.max [] 0 0 7
        = some fin ∧
      fin.nodes[3]? = some n ∧ n.depth = 2 ∧ n.parent = some 1 ∧ fin.nodes[1]? = some pn ∧
      sampleEngine.countEmpty pn.board = 14 ∧ sampleEngine.countEmpty n.board = 13 ∧
      n.priority = 27 ∧ specScore sampleEngine fin.nodes 3 = 13 ∧
      n.priority ≠ specScore sampleEngine fin.nodes 3 := by
  have h : (search sampleEngine maxPick 21 cornerBoard 2 propagation_t.max [] 0 0 7).map
      (fun fin => ((fin.nodes[3]?).map fun n =>
          (n.depth, n.parent, sampleEngine.countEmpty n.board, n.priority),
        (fin.nodes[1]?).map fun pn => sampleEngine.countEmpty pn.board,
        specScore sampleEngine fin.nodes 3))
      = some (some (2, some 1, 13, 27), some 14, 13) := by decide!
  cases hs : search sampleEngine maxPick 21 cornerBoard 2 propagation_t.max [] 0 0 7 with
  | none => rw [hs] at h; cases h
  | some fin =>
    rw [hs] at h
    simp only [Option.map_some', Option.some.injEq, Prod.mk.injEq] at h
    obtain ⟨h3, h1, hsp⟩ := h
    cases hn3 : fin.nodes[3]? with
    | none => rw [hn3] at h3; cases h3
    | some n =>
      cases hn1 : fin.nodes[1]? with
      | none => rw [hn1] at h1; cases h1
      | some pn =>
        rw [hn3] at h3
        rw [hn1] at h1
        simp only [Option.map_some', Option.some.injEq, Prod.mk.injEq] at h3 h1
        obtain ⟨g1, g2, g3, g4⟩ := h3
        exact ⟨fin, n, pn, rfl, hn3, g1, g2, hn1, h1, g3, g4, hsp, by rw [g4, hsp]; decide⟩

/-- C13 (amended): for every board, either mode and `max_depth >= 1` the call
returns and its final state is a control point of the loops.  Whenever a direction
of `generatePossibility` creates a node `c` below the node `current` (at any control
point of the call), `c` has depth `current.depth + 1 >= 1`, and its score is the
score `current` was created with, plus the merge points of the move, plus the empty
cells of `c`'s own board (in `uint32_t` arithmetic).  Hence the score is the merge
points on the path from the root plus the empty cells of the boards of every node on
that path below the root: it is the value of the specification plus the empty cells
of the boards of `current` and of its ancestors below the root, modulo `2 ^ 32`.  The
two values agree if and only if that sum of empty cells is 0 modulo `2 ^ 32`; this
is always so for a node of depth 1, and for a deeper node it is so when all those
boards are full.  At every control point each node whose depth is not 1 still holds
that creation score. -/
theorem creation_score_accumulates (E : BoardEngine) (pick : SearchState → Nat)
    (board : Board) (d : Nat) (propagation : propagation_t) (gen exp seed r fuel : Nat)
    (hd : 1 ≤ d) (hfuel : (4 ^ (d + 1) - 1) / 3 ≤ fuel) :
    (∃ fin out, search E pick fuel board d propagation [] gen exp seed = some fin ∧
      get_next_move E pick fuel board d propagation [] gen exp seed r = some out ∧
      Reachable E pick d propagation (initState board d [] gen exp seed) fin none) ∧
    (∀ (s s' : SearchState) (cur ps : Nat) (m : move_t) (ms : List move_t),
      Reachable E pick d propagation (initState board d [] gen exp seed) s
        (some (cur, ps, m :: ms)) →
      expandMove E propagation cur ps s m = some s' →
      s'.nodes.length = s.nodes.length + 1 →
      ∃ cn c, s.nodes[cur]? = some cn ∧ s'.nodes[s.nodes.length]? = some c ∧
        c.depth = cn.depth + 1 ∧ c.parent = some cur ∧ c.move = m ∧
        ps = creationScore E s.nodes cur ∧
        c.priority = ((creationScore E s.nodes cur + E.points cn.board m) % U32
          + E.countEmpty c.board) % U32 ∧
        c.priority = creationScore E s'.nodes s.nodes.length ∧
        c.priority = (specScore E s'.nodes s.nodes.length
          + (pathSums E s.nodes (cur + 1) cur).2) % U32 ∧
        (c.priority = specScore E s'.nodes s.nodes.length ↔
          (pathSums E s.nodes (cur + 1) cur).2 % U32 = 0) ∧
        (c.depth = 1 → c.priority = specScore E s'.nodes s.nodes.length)) ∧
    (∀ (s : SearchState) (ctl : Option (Nat × Nat × List move_t)),
      Reachable E pick d propagation (initState board d [] gen exp seed) s ctl →
      ∀ (i : Nat) (n : node_t), s.nodes[i]? = some n → n.depth ≠ 1 →
        n.priority = creationScore E s.nodes i) := by
  have hc := carried_score d E pick propagation
  have h0 : ((((initState board d [] gen exp seed).explored
        ++ (initState board d [] gen exp seed).heap).Perm
        (List.range (initState board d [] gen exp seed).nodes.length)) ∧
      ∀ (i : Nat) (n : node_t) (p : Nat),
        (initState board d [] gen exp seed).nodes[i]? = some n →
        n.parent = some p → p ∈ (initState board d [] gen exp seed).explored) ∧
      ScoreInv E (initState board d [] gen exp seed) :=
    ⟨⟨book_initState board d gen exp seed, par_initState board d gen exp seed⟩,
      score_initState E board d gen exp seed⟩
  refine ⟨?_, ?_, ?_⟩
  · rw [← fullTree_eq] at hfuel
    obtain ⟨fin, h1, -, -, -⟩ := search_ok (carried_true d E pick propagation) board gen exp
      seed fuel True.intro hfuel
    exact ⟨fin, _, h1, get_next_move_eq hd h1, search_reachable h1⟩
  · intro s s' cur ps m ms hr hmv hlen
    obtain ⟨hi, -, hQ⟩ := reachable_carried hc (Inv_initState board d gen exp seed) h0 hr
    obtain ⟨⟨-, -, hps⟩, cn, hn, hcd⟩ := hQ cur ps (m :: ms) rfl
    obtain ⟨hi', -, -⟩ := reachable_carried hc (Inv_initState board d gen exp seed) h0
      (Reachable.move hr hmv)
    have hcl := lt_length_of_getElem? hn
    obtain ⟨-, -, -, h4 | ⟨hb, hsk, -, -, -, -⟩⟩ := expandMove_summary hi hn hcd hmv
    · rw [h4.2.1] at hlen
      omega
    have hnew := expandMove_new_node hi hn hcd hmv hb
    have hext : ∀ (i : Nat) (n : node_t), s.nodes[i]? = some n →
        ∃ n', s'.nodes[i]? = some n' ∧ skel n' = skel n := skel_ext hsk
    obtain ⟨cn', hcn', hcs⟩ := hext cur cn hn
    simp only [skel, Prod.mk.injEq] at hcs
    have hpath := pathSums_child E hi'.1 hnew rfl hcn'
    rw [pathSums_ext E hi.1 hext (cur + 1) cur hcl, hcs.2.2.2] at hpath
    have hcre : (childNode E cn cur ps m s.seed).priority
        = creationScore E s'.nodes s.nodes.length := by
      rw [creationScore_child E hi'.1 hnew rfl hcn', creationScore_ext E hi.1 hext hcl, ← hps,
        hcs.2.2.2]
      rfl
    have hspec : specScore E s'.nodes s.nodes.length
        = ((pathSums E s.nodes (cur + 1) cur).1 + E.points cn.board m
          + E.countEmpty (childNode E cn cur ps m s.seed).board) % U32 := by
      simp only [specScore, hnew, hpath]
      rfl
    have hcre2 : creationScore E s'.nodes s.nodes.length
        = ((pathSums E s.nodes (cur + 1) cur).1 + E.points cn.board m
          + ((pathSums E s.nodes (cur + 1) cur).2
            + E.countEmpty (childNode E cn cur ps m s.seed).board)) % U32 := by
      simp only [creationScore, hpath]
      rfl
    refine ⟨cn, _, hn, hnew, rfl, rfl, rfl, hps, ?_, hcre, ?_, ?_, ?_⟩
    · rw [← hps]
      rfl
    · rw [hcre, hcre2, hspec]
      simp only [U32]
      omega
    · rw [hcre, hcre2, hspec]
      simp only [U32]
      omega
    · intro h1
      have hroot : cn.parent = none := by
        obtain ⟨-, h | ⟨p, pn, -, -, -, g4⟩⟩ := hi.1 cur cn hn
        · exact h.1
        · simp only [childNode] at h1
          omega
      have hz : pathSums E s.nodes (cur + 1) cur = (0, 0) := by
        simp only [pathSums, hn, hroot]
      rw [hcre, hcre2, hspec, hz]
      simp only [Nat.zero_add]
  · intro s ctl hr i n hin hdn
    obtain ⟨-, hP, hQ⟩ := reachable_carried hc (Inv_initState board d gen exp seed) h0 hr
    have hs : ScoreInv E s := by
      cases ctl with
      | none => exact (hP rfl).2
      | some c =>
        obtain ⟨cur, ps, ms⟩ := c
        exact (hQ cur ps ms rfl).1.2.1
    exact hs i n hin (Or.inl hdn)

/-- Witness: `creation_score_accumulates` on the corner board with depth 2: in the
final arena every node of depth 2 holds its creation score. -/
theorem creation_score_accumulates_witness :
    1 ≤ 2 ∧ (4 ^ (2 + 1) - 1) / 3 ≤ 21 ∧
    ∃ fin, search sampleEngine maxPick 21 cornerBoard 2 propagation_t.max [] 0 0 7 = some fin ∧
      ∀ (i : Nat) (n : node_t), fin.nodes[i]? = some n → n.depth ≠ 1 →
        n.priority = creationScore sampleEngine fin.nodes i := by
  obtain ⟨⟨fin, out, h1, -, h3⟩, -, h5⟩ := creation_score_accumulates sampleEngine maxPick
    cornerBoard 2 propagation_t.max 0 0 7 0 21 (by decide) (by decide)
  exact ⟨by decide, by decide, fin, h1, h5 fin none h3⟩

/-! ## The capacity of the explored array -/

theorem initialCapacity_eq (d : Nat) : initialCapacity d = fullTree d := by
  have h1 := three_mul_fullTree d
  have h2 := three_mul_innerTree d
  have h3 := innerTree_eq d
  rw [pow_succ] at h1
  have e : initialCapacity d = 4 * ((4 ^ d - 1) / 3) + 1 := rfl
  rw [e]
  omega

theorem afterPop_maximumNode (st : SearchState) (cur : Nat) (rest : List Nat) :
    (afterPop st cur rest).maximumNode
      = if st.explored.length = st.maximumNode then st.maximumNode * REALLOC_FACTOR
        else st.maximumNode := rfl

/-- The capacity of the explored array stays at its initial value, and the array
together with the nodes still to come fits into it. -/
theorem carried_cap (d : Nat) (E : BoardEngine) (pick : SearchState → Nat)
    (propagation : propagation_t) :
    Carried d E pick propagation
      (fun s => s.maximumNode = initialCapacity d ∧
        s.explored.length + pendingWeight d s ≤ fullTree d)
      (fun cur _ ms s => s.maximumNode = initialCapacity d ∧
        s.explored.length + pendingWeight d s
          + ms.length * fullTree (d - (depthOf s.nodes cur + 1)) ≤ fullTree d) where
  leaf := by
    rintro st cur rest cn hi ⟨h1, h2⟩ hdel hn hd
    refine ⟨?_, (carried_room d E pick propagation).leaf st cur rest cn hi h2 hdel hn hd⟩
    have hsum := heapSum_pop fullTree d st.nodes (heap_delete_perm hdel)
    have hpos := fullTree_pos (d - depthOf st.nodes cur)
    rw [initialCapacity_eq] at h1
    simp only [pendingWeight] at h2
    rw [afterPop_maximumNode, if_neg (by omega), h1, initialCapacity_eq]
  exp := by
    rintro st cur rest cn hi ⟨h1, h2⟩ hdel hn hd
    refine ⟨?_, (carried_room d E pick propagation).exp st cur rest cn hi h2 hdel hn hd⟩
    have hsum := heapSum_pop fullTree d st.nodes (heap_delete_perm hdel)
    have hpos := fullTree_pos (d - depthOf st.nodes cur)
    rw [initialCapacity_eq] at h1
    simp only [pendingWeight] at h2
    rw [afterPop_maximumNode, if_neg (by omega), h1, initialCapacity_eq]
  move := by
    rintro cur ps m ms st st' cn hi hn hd ⟨h1, h2⟩ hmv hi'
    refine ⟨?_, (carried_room d E pick propagation).move cur ps m ms st st' cn hi hn hd h2
      hmv hi'⟩
    obtain ⟨-, -, -, -, -, hmax, -⟩ := expandMove_cases hmv
    rw [hmax, h1]
  done := fun cur ps st hi hq =>
    ⟨hq.1, (carried_room d E pick propagation).done cur ps st hi hq.2⟩

theorem cap_initState (board : Board) (d gen exp seed : Nat) :
    (initState board d [] gen exp seed).maximumNode = initialCapacity d := rfl

/-- C22: the initial capacity of the explored array, computed in exact integer
arithmetic, is `4 * (4 ^ max_depth - 1) / 3 + 1 = (4 ^ (max_depth + 1) - 1) / 3`.  For
every board, either mode and `max_depth >= 1` the call returns, and at every control
point of the call the capacity is still the initial one and the number of stored
nodes is at most the capacity.  At every pop the number of stored nodes is below the
capacity, so the test `countExplored == size` of `insertIntoExplored` fails, the
capacity is left as it is and the node is written at index `countExplored`, inside
the initially allocated array. -/
theorem explored_capacity_suffices (E : BoardEngine) (pick : SearchState → Nat)
    (board : Board) (d : Nat) (propagation : propagation_t) (gen exp seed r fuel : Nat)
    (hd : 1 ≤ d) (hfuel : (4 ^ (d + 1) - 1) / 3 ≤ fuel) :
    (initialCapacity d = 4 * (4 ^ d - 1) / 3 + 1 ∧
      initialCapacity d = (4 ^ (d + 1) - 1) / 3) ∧
    (∃ fin out, search E pick fuel board d propagation [] gen exp seed = some fin ∧
      get_next_move E pick fuel board d propagation [] gen exp seed r = some out ∧
      Reachable E pick d propagation (initState board d [] gen exp seed) fin none) ∧
    (∀ (s : SearchState) (ctl : Option (Nat × Nat × List move_t)),
      Reachable E pick d propagation (initState board d [] gen exp seed) s ctl →
      s.maximumNode = initialCapacity d ∧ s.explored.length ≤ s.maximumNode) ∧
    (∀ (s : SearchState) (cur : Nat) (rest : List Nat),
      Reachable E pick d propagation (initState board d [] gen exp seed) s none →
      heap_delete pick s = some (cur, rest) →
      s.explored.length ≠ s.maximumNode ∧ s.explored.length < initialCapacity d ∧
        (afterPop s cur rest).maximumNode = s.maximumNode ∧
        (afterPop s cur rest).explored = s.explored ++ [cur]) := by
  have hc := carried_cap d E pick propagation
  have h0 : (initState board d [] gen exp seed).maximumNode = initialCapacity d ∧
      (initState board d [] gen exp seed).explored.length
        + pendingWeight d (initState board d [] gen exp seed) ≤ fullTree d :=
    ⟨cap_initState board d gen exp seed, room_initState board d gen exp seed⟩
  refine ⟨?_, ?_, ?_, ?_⟩
  · have h1 := three_mul_fullTree d
    have h2 := three_mul_innerTree d
    have h3 := initialCapacity_eq d
    rw [pow_succ] at h1
    constructor
    · rw [h3]; omega
    · rw [h3, pow_succ]; omega
  · rw [← fullTree_eq] at hfuel
    obtain ⟨fin, h1, -, -, -⟩ := search_ok (carried_true d E pick propagation) board gen exp
      seed fuel True.intro hfuel
    exact ⟨fin, _, h1, get_next_move_eq hd h1, search_reachable h1⟩
  · intro s ctl hr
    obtain ⟨-, hP, hQ⟩ := reachable_carried hc (Inv_initState board d gen exp seed) h0 hr
    cases ctl with
    | none =>
      obtain ⟨g1, g2⟩ := hP rfl
      rw [g1, initialCapacity_eq]
      exact ⟨rfl, by omega⟩
    | some c =>
      obtain ⟨cur, ps, ms⟩ := c
      obtain ⟨⟨g1, g2⟩, -⟩ := hQ cur ps ms rfl
      rw [g1, initialCapacity_eq]
      exact ⟨rfl, by omega⟩
  · intro s cur rest hr hdel
    obtain ⟨-, hP, -⟩ := reachable_carried hc (Inv_initState board d gen exp seed) h0 hr
    obtain ⟨g1, g2⟩ := hP rfl
    have hsum := heapSum_pop fullTree d s.nodes (heap_delete_perm hdel)
    have hpos := fullTree_pos (d - depthOf s.nodes cur)
    simp only [pendingWeight] at g2
    have hlt : s.explored.length < initialCapacity d := by
      rw [initialCapacity_eq]; omega
    have hne : s.explored.length ≠ s.maximumNode := by rw [g1]; omega
    exact ⟨hne, hlt, by rw [afterPop_maximumNode, if_neg hne], afterPop_explored s cur rest⟩

/-- Witness: `explored_capacity_suffices` on the corner board with depth 2: the 11
nodes of the call fit into the 21 slots allocated. -/
theorem explored_capacity_suffices_witness :
    1 ≤ 2 ∧ (4 ^ (2 + 1) - 1) / 3 ≤ 21 ∧
    ∃ fin, search sampleEngine maxPick 21 cornerBoard 2 propagation_t.max [] 0 0 7 = some fin ∧
      fin.maximumNode = 21 ∧ fin.explored.length ≤ fin.maximumNode := by
  obtain ⟨-, ⟨fin, out, h1, -, h3⟩, h4, -⟩ := explored_capacity_suffices sampleEngine maxPick
    cornerBoard 2 propagation_t.max 0 0 7 0 21 (by decide) (by decide)
  obtain ⟨h5, h6⟩ := h4 fin none h3
  exact ⟨by decide, by decide, fin, h1, h5, h6⟩

/-! ## The first-ply array -/

theorem candMoves_eq (s : SearchState) :
    candMoves s = s.decisionMove.filterMap fun id => (s.nodes[id]?).map node_t.move := by
  unfold candMoves candidates
  rw [List.map_filterMap]

theorem candMoves_afterPop (st : SearchState) (cur : Nat) (rest : List Nat) :
    candMoves (afterPop st cur rest) = candMoves st := rfl

theorem candMoves_length {s : SearchState}
    (hdec : ∀ id, id ∈ s.decisionMove ↔ ∃ n, s.nodes[id]? = some n ∧ n.depth = 1) :
    (candMoves s).length = s.decisionMove.length := by
  rw [candMoves_eq]
  have h : ∀ (l : List Nat), (∀ id ∈ l, ∃ n, s.nodes[id]? = some n) →
      (l.filterMap fun id => (s.nodes[id]?).map node_t.move).length = l.length := by
    intro l
    induction l with
    | nil => intro _; rfl
    | cons x xs ih =>
      intro hx
      obtain ⟨n, hn⟩ := hx x (List.mem_cons_self _ _)
      rw [List.filterMap_cons_some (by rw [hn]; rfl), List.length_cons, List.length_cons,
        ih fun id hid => hx id (List.mem_cons_of_mem _ hid)]
  exact h _ fun id hid => by
    obtain ⟨n, hn, -⟩ := (hdec id).1 hid
    exact ⟨n, hn⟩

theorem candMoves_ext {s s' : SearchState}
    {extra : List (Nat × Option Nat × move_t × Board)}
    (hsk : s'.nodes.map skel = s.nodes.map skel ++ extra)
    (hdec : ∀ id, id ∈ s.decisionMove ↔ ∃ n, s.nodes[id]? = some n ∧ n.depth = 1)
    (hdm : s'.decisionMove = s.decisionMove) : candMoves s' = candMoves s := by
  rw [candMoves_eq, candMoves_eq, hdm]
  apply List.filterMap_congr
  intro id hid
  obtain ⟨n, hn, -⟩ := (hdec id).1 hid
  obtain ⟨n', hn', hs⟩ := skel_ext hsk id n hn
  simp only [skel, Prod.mk.injEq] at hs
  rw [hn, hn']
  simp [hs.2.2.1]

theorem candMoves_push {s s' : SearchState} {c : node_t}
    (hsk : s'.nodes.map skel = s.nodes.map skel ++ [skel c])
    (hdec : ∀ id, id ∈ s.decisionMove ↔ ∃ n, s.nodes[id]? = some n ∧ n.depth = 1)
    (hdm : s'.decisionMove = s.decisionMove ++ [s.nodes.length]) :
    candMoves s' = candMoves s ++ [c.move] := by
  rw [candMoves_eq, candMoves_eq, hdm, List.filterMap_append]
  congr 1
  · apply List.filterMap_congr
    intro id hid
    obtain ⟨n, hn, -⟩ := (hdec id).1 hid
    obtain ⟨n', hn', hs⟩ := skel_ext hsk id n hn
    simp only [skel, Prod.mk.injEq] at hs
    rw [hn, hn']
    simp [hs.2.2.1]
  · obtain ⟨n', hn', hs⟩ := skel_new hsk
    simp only [skel, Prod.mk.injEq] at hs
    simp [hn', hs.2.2.1]

/-- The directions of the recorded candidates form a subsequence of `left, right,
up, down`; while the start node is being expanded they are among the directions
already tried, and nothing is recorded before the start node has been popped. -/
theorem carried_order (d : Nat) (E : BoardEngine) (pick : SearchState → Nat)
    (propagation : propagation_t) :
    Carried d E pick propagation
      (fun s => (((s.explored ++ s.heap).Perm (List.range s.nodes.length) ∧
            ∀ (i : Nat) (n : node_t) (p : Nat), s.nodes[i]? = some n →
              n.parent = some p → p ∈ s.explored) ∧
          ∀ id, id ∈ s.decisionMove ↔ ∃ n, s.nodes[id]? = some n ∧ n.depth = 1) ∧
        ((s.decisionMove ≠ [] → 0 ∈ s.explored) ∧ (candMoves s).Sublist allMoves))
      (fun cur _ ms s => (((s.explored ++ s.heap).Perm (List.range s.nodes.length) ∧
            ((∀ (i : Nat) (n : node_t) (p : Nat), s.nodes[i]? = some n →
              n.parent = some p → p ∈ s.explored) ∧ cur ∈ s.explored)) ∧
          ∀ id, id ∈ s.decisionMove ↔ ∃ n, s.nodes[id]? = some n ∧ n.depth = 1) ∧
        ((s.decisionMove ≠ [] → 0 ∈ s.explored) ∧
          ∃ pre, pre ++ ms = allMoves ∧
            (candMoves s).Sublist (if depthOf s.nodes cur = 0 then pre else allMoves))) where
  leaf := by
    rintro st cur rest cn hi ⟨hb, h1, h2⟩ hdel hn hd
    refine ⟨(((carried_book d E pick propagation).and (carried_par d E pick propagation)).and
      (carried_dec d E pick propagation)).leaf st cur rest cn hi hb hdel hn hd, ?_, ?_⟩
    · intro hne
      simp only [afterPop_decisionMove] at hne
      simp only [afterPop_explored, List.mem_append]
      exact Or.inl (h1 hne)
    · rw [candMoves_afterPop]; exact h2
  exp := by
    rintro st cur rest cn hi ⟨hb, h1, h2⟩ hdel hn hd
    refine ⟨(((carried_book d E pick propagation).and (carried_par d E pick propagation)).and
      (carried_dec d E pick propagation)).exp st cur rest cn hi hb hdel hn hd, ?_, [],
      List.nil_append _, ?_⟩
    · intro hne
      simp only [afterPop_decisionMove] at hne
      simp only [afterPop_explored, List.mem_append]
      exact Or.inl (h1 hne)
    · rw [candMoves_afterPop]
      simp only [afterPop_nodes, depthOf_eq hn]
      split_ifs with h0
      · have hc0 : cur = 0 := (NodesOK_depth_zero_iff hi.1 hn).1 h0
        have hmem : cur ∈ st.heap := (heap_delete_perm hdel).mem_iff.2 (List.mem_cons_self _ _)
        have hnot : 0 ∉ st.explored := hc0 ▸ mem_heap_not_explored hb.1.1 hmem
        have hdm : st.decisionMove = [] := by
          by_contra hne
          exact hnot (h1 hne)
        rw [candMoves_eq, hdm]
        exact List.Sublist.refl _
      · exact h2
  move := by
    rintro cur ps m ms st st' cn hi hn hd ⟨hb, h1, pre, hpre, h2⟩ hmv hi'
    refine ⟨(((carried_book d E pick propagation).and (carried_par d E pick propagation)).and
      (carried_dec d E pick propagation)).move cur ps m ms st st' cn hi hn hd hb hmv hi', ?_,
      pre ++ [m], by rw [List.append_assoc]; exact hpre, ?_⟩
    · obtain ⟨⟨-, -, hcur⟩, -⟩ := hb
      obtain ⟨-, -, h3, h4 | ⟨-, -, -, -, hdm, -⟩⟩ := expandMove_summary hi hn hd hmv
      · rw [h4.2.2.2, h3]; exact h1
      · by_cases h0 : cn.depth = 0
        · intro _
          rw [h3]
          exact (NodesOK_depth_zero_iff hi.1 hn).1 h0 ▸ hcur
        · rw [if_neg (by omega)] at hdm
          rw [hdm, h3]; exact h1
    · obtain ⟨-, hdec⟩ := hb
      have hcl := lt_length_of_getElem? hn
      rw [depthOf_eq hn] at h2
      obtain ⟨-, -, h3, h4 | ⟨-, hsk, -, -, hdm, -⟩⟩ := expandMove_summary hi hn hd hmv
      · have hsk : st'.nodes.map skel = st.nodes.map skel ++ [] := by rw [h4.2.1]; simp
        rw [candMoves_ext hsk hdec h4.2.2.2, h4.2.1, depthOf_eq hn]
        split_ifs at h2 ⊢
        · exact h2.trans (List.sublist_append_left _ _)
        · exact h2
      · rw [depthOf_ext hsk hcl, depthOf_eq hn]
        by_cases h0 : cn.depth = 0
        · rw [if_pos (by omega)] at hdm
          rw [if_pos h0] at h2
          rw [candMoves_push hsk hdec hdm, if_pos h0]
          exact List.Sublist.append h2 (List.Sublist.refl _)
        · rw [if_neg (by omega)] at hdm
          rw [if_neg h0] at h2
          rw [candMoves_ext hsk hdec hdm, if_neg h0]
          exact h2
  done := by
    rintro cur ps st hi ⟨hb, h1, pre, hpre, h2⟩
    refine ⟨(((carried_book d E pick propagation).and (carried_par d E pick propagation)).and
      (carried_dec d E pick propagation)).done cur ps st hi hb, h1, ?_⟩
    rw [List.append_nil] at hpre
    subst hpre
    split_ifs at h2 <;> exact h2

theorem order_initState (board : Board) (d gen exp seed : Nat) :
    ((initState board d [] gen exp seed).decisionMove ≠ [] →
        0 ∈ (initState board d [] gen exp seed).explored) ∧
      (candMoves (initState board d [] gen exp seed)).Sublist allMoves :=
  ⟨fun h => absurd rfl h, List.nil_sublist _⟩

/-- C21: for every board, either mode and `max_depth >= 1` the call returns and its
final state is a control point of the loops.  At every control point of the call
the first-ply array holds at most 4 entries, each pointing to a node, and the
directions of the recorded candidates form a subsequence of `left, right, up, down`:
they are pairwise distinct and in that order.  A pop records nothing.  A direction of
`generatePossibility` either records nothing, or it is a direction of the expansion
of the start node (index 0), the entries recorded so far belong to directions tried
before it, the write goes to index `indexDecide < 4`, and the new entry is the node
just created, whose direction is the one being tried. -/
theorem decision_array_in_bounds (E : BoardEngine) (pick : SearchState → Nat)
    (board : Board) (d : Nat) (propagation : propagation_t) (gen exp seed r fuel : Nat)
    (hd : 1 ≤ d) (hfuel : (4 ^ (d + 1) - 1) / 3 ≤ fuel) :
    (∃ fin out, search E pick fuel board d propagation [] gen exp seed = some fin ∧
      get_next_move E pick fuel board d propagation [] gen exp seed r = some out ∧
      Reachable E pick d propagation (initState board d [] gen exp seed) fin none) ∧
    (∀ (s : SearchState) (ctl : Option (Nat × Nat × List move_t)),
      Reachable E pick d propagation (initState board d [] gen exp seed) s ctl →
      s.decisionMove.length ≤ NUMBER_OF_MOVES ∧
        (candidates s).length = s.decisionMove.length ∧
        (candMoves s).Sublist [move_t.left, move_t.right, move_t.up, move_t.down] ∧
        (candMoves s).Nodup) ∧
    (∀ (s : SearchState) (cur : Nat) (rest : List Nat),
      (afterPop s cur rest).decisionMove = s.decisionMove) ∧
    (∀ (s s' : SearchState) (cur ps : Nat) (m : move_t) (ms : List move_t),
      Reachable E pick d propagation (initState board d [] gen exp seed) s
        (some (cur, ps, m :: ms)) →
      expandMove E propagation cur ps s m = some s' →
      s'.decisionMove = s.decisionMove ∨
        (cur = 0 ∧ s.decisionMove.length < NUMBER_OF_MOVES ∧
          (∃ pre, pre ++ m :: ms = [move_t.left, move_t.right, move_t.up, move_t.down] ∧
            (candMoves s).Sublist pre) ∧
          s'.decisionMove = s.decisionMove ++ [s.nodes.length] ∧
          candMoves s' = candMoves s ++ [m])) := by
  have hc := carried_order d E pick propagation
  have h0 : (((((initState board d [] gen exp seed).explored
          ++ (initState board d [] gen exp seed).heap).Perm
          (List.range (initState board d [] gen exp seed).nodes.length)) ∧
        ∀ (i : Nat) (n : node_t) (p : Nat),
          (initState board d [] gen exp seed).nodes[i]? = some n →
          n.parent = some p → p ∈ (initState board d [] gen exp seed).explored) ∧
        ∀ id, id ∈ (initState board d [] gen exp seed).decisionMove ↔
          ∃ n, (initState board d [] gen exp seed).nodes[id]? = some n ∧ n.depth = 1) ∧
      (((initState board d [] gen exp seed).decisionMove ≠ [] →
          0 ∈ (initState board d [] gen exp seed).explored) ∧
        (candMoves (initState board d [] gen exp seed)).Sublist allMoves) :=
    ⟨⟨⟨book_initState board d gen exp seed, par_initState board d gen exp seed⟩,
      dec_initState board d gen exp seed⟩, order_initState board d gen exp seed⟩
  refine ⟨?_, ?_, fun s cur rest => afterPop_decisionMove s cur rest, ?_⟩
  · rw [← fullTree_eq] at hfuel
    obtain ⟨fin, h1, -, -, -⟩ := search_ok (carried_true d E pick propagation) board gen exp
      seed fuel True.intro hfuel
    exact ⟨fin, _, h1, get_next_move_eq hd h1, search_reachable h1⟩
  · intro s ctl hr
    obtain ⟨-, hP, hQ⟩ := reachable_carried hc (Inv_initState board d gen exp seed) h0 hr
    have hboth : (∀ id, id ∈ s.decisionMove ↔ ∃ n, s.nodes[id]? = some n ∧ n.depth = 1) ∧
        (candMoves s).Sublist allMoves := by
      cases ctl with
      | none => exact ⟨(hP rfl).1.2, (hP rfl).2.2⟩
      | some c =>
        obtain ⟨cur, ps, ms⟩ := c
        obtain ⟨⟨⟨-, hdec⟩, -, pre, hpre, hsub⟩, -⟩ := hQ cur ps ms rfl
        refine ⟨hdec, ?_⟩
        split_ifs at hsub
        · rw [← hpre]
          exact hsub.trans (List.sublist_append_left _ _)
        · exact hsub
    obtain ⟨hdec, hsub⟩ := hboth
    have hlen := candMoves_length hdec
    have hle := hsub.length_le
    refine ⟨?_, ?_, hsub, hsub.nodup (by decide)⟩
    · rw [← hlen]
      exact hle
    · rw [← hlen]
      simp [candMoves]
  · intro s s' cur ps m ms hr hmv
    obtain ⟨hi, -, hQ⟩ := reachable_carried hc (Inv_initState board d gen exp seed) h0 hr
    obtain ⟨⟨⟨-, hdec⟩, -, pre, hpre, hsub⟩, cn, hn, hcd⟩ := hQ cur ps (m :: ms) rfl
    obtain ⟨-, -, -, h4 | ⟨-, hsk, -, -, hdm, -⟩⟩ := expandMove_summary hi hn hcd hmv
    · exact Or.inl h4.2.2.2
    · by_cases h0d : cn.depth = 0
      · rw [if_pos (by omega)] at hdm
        rw [depthOf_eq hn, if_pos h0d] at hsub
        have hlen := candMoves_length hdec
        have hle := hsub.length_le
        have hpl := congrArg List.length hpre
        simp only [List.length_append, List.length_cons, allMoves, List.length_nil] at hpl
        refine Or.inr ⟨(NodesOK_depth_zero_iff hi.1 hn).1 h0d, ?_, ⟨pre, hpre, hsub⟩, hdm,
          candMoves_push hsk hdec hdm⟩
        simp only [NUMBER_OF_MOVES]
        omega
      · rw [if_neg (by omega)] at hdm
        exact Or.inl hdm

/-- Witness: `decision_array_in_bounds` on the corner board with depth 2: the call
ends with at most 4 recorded candidates, in the order of the directions. -/
theorem decision_array_in_bounds_witness :
    1 ≤ 2 ∧ (4 ^ (2 + 1) - 1) / 3 ≤ 21 ∧
    ∃ fin, search sampleEngine maxPick 21 cornerBoard 2 propagation_t.max [] 0 0 7 = some fin ∧
      fin.decisionMove.length ≤ NUMBER_OF_MOVES ∧
      (candMoves fin).Sublist [move_t.left, move_t.right, move_t.up, move_t.down] := by
  obtain ⟨⟨fin, out, h1, -, h3⟩, h4, -, -⟩ := decision_array_in_bounds sampleEngine maxPick
    cornerBoard 2 propagation_t.max 0 0 7 0 21 (by decide) (by decide)
  obtain ⟨h5, -, h6, -⟩ := h4 fin none h3
  exact ⟨by decide, by decide, fin, h1, h5, h6⟩

/-! ## The selector on an empty candidate list -/

/-- On a board that no direction changes, the start node stays the only node and
nothing is recorded in `decisionMove`. -/
theorem carried_stuck (d : Nat) (E : BoardEngine) (pick : SearchState → Nat)
    (propagation : propagation_t) (board : Board)
    (hstuck : ∀ (m : move_t) (seed : Nat),
      isEqualBoard (childBoard E board m seed) board = true) :
    Carried d E pick propagation
      (fun s => (∃ root, s.nodes = [root] ∧ root.board = board) ∧ s.decisionMove = [])
      (fun _ _ _ s => (∃ root, s.nodes = [root] ∧ root.board = board) ∧ s.decisionMove = [])
    where
  leaf := fun _ _ _ _ _ hp _ _ _ => hp
  exp := fun _ _ _ _ _ hp _ _ _ => hp
  move := by
    rintro cur ps m ms st st' cn hi hn hd ⟨⟨root, h1, h2⟩, h3⟩ hmv _
    have hcn : cn = root := by
      rw [h1] at hn
      cases cur with
      | zero =>
        simp only [List.getElem?_cons_zero, Option.some.injEq] at hn
        exact hn.symm
      | succ k => simp at hn
    subst hcn
    obtain ⟨-, -, -, h4 | h4⟩ := expandMove_summary hi hn hd hmv
    · rw [h4.2.1, h4.2.2.2]
      exact ⟨⟨cn, h1, h2⟩, h3⟩
    · have := h4.1
      rw [h2, hstuck m st.seed] at this
      cases this
  done := fun _ _ _ _ hq => hq

theorem sampleEngine_stuck (m : move_t) (seed : Nat) :
    isEqualBoard (childBoard sampleEngine stuckBoard m seed) stuckBoard = true := by
  have hm : sampleEngine.moved stuckBoard m = false := by
    cases m <;> decide!
  have hs : isEqualBoard (sampleEngine.slide stuckBoard m) stuckBoard = true := by
    cases m <;> decide!
  simp only [childBoard, hm]
  exact hs

/-- C5 (amended): `bestAction` has no "no move available" outcome.  On the empty
list, for every draw, `getMaximum` returns 0, no tie index is collected and
`getBestRandomIndex` evaluates `rand() % nIndex` with `nIndex = 0`: the call ends in
a division by zero before any slot of `randomIndex` or `decisionMove` is read.  On a
non-empty list it always returns the move of a candidate, so the division by zero
happens exactly on the empty list and an out-of-range read never.  For every board
that no direction changes, every mode and `max_depth >= 1`, the search returns with
the start node as the only node and an empty candidate list, and `get_next_move`
ends in that division by zero. -/
theorem empty_candidates_divide_by_zero (E : BoardEngine) (pick : SearchState → Nat)
    (board : Board) (d : Nat) (propagation : propagation_t) (gen exp seed r fuel : Nat)
    (hd : 1 ≤ d) (hfuel : (4 ^ (d + 1) - 1) / 3 ≤ fuel)
    (hstuck : ∀ (m : move_t) (seed : Nat),
      isEqualBoard (childBoard E board m seed) board = true) :
    (∀ r', getMaximum [] = 0 ∧ tieIndices 0 [] 0 = [] ∧
      getBestRandomIndex [] (getMaximum []) r' = .error Fault.divisionByZero ∧
      bestAction [] r' = .error Fault.divisionByZero) ∧
    (∀ (cands : List node_t) (r' : Nat),
      (bestAction cands r' = .error Fault.divisionByZero ↔ cands = []) ∧
      bestAction cands r' ≠ .error Fault.invalidRead ∧
      (cands ≠ [] → ∃ n ∈ cands, bestAction cands r' = .ok n.move)) ∧
    ∃ fin out, search E pick fuel board d propagation [] gen exp seed = some fin ∧
      get_next_move E pick fuel board d propagation [] gen exp seed r = some out ∧
      fin.nodes.length = 1 ∧ fin.decisionMove = [] ∧ candidates fin = [] ∧
      out.best_action = .error Fault.divisionByZero := by
  refine ⟨fun _ => ⟨rfl, rfl, rfl, rfl⟩, ?_, ?_⟩
  · intro cands r'
    by_cases hne : cands = []
    · subst hne
      exact ⟨⟨fun _ => rfl, fun _ => rfl⟩, (fun h => by cases h), fun h => absurd rfl h⟩
    · obtain ⟨n, hn, hb⟩ := bestAction_mem cands r' hne
      refine ⟨⟨fun h => ?_, fun h => absurd h hne⟩, ?_, fun _ => ⟨n, hn, hb⟩⟩
      · rw [hb] at h; cases h
      · rw [hb]; intro h; cases h
  · rw [← fullTree_eq] at hfuel
    obtain ⟨fin, h1, -, -, ⟨root, h2, -⟩, h3⟩ := search_ok
      (carried_stuck d E pick propagation board hstuck) board gen exp seed fuel
      ⟨⟨_, rfl, rfl⟩, rfl⟩ hfuel
    have hc : candidates fin = [] := by
      unfold candidates
      rw [h3]
      rfl
    refine ⟨fin, _, h1, get_next_move_eq hd h1, by rw [h2]; rfl, h3, hc, ?_⟩
    show bestAction (candidates fin) r = .error Fault.divisionByZero
    rw [hc]
    rfl

/-- Witness: `empty_candidates_divide_by_zero` on the full board that no direction
changes, with depth 1. -/
theorem empty_candidates_divide_by_zero_witness :
    1 ≤ 1 ∧ (4 ^ (1 + 1) - 1) / 3 ≤ 5 ∧
    (∀ (m : move_t) (seed : Nat),
      isEqualBoard (childBoard sampleEngine stuckBoard m seed) stuckBoard = true) ∧
    ∃ out, get_next_move sampleEngine maxPick 5 stuckBoard 1 propagation_t.max [] 0 0 0 0
        = some out ∧
      out.best_action = .error Fault.divisionByZero := by
  obtain ⟨-, -, fin, out, -, h2, -, -, -, h6⟩ := empty_candidates_divide_by_zero sampleEngine
    maxPick stuckBoard 1 propagation_t.max 0 0 0 0 5 (by decide) (by decide) sampleEngine_stuck
  exact ⟨by decide, by decide, sampleEngine_stuck, out, h2, h6⟩

/-! ## The children of an expansion, direction by direction -/

theorem seedAfter_append (E : BoardEngine) (b : Board) (pre post : List move_t) (seed : Nat) :
    seedAfter E b (pre ++ post) seed = seedAfter E b post (seedAfter E b pre seed) := by
  induction pre generalizing seed with
  | nil => rfl
  | cons m ms ih =>
    simp only [List.cons_append, seedAfter]
    exact ih _

theorem expectedChildren_append (E : BoardEngine) (cn : node_t) (cur ps : Nat)
    (pre post : List move_t) (seed : Nat) :
    expectedChildren E cn cur ps (pre ++ post) seed
      = expectedChildren E cn cur ps pre seed
        ++ expectedChildren E cn cur ps post (seedAfter E cn.board pre seed) := by
  induction pre generalizing seed with
  | nil => rfl
  | cons m ms ih =>
    simp only [List.cons_append, expectedChildren, seedAfter]
    split_ifs
    · exact ih _
    · exact congrArg (List.cons _) (ih _)

theorem expectedChildren_moves (E : BoardEngine) (cn : node_t) (cur ps : Nat)
    (ms : List move_t) (seed : Nat) :
    ((expectedChildren E cn cur ps ms seed).map node_t.move).Sublist ms := by
  induction ms generalizing seed with
  | nil => exact List.Sublist.refl _
  | cons m ms ih =>
    simp only [expectedChildren]
    split_ifs
    · exact (ih _).cons _
    · simp only [List.map_cons]
      exact (ih _).cons₂ _

theorem drop_snoc_of {α : Type} {l l' : List α} {L : Nat} {c : α} (hL : L ≤ l.length)
    (hlen : l'.length = l.length + 1)
    (hold : ∀ i, L ≤ i → i < l.length → l'[i]? = l[i]?)
    (hnew : l'[l.length]? = some c) : l'.drop L = l.drop L ++ [c] := by
  apply List.ext_getElem?
  intro k
  rw [List.getElem?_drop]
  rcases lt_trichotomy (L + k) l.length with h | h | h
  · rw [hold _ (by omega) h, List.getElem?_append_left (by rw [List.length_drop]; omega),
      List.getElem?_drop]
  · rw [h, hnew, List.getElem?_append_right (by rw [List.length_drop]; omega),
      List.length_drop]
    have : k - (l.length - L) = 0 := by omega
    rw [this]
    rfl
  · rw [List.getElem?_eq_none (by omega), List.getElem?_eq_none]
    rw [List.length_append, List.length_drop, List.length_singleton]
    omega

/-- The `for` loop of `generatePossibility` on a valid node below the depth bound
returns, and the nodes it has appended to the arena are exactly the expected
children, in the order of the directions. -/
theorem generatePossibility_exact {d : Nat} (E : BoardEngine) (propagation : propagation_t)
    {cur : Nat} {st : SearchState} {cn : node_t} (hinv : Inv d st)
    (hn : st.nodes[cur]? = some cn) (hd : cn.depth < d) :
    ∃ st', generatePossibility E propagation cur st = some st' ∧ Inv d st' ∧
      st'.seed = seedAfter E cn.board allMoves st.seed ∧
      st'.nodes.length = st.nodes.length
        + (expectedChildren E cn cur cn.priority allMoves st.seed).length ∧
      st'.nodes.drop st.nodes.length = expectedChildren E cn cur cn.priority allMoves st.seed ∧
      ∃ cn', st'.nodes[cur]? = some cn' ∧ skel cn' = skel cn ∧
        cn'.num_childs = cn.num_childs
          + (expectedChildren E cn cur cn.priority allMoves st.seed).length := by
  have hcl := lt_length_of_getElem? hn
  rw [generatePossibility_eq hn]
  obtain ⟨st', h1, h2, pre, hpre, h3, h4, h5, h6⟩ := @expandMoves_ok d E propagation cur
    cn.priority
    (fun ms s => ∃ pre, pre ++ ms = allMoves ∧
      s.seed = seedAfter E cn.board pre st.seed ∧
      s.nodes.length = st.nodes.length
        + (expectedChildren E cn cur cn.priority pre st.seed).length ∧
      s.nodes.drop st.nodes.length = expectedChildren E cn cur cn.priority pre st.seed ∧
      ∃ cn', s.nodes[cur]? = some cn' ∧ skel cn' = skel cn ∧
        cn'.num_childs = cn.num_childs
          + (expectedChildren E cn cur cn.priority pre st.seed).length)
    (by
      rintro m ms s s' cn1 hi1 hn1 hd1 ⟨pre, hpre, q1, q2, q3, cn', q4, q5, q6⟩ hmv -
      rw [hn1] at q4
      injection q4 with q4
      subst q4
      simp only [skel, Prod.mk.injEq] at q5
      have hcb : cn1.board = cn.board := q5.2.2.2
      have hcd : cn1.depth = cn.depth := q5.1
      obtain ⟨cn0, hn0, -, -, -, -, hseed, -⟩ := expandMove_cases hmv
      rw [hn1] at hn0
      injection hn0 with hn0
      subst hn0
      have hsnoc := expectedChildren_append E cn cur cn.priority pre [m] st.seed
      refine ⟨pre ++ [m], by rw [List.append_assoc]; exact hpre, ?_, ?_⟩
      · rw [seedAfter_append, hseed, hcb, q1]
        rfl
      obtain ⟨-, -, -, g4 | ⟨hb, -, hlen, -, -, -⟩⟩ := expandMove_summary hi1 hn1 hd1 hmv
      · have hb := g4.1
        rw [hcb, q1] at hb
        have hone : expectedChildren E cn cur cn.priority [m] (seedAfter E cn.board pre st.seed)
            = [] := by
          simp only [expectedChildren, hb, if_true]
        rw [hsnoc, hone, List.append_nil, g4.2.1]
        exact ⟨q2, q3, cn1, hn1, by simp [skel, q5], q6⟩
      · obtain ⟨e1, ⟨cn2, e2, e3, e4⟩, e5⟩ := expandMove_effect hi1 hn1 hd1 hmv hb
        have hb' := hb
        rw [hcb, q1] at hb'
        have hchild : childNode E cn1 cur cn.priority m s.seed
            = ⟨((cn.priority + E.points cn.board m) % U32
                + E.countEmpty (childBoard E cn.board m (seedAfter E cn.board pre st.seed)))
                % U32,
              cn.depth + 1, 0, m, childBoard E cn.board m (seedAfter E cn.board pre st.seed),
              some cur⟩ := by
          simp only [childNode, hcb, hcd, q1]
        have hone : expectedChildren E cn cur cn.priority [m] (seedAfter E cn.board pre st.seed)
            = [childNode E cn1 cur cn.priority m s.seed] := by
          rw [hchild]
          simp only [expectedChildren, hb', Bool.false_eq_true, if_false]
        rw [hsnoc, hone, List.length_append, List.length_singleton]
        refine ⟨by omega, ?_, cn2, e2, by rw [e3]; simp [skel, q5], by omega⟩
        rw [← q3]
        refine drop_snoc_of (by omega) hlen (fun i hLi hil => ?_) e1
        rw [e5 i _ (List.getElem?_eq_getElem hil) (by omega)]
        exact (List.getElem?_eq_getElem hil).symm)
    allMoves st cn hinv hn hd
    ⟨[], rfl, rfl, rfl, by simp [expectedChildren], cn, hn, rfl, rfl⟩
  rw [List.append_nil] at hpre
  subst hpre
  exact ⟨st', h1, h2, h3, h4, h5, h6⟩

/-- C12: when `generatePossibility` expands a valid node `current` below the depth
bound, the call returns, and the nodes it has appended to the arena are exactly the
expected children, in the order `left, right, up, down` of the directions, at most
one for each direction.  For every direction `m` whose board (the moved board of
`current`, with the random tile when the move succeeded, computed with the state of
`rand()` left by the directions tried before `m`) differs from the board of
`current`, a child has been created whose move is `m`, whose board is that board,
whose score is `(s + merge points of m on current's board + countEmpty of the
child's board) mod 2 ^ 32` with `s` the score of `current` read before the loop,
whose depth is `current.depth + 1`, whose parent is `current` and which has no
child.  Every created node is of that form, and `current` has gained as many
children as nodes were created, its depth, parent, move and board unchanged. -/
theorem generatePossibility_children {d : Nat} (E : BoardEngine) (propagation : propagation_t)
    {cur : Nat} {st : SearchState} {cn : node_t} (hinv : Inv d st)
    (hn : st.nodes[cur]? = some cn) (hd : cn.depth < d) :
    ∃ st', generatePossibility E propagation cur st = some st' ∧
      st.nodes.length ≤ st'.nodes.length ∧
      st'.nodes.drop st.nodes.length
        = expectedChildren E cn cur cn.priority
            [move_t.left, move_t.right, move_t.up, move_t.down] st.seed ∧
      ((st'.nodes.drop st.nodes.length).map node_t.move).Sublist
        [move_t.left, move_t.right, move_t.up, move_t.down] ∧
      (∀ (pre post : List move_t) (m : move_t),
        [move_t.left, move_t.right, move_t.up, move_t.down] = pre ++ m :: post →
        isEqualBoard (childBoard E cn.board m (seedAfter E cn.board pre st.seed)) cn.board
          = false →
        ∃ i c, st.nodes.length ≤ i ∧ st'.nodes[i]? = some c ∧ c.move = m ∧
          c.board = childBoard E cn.board m (seedAfter E cn.board pre st.seed) ∧
          c.priority = ((cn.priority + E.points cn.board m) % 2 ^ 32
            + E.countEmpty c.board) % 2 ^ 32 ∧
          c.depth = cn.depth + 1 ∧ c.parent = some cur ∧ c.num_childs = 0) ∧
      (∀ (i : Nat) (n : node_t), st.nodes.length ≤ i → st'.nodes[i]? = some n →
        n.priority = ((cn.priority + E.points cn.board n.move) % 2 ^ 32
          + E.countEmpty n.board) % 2 ^ 32 ∧
        n.depth = cn.depth + 1 ∧ n.parent = some cur ∧ n.num_childs = 0 ∧
        (∃ seed, n.board = childBoard E cn.board n.move seed) ∧
        isEqualBoard n.board cn.board = false) ∧
      ∃ cn', st'.nodes[cur]? = some cn' ∧ skel cn' = skel cn ∧
        cn'.num_childs = cn.num_childs + (st'.nodes.length - st.nodes.length) := by
  obtain ⟨st', h1, -, -, h4, h5, cn', h6, h7, h8⟩ :=
    generatePossibility_exact E propagation hinv hn hd
  obtain ⟨-, -, h9⟩ := generatePossibility_created_fields hinv hn hd h1
  refine ⟨st', h1, by omega, h5, ?_, ?_, h9, cn', h6, h7, by omega⟩
  · rw [h5]
    exact expectedChildren_moves E cn cur cn.priority allMoves st.seed
  · intro pre post m hsplit hb
    have happ := expectedChildren_append E cn cur cn.priority pre (m :: post) st.seed
    have hall : allMoves = pre ++ m :: post := hsplit
    rw [← hall] at happ
    have hhead : expectedChildren E cn cur cn.priority (m :: post)
        (seedAfter E cn.board pre st.seed)
        = ⟨((cn.priority + E.points cn.board m) % U32
              + E.countEmpty (childBoard E cn.board m (seedAfter E cn.board pre st.seed)))
              % U32,
            cn.depth + 1, 0, m, childBoard E cn.board m (seedAfter E cn.board pre st.seed),
            some cur⟩
          :: expectedChildren E cn cur cn.priority post
            (childSeed E cn.board m (seedAfter E cn.board pre st.seed)) := by
      simp only [expectedChildren, hb, Bool.false_eq_true, if_false]
    have hget : st'.nodes[st.nodes.length
        + (expectedChildren E cn cur cn.priority pre st.seed).length]?
        = some ⟨((cn.priority + E.points cn.board m) % U32
              + E.countEmpty (childBoard E cn.board m (seedAfter E cn.board pre st.seed)))
              % U32,
            cn.depth + 1, 0, m, childBoard E cn.board m (seedAfter E cn.board pre st.seed),
            some cur⟩ := by
      rw [← List.getElem?_drop, h5]
      rw [happ, hhead, List.getElem?_append_right (le_refl _), Nat.sub_self,
        List.getElem?_cons_zero]
    exact ⟨_, _, Nat.le_add_right _ _, hget, rfl, rfl, rfl, rfl, rfl, rfl⟩

/-- Witness: `generatePossibility_children` on the expansion of the start node of
the corner board (depth bound 2, mode max): the directions right and down change the
board and each gets a child of score 14. -/
theorem generatePossibility_children_witness :
    Inv 2 (afterPop (initState cornerBoard 2 [] 0 0 7) 0 []) ∧
    (afterPop (initState cornerBoard 2 [] 0 0 7) 0 []).nodes[0]?
      = some ⟨0, 0, 0, move_t.left, cornerBoard, none⟩ ∧
    (⟨0, 0, 0, move_t.left, cornerBoard, none⟩ : node_t).depth < 2 ∧
    ∃ st', generatePossibility sampleEngine propagation_t.max 0
        (afterPop (initState cornerBoard 2 [] 0 0 7) 0 []) = some st' ∧
      (st'.nodes.drop 1).map (fun c => (c.move, c.priority, c.depth, c.parent))
        = [(move_t.right, 14, 1, some 0), (move_t.down, 14, 1, some 0)] ∧
      ∃ cn', st'.nodes[0]? = some cn' ∧ cn'.num_childs = 2 := by
  have hinv := Inv_popped_root cornerBoard 2 0 0 7
  have hn : (afterPop (initState cornerBoard 2 [] 0 0 7) 0 []).nodes[0]?
      = some ⟨0, 0, 0, move_t.left, cornerBoard, none⟩ := rfl
  obtain ⟨st', h1, -, h3, -, -, -, cn', h7, -, h9⟩ :=
    generatePossibility_children sampleEngine propagation_t.max hinv hn (by decide)
  have hlist : (expectedChildren sampleEngine ⟨0, 0, 0, move_t.left, cornerBoard, none⟩ 0 0
      [move_t.left, move_t.right, move_t.up, move_t.down] 7).map
      (fun c => (c.move, c.priority, c.depth, c.parent))
      = [(move_t.right, 14, 1, some 0), (move_t.down, 14, 1, some 0)] := by decide!
  have h3' : st'.nodes.drop 1 = expectedChildren sampleEngine
      ⟨0, 0, 0, move_t.left, cornerBoard, none⟩ 0 0
      [move_t.left, move_t.right, move_t.up, move_t.down] 7 := h3
  have hlen : (st'.nodes.drop 1).length = 2 := by
    have := congrArg List.length hlist
    rw [← h3'] at this
    simpa using this
  refine ⟨hinv, hn, by decide, st', h1, by rw [h3']; exact hlist, cn', h7, ?_⟩
  rw [h9]
  rw [List.length_drop] at hlen
  have hl0 : (afterPop (initState cornerBoard 2 [] 0 0 7) 0 []).nodes.length = 1 := rfl
  have hcn : (⟨0, 0, 0, move_t.left, cornerBoard, none⟩ : node_t).num_childs = 0 := rfl
  rw [hl0, hcn]
  omega

/-! ## Board arrays in memory: reads, writes and copies -/

theorem Board.set_get_self (b : Board) (i j : Nat) : b.set i j (b.get i j) = b := by
  have key : ∀ x y, (if x = i ∧ y = j then b.get i j else b.get x y) = b.get x y := by
    intro x y
    split_ifs with h
    · rw [h.1, h.2]
    · rfl
  unfold Board.set
  simp only [key]
  rfl

theorem copyCells_eq (d b : Board) :
    (List.range SIZE).foldl (fun d1 i =>
      (List.range SIZE).foldl (fun d2 j => d2.set i j (b.get i j)) d1) d = b := by
  obtain ⟨⟨a00, a01, a02, a03⟩, ⟨a10, a11, a12, a13⟩, ⟨a20, a21, a22, a23⟩,
    ⟨a30, a31, a32, a33⟩⟩ := d
  obtain ⟨⟨b00, b01, b02, b03⟩, ⟨b10, b11, b12, b13⟩, ⟨b20, b21, b22, b23⟩,
    ⟨b30, b31, b32, b33⟩⟩ := b
  rfl

theorem Memory.readBoard_setBoard_self {mem : Memory} {p : BoardRef} {d : Board}
    (h : mem.readBoard p = some d) (b : Board) : (mem.setBoard p b).readBoard p = some b := by
  cases p with
  | caller => rfl
  | newBoard => rfl
  | node id =>
    simp only [Memory.readBoard] at h
    cases hn : mem.st.nodes[id]? with
    | none => rw [hn] at h; cases h
    | some n =>
      have hlt := lt_length_of_getElem? hn
      simp only [Memory.setBoard, hn, Memory.readBoard, List.getElem?_set_self hlt]
      rfl

theorem Memory.readBoard_setBoard_ne (mem : Memory) {p q : BoardRef} (hpq : p ≠ q)
    (b : Board) : (mem.setBoard p b).readBoard q = mem.readBoard q := by
  cases p with
  | caller =>
    cases q with
    | caller => exact absurd rfl hpq
    | newBoard => rfl
    | node id => rfl
  | newBoard =>
    cases q with
    | caller => rfl
    | newBoard => exact absurd rfl hpq
    | node id => rfl
  | node id =>
    cases hn : mem.st.nodes[id]? with
    | none => simp only [Memory.setBoard, hn]
    | some n =>
      cases q with
      | caller => simp only [Memory.setBoard, hn, Memory.readBoard]
      | newBoard => simp only [Memory.setBoard, hn, Memory.readBoard]
      | node id' =>
        have hne : id ≠ id' := fun h => hpq (by rw [h])
        simp only [Memory.setBoard, hn, Memory.readBoard, List.getElem?_set_ne hne]

theorem Memory.setBoard_setBoard (mem : Memory) (p : BoardRef) (b b' : Board) :
    (mem.setBoard p b).setBoard p b' = mem.setBoard p b' := by
  cases p with
  | caller => rfl
  | newBoard => rfl
  | node id =>
    cases hn : mem.st.nodes[id]? with
    | none => simp only [Memory.setBoard, hn]
    | some n =>
      have hlt := lt_length_of_getElem? hn
      simp only [Memory.setBoard, hn, List.getElem?_set_self hlt, List.set_set]

theorem Memory.setBoard_readBoard {mem : Memory} {p : BoardRef} {d : Board}
    (h : mem.readBoard p = some d) : mem.setBoard p d = mem := by
  cases p with
  | caller =>
    simp only [Memory.readBoard, Option.some.injEq] at h
    simp only [Memory.setBoard, ← h]
  | newBoard =>
    simp only [Memory.readBoard, Option.some.injEq] at h
    simp only [Memory.setBoard, ← h]
  | node id =>
    simp only [Memory.readBoard] at h
    cases hn : mem.st.nodes[id]? with
    | none => rw [hn] at h; cases h
    | some n =>
      rw [hn] at h
      simp only [Option.map_some', Option.some.injEq] at h
      have hset : mem.st.nodes.set id { n with board := d } = mem.st.nodes := by
        apply set_eq_self_of_getElem?
        rw [hn, ← h]
      simp only [Memory.setBoard, hn, hset]

theorem foldl_set_self (b : Board) (i : Nat) (js : List Nat) :
    js.foldl (fun d j => d.set i j (b.get i j)) b = b := by
  induction js with
  | nil => rfl
  | cons j js ih =>
    rw [List.foldl_cons, Board.set_get_self]
    exact ih

theorem copy_src_kept {mem : Memory} {dst src : BoardRef} {d0 d1 b0 : Board}
    (hdst : mem.readBoard dst = some d0)
    (hsrc : (mem.setBoard dst d1).readBoard src = some b0) (d2 : Board)
    (hsame : d1 = b0 → d2 = b0) :
    (mem.setBoard dst d2).readBoard src = some b0 := by
  by_cases hp : dst = src
  · subst hp
    rw [Memory.readBoard_setBoard_self hdst] at hsrc ⊢
    injection hsrc with hsrc
    rw [hsame hsrc]
  · rw [Memory.readBoard_setBoard_ne mem hp] at hsrc ⊢
    exact hsrc

/-- The inner loop of `copyBoard` for row `i`. -/
theorem copyBoardAt_row {mem : Memory} {dst src : BoardRef} {d0 b0 : Board}
    (hdst : mem.readBoard dst = some d0) (i : Nat) :
    ∀ (js : List Nat) (d1 : Board), (mem.setBoard dst d1).readBoard src = some b0 →
      js.foldlM (fun mem2 j =>
          match mem2.readCell src i j with
          | none => none
          | some v => mem2.writeCell dst i j v) (mem.setBoard dst d1)
        = some (mem.setBoard dst (js.foldl (fun d j => d.set i j (b0.get i j)) d1)) := by
  intro js
  induction js with
  | nil => intro d1 _; rfl
  | cons j js ih =>
    intro d1 hsrc
    have hstep : (match (mem.setBoard dst d1).readCell src i j with
        | none => none
        | some v => (mem.setBoard dst d1).writeCell dst i j v)
        = some (mem.setBoard dst (d1.set i j (b0.get i j))) := by
      simp only [Memory.readCell, hsrc, Option.map_some', Memory.writeCell,
        Memory.readBoard_setBoard_self hdst, Memory.setBoard_setBoard]
    rw [List.foldlM_cons, hstep, List.foldl_cons]
    exact ih _ (copy_src_kept hdst hsrc _ fun h => by rw [h, Board.set_get_self])

/-- The loops of `copyBoard` leave the contents of `original` in `duplicate` and
write nothing else. -/
theorem copyBoardAt_eq {mem : Memory} {dst src : BoardRef} {d0 b0 : Board}
    (hdst : mem.readBoard dst = some d0) (hsrc : mem.readBoard src = some b0) :
    copyBoardAt dst src mem = some (mem.setBoard dst b0) := by
  have houter : ∀ (is : List Nat) (d1 : Board),
      (mem.setBoard dst d1).readBoard src = some b0 →
      is.foldlM (fun mem1 i =>
          (List.range SIZE).foldlM (fun mem2 j =>
            match mem2.readCell src i j with
            | none => none
            | some v => mem2.writeCell dst i j v) mem1) (mem.setBoard dst d1)
        = some (mem.setBoard dst (is.foldl (fun d2 i =>
            (List.range SIZE).foldl (fun d3 j => d3.set i j (b0.get i j)) d2) d1)) := by
    intro is
    induction is with
    | nil => intro d1 _; rfl
    | cons i is ih =>
      intro d1 hs
      rw [List.foldlM_cons, copyBoardAt_row hdst i (List.range SIZE) d1 hs, List.foldl_cons]
      exact ih _ (copy_src_kept hdst hs _ fun h => by rw [h, foldl_set_self])
  have h0 : (mem.setBoard dst d0).readBoard src = some b0 := by
    rw [Memory.setBoard_readBoard hdst]; exact hsrc
  have := houter (List.range SIZE) d0 h0
  rw [Memory.setBoard_readBoard hdst, copyCells_eq] at this
  exact this

theorem set_length_snoc {α : Type} (l : List α) (a b : α) :
    (l ++ [a]).set l.length b = l ++ [b] := by
  induction l with
  | nil => rfl
  | cons x xs ih => simp only [List.cons_append, List.length_cons, List.set_cons_succ, ih]

/-- Function `createNewNode` on arrays in memory appends one node whose array holds
the contents of the array it was given, whatever `malloc` left there; it writes no
other array. -/
theorem createNewNodeAt_eq {mem : Memory} {p : BoardRef} {b : Board}
    (h : mem.readBoard p = some b) (score depth num_childs : Nat) (move : move_t)
    (parent : Option Nat) (junk : Board) :
    createNewNodeAt score depth num_childs move p parent junk mem
      = some (mem.st.nodes.length, { mem with st := { mem.st with
          nodes := mem.st.nodes ++ [⟨score, depth, num_childs, move, b, parent⟩] } }) := by
  have hsrc : ({ mem with st := { mem.st with
      nodes := mem.st.nodes ++ [⟨score, depth, num_childs, move, junk, parent⟩] } }
      : Memory).readBoard p = some b := by
    cases p with
    | caller => exact h
    | newBoard => exact h
    | node id =>
      simp only [Memory.readBoard] at h ⊢
      cases hn : mem.st.nodes[id]? with
      | none => rw [hn] at h; cases h
      | some n =>
        rw [List.getElem?_append_left (lt_length_of_getElem? hn), hn]
        rw [hn] at h
        exact h
  have hnew : (mem.st.nodes ++ [(⟨score, depth, num_childs, move, junk, parent⟩ : node_t)])[
      mem.st.nodes.length]? = some ⟨score, depth, num_childs, move, junk, parent⟩ := by
    rw [List.getElem?_append_right (le_refl _)]
    simp
  have hdst : ({ mem with st := { mem.st with
      nodes := mem.st.nodes ++ [⟨score, depth, num_childs, move, junk, parent⟩] } }
      : Memory).readBoard (.node mem.st.nodes.length) = some junk := by
    simp only [Memory.readBoard, hnew]
    rfl
  unfold createNewNodeAt
  simp only [copyBoardAt_eq hdst hsrc, Memory.setBoard, hnew, set_length_snoc]

theorem copyBoardAt_newBoard {mem : Memory} {cur : Nat} {cn : node_t}
    (hn : mem.st.nodes[cur]? = some cn) :
    copyBoardAt .newBoard (.node cur) mem = some { mem with newBoard := cn.board } := by
  have hsrc : mem.readBoard (.node cur) = some cn.board := by
    simp only [Memory.readBoard, hn]
    rfl
  have hdst : mem.readBoard .newBoard = some mem.newBoard := rfl
  rw [copyBoardAt_eq hdst hsrc]
  rfl

theorem isEqualBoardAt_newBoard {mem : Memory} {cur : Nat} {cn : node_t}
    (hn : mem.st.nodes[cur]? = some cn) :
    isEqualBoardAt .newBoard (.node cur) mem = some (isEqualBoard mem.newBoard cn.board) := by
  simp only [isEqualBoardAt, Memory.readBoard, hn, Option.map_some']

/-- One direction of `generatePossibility` on arrays in memory does to the search
state what `expandMove` does, leaves the caller's array as it was and leaves in
`newBoard` the board it has tried. -/
theorem expandMoveAt_eq (E : BoardEngine) (propagation : propagation_t) {cur : Nat}
    (ps : Nat) (junk : Nat → Board) {mem : Memory} (m : move_t) {cn : node_t}
    (hn : mem.st.nodes[cur]? = some cn) :
    expandMoveAt E propagation cur ps junk mem m
      = (expandMove E propagation cur ps mem.st m).map fun st' =>
          ⟨st', mem.caller, childBoard E cn.board m mem.st.seed⟩ := by
  have hlt := lt_length_of_getElem? hn
  rw [expandMove_eq hn]
  unfold expandMoveAt
  simp only [hn, copyBoardAt_newBoard hn, execute_move_tAt, Memory.readBoard, Memory.setBoard,
    execute_move_t]
  cases hm : E.moved cn.board m
  · simp only [Bool.false_eq_true, if_false]
    have hcb : childBoard E cn.board m mem.st.seed = E.slide cn.board m := by
      simp only [childBoard, hm, Bool.false_eq_true, if_false]
    have hcs : childSeed E cn.board m mem.st.seed = mem.st.seed := by
      simp only [childSeed, hm, Bool.false_eq_true, if_false]
    rw [isEqualBoardAt_newBoard (by exact hn)]
    simp only [hcb]
    cases hb : isEqualBoard (E.slide cn.board m) cn.board
    · simp only [Bool.false_eq_true, if_false, if_true, countEmptyAt, Memory.readBoard,
        Option.map_some']
      rw [createNewNodeAt_eq (by rfl)]
      simp only [List.getElem?_append_left hlt, hn, childNode, hcb, hcs, NEXT_LEVEL, INITIAL,
        DECISION_DEPTH, heap_push]
      generalize propagateScore _ _ _ = res
      cases res <;> rfl
    · simp only [hcs, Option.map_some', Bool.true_eq_false, if_false]
  · simp only [if_true, addRandomAt, Memory.readBoard, Memory.setBoard]
    have hcb : childBoard E cn.board m mem.st.seed
        = (E.addRandom (E.slide cn.board m) mem.st.seed).1 := by
      simp only [childBoard, hm, if_true]
    have hcs : childSeed E cn.board m mem.st.seed
        = (E.addRandom (E.slide cn.board m) mem.st.seed).2 := by
      simp only [childSeed, hm, if_true]
    rw [isEqualBoardAt_newBoard (by exact hn)]
    simp only [hcb]
    cases hb : isEqualBoard (E.addRandom (E.slide cn.board m) mem.st.seed).1 cn.board
    · simp only [Bool.false_eq_true, if_false, if_true, countEmptyAt, Memory.readBoard,
        Option.map_some']
      rw [createNewNodeAt_eq (by rfl)]
      simp only [List.getElem?_append_left hlt, hn, childNode, hcb, hcs, NEXT_LEVEL, INITIAL,
        DECISION_DEPTH, heap_push]
      generalize propagateScore _ _ _ = res
      cases res <;> rfl
    · simp only [hcs, Option.map_some', Bool.true_eq_false, if_false]

/-! ## The search on arrays in memory against the search on values -/

theorem expandMoveAt_none (E : BoardEngine) (propagation : propagation_t) {cur : Nat}
    (ps : Nat) (junk : Nat → Board) {mem : Memory} (m : move_t)
    (hn : mem.st.nodes[cur]? = none) :
    expandMoveAt E propagation cur ps junk mem m = none ∧
      expandMove E propagation cur ps mem.st m = none := by
  constructor
  · unfold expandMoveAt
    simp only [hn]
  · unfold expandMove
    simp only [hn]

theorem expandMovesAt_proj (E : BoardEngine) (propagation : propagation_t) (cur ps : Nat)
    (junk : Nat → Board) :
    ∀ (ms : List move_t) (mem : Memory),
      (expandMovesAt E propagation cur ps junk ms mem).map (fun m' => (m'.st, m'.caller))
        = (expandMoves E propagation cur ps ms mem.st).map fun st' => (st', mem.caller) := by
  intro ms
  induction ms with
  | nil => intro mem; rfl
  | cons m ms ih =>
    intro mem
    unfold expandMovesAt expandMoves
    cases hn : mem.st.nodes[cur]? with
    | none =>
      obtain ⟨h1, h2⟩ := expandMoveAt_none E propagation ps junk m hn
      simp only [h1, h2]
      rfl
    | some cn =>
      rw [expandMoveAt_eq E propagation ps junk m hn]
      cases hmv : expandMove E propagation cur ps mem.st m with
      | none => rfl
      | some st1 =>
        simp only [Option.map_some']
        exact ih ⟨st1, mem.caller, childBoard E cn.board m mem.st.seed⟩

theorem generatePossibilityAt_proj (E : BoardEngine) (propagation : propagation_t) (cur : Nat)
    (junk : Nat → Board) (mem : Memory) :
    (generatePossibilityAt E propagation cur junk mem).map (fun m' => (m'.st, m'.caller))
      = (generatePossibility E propagation cur mem.st).map fun st' => (st', mem.caller) := by
  unfold generatePossibilityAt generatePossibility
  cases hn : mem.st.nodes[cur]? with
  | none => rfl
  | some cn => exact expandMovesAt_proj E propagation cur cn.priority junk _ mem

theorem popStepAt_proj (E : BoardEngine) (pick : SearchState → Nat) (d : Nat)
    (propagation : propagation_t) (junk : Nat → Board) (mem : Memory) :
    (popStepAt E pick d propagation junk mem).map (fun m' => (m'.st, m'.caller))
      = (popStep E pick d propagation mem.st).map fun st' => (st', mem.caller) := by
  unfold popStepAt popStep
  cases hdel : heap_delete pick mem.st with
  | none => rfl
  | some cr =>
    obtain ⟨current, rest⟩ := cr
    simp only []
    cases hn : (insertIntoExplored
        { mem.st with heap := rest, expanded := mem.st.expanded + 1 } current).nodes[current]? with
    | none => rfl
    | some cn =>
      simp only []
      split_ifs
      · exact generatePossibilityAt_proj E propagation current junk
          ⟨afterPop mem.st current rest, mem.caller, mem.newBoard⟩
      · rfl

theorem drainAt_proj (E : BoardEngine) (pick : SearchState → Nat) (d : Nat)
    (propagation : propagation_t) (junk : Nat → Board) :
    ∀ (fuel : Nat) (mem : Memory),
      (drainAt E pick d propagation junk fuel mem).map (fun m' => (m'.st, m'.caller))
        = (drain E pick d propagation fuel mem.st).map fun st' => (st', mem.caller) := by
  intro fuel
  induction fuel with
  | zero =>
    intro mem
    unfold drainAt drain
    split_ifs <;> rfl
  | succ fuel ih =>
    intro mem
    unfold drainAt drain
    split_ifs
    · rfl
    · simp only []
      have hp := popStepAt_proj E pick d propagation junk mem
      cases hA : popStepAt E pick d propagation junk mem with
      | none =>
        rw [hA] at hp
        cases hB : popStep E pick d propagation mem.st with
        | none => rfl
        | some st1 => rw [hB] at hp; cases hp
      | some mem1 =>
        rw [hA] at hp
        cases hB : popStep E pick d propagation mem.st with
        | none => rw [hB] at hp; cases hp
        | some st1 =>
          rw [hB] at hp
          simp only [Option.map_some', Option.some.injEq, Prod.mk.injEq] at hp
          simp only []
          rw [← hp.1, ← hp.2]
          exact ih mem1

/-- Function `get_next_move` on arrays in memory returns what `get_next_move` on values
returns, and leaves the caller's array as it was. -/
theorem get_next_moveAt_eq (E : BoardEngine) (pick : SearchState → Nat) (fuel : Nat)
    (board : Board) (d : Nat) (propagation : propagation_t) (h : List Nat)
    (gen exp seed r : Nat) (local0 : Board) (junk : Nat → Board) :
    (get_next_moveAt E pick fuel board d propagation h gen exp seed r local0 junk).map Prod.fst
      = get_next_move E pick fuel board d propagation h gen exp seed r ∧
    ∀ (out : Outcome) (mem : Memory),
      get_next_moveAt E pick fuel board d propagation h gen exp seed r local0 junk
        = some (out, mem) → mem.caller = board ∧ out.board = board := by
  have hcreate : createNewNodeAt INITIAL INITIAL INITIAL move_t.left .caller none (junk 0)
      (⟨⟨[], h, [], initialCapacity d, [], gen, exp, seed⟩, board, local0⟩ : Memory)
      = some (0, ⟨⟨[⟨INITIAL, INITIAL, INITIAL, move_t.left, board, none⟩], h, [],
          initialCapacity d, [], gen, exp, seed⟩, board, local0⟩) :=
    createNewNodeAt_eq (by rfl) _ _ _ _ _ _
  have hp := drainAt_proj E pick d propagation junk fuel
    ⟨initState board d h gen exp seed, board, local0⟩
  unfold get_next_moveAt get_next_move search
  split_ifs with h0
  · refine ⟨rfl, ?_⟩
    intro out mem hg
    simp only [Option.some.injEq, Prod.mk.injEq] at hg
    obtain ⟨h1, h2⟩ := hg
    subst h1 h2
    exact ⟨rfl, rfl⟩
  · simp only [hcreate]
    have hmem : (⟨{ (⟨[⟨INITIAL, INITIAL, INITIAL, move_t.left, board, none⟩], h, [],
          initialCapacity d, [], gen, exp, seed⟩ : SearchState) with
          heap := heap_push h 0 }, board, local0⟩ : Memory)
        = ⟨initState board d h gen exp seed, board, local0⟩ := rfl
    simp only [hmem]
    cases hA : drainAt E pick d propagation junk fuel
        ⟨initState board d h gen exp seed, board, local0⟩ with
    | none =>
      rw [hA] at hp
      cases hB : drain E pick d propagation fuel (initState board d h gen exp seed) with
      | none =>
        refine ⟨rfl, ?_⟩
        intro out mem hg
        cases hg
      | some st1 => rw [hB] at hp; cases hp
    | some mem3 =>
      rw [hA] at hp
      cases hB : drain E pick d propagation fuel (initState board d h gen exp seed) with
      | none => rw [hB] at hp; cases hp
      | some st1 =>
        rw [hB] at hp
        simp only [Option.map_some', Option.some.injEq, Prod.mk.injEq] at hp
        obtain ⟨hp1, hp2⟩ := hp
        have hp2' : mem3.caller = board := hp2
        refine ⟨?_, ?_⟩
        · simp only [Option.map_some', hp1, hp2']
        · intro out mem hg
          simp only [Option.some.injEq, Prod.mk.injEq] at hg
          obtain ⟨h1, h2⟩ := hg
          subst h1 h2
          exact ⟨hp2', hp2'⟩

theorem readBoard_node_kept {mem mem' : Memory} {i : Nat}
    (h : ∀ n, mem.st.nodes[i]? = some n → ∃ n', mem'.st.nodes[i]? = some n' ∧ n'.board = n.board)
    (hi : i < mem.st.nodes.length) :
    mem'.readBoard (.node i) = mem.readBoard (.node i) := by
  obtain ⟨n', h1, h2⟩ := h _ (List.getElem?_eq_getElem hi)
  simp only [Memory.readBoard, h1, List.getElem?_eq_getElem hi, Option.map_some', h2]

/-- C19: on arrays in memory, with the mutating functions writing in place.
After `copyBoard (d, o)` the array `d` holds the contents of `o`, `isEqualBoard (d, o)`
is true, and no array but `d` has been written (so `o` is unchanged).  `createNewNode`
gives the new node an array of its own that holds the contents of the array it was
handed, whatever `malloc` left there, and writes no other array.  One direction of
`generatePossibility` does to the search state what the function on values does,
works on the local array `newBoard`, and leaves the caller's array and the array of
every node that existed before, the expanded node included, as they were; a node it
creates holds a copy of `newBoard`.  So does a whole call of `generatePossibility`.
`get_next_move` returns what the function on values returns and, for every
`max_depth` and mode, leaves the caller's array as it was; for `max_depth = 0`, and
for `max_depth >= 1` with enough fuel, it does return. -/
theorem boards_copied_by_value :
    (∀ (mem : Memory) (dst src : BoardRef) (d o : Board),
      mem.readBoard dst = some d → mem.readBoard src = some o →
      ∃ mem', copyBoardAt dst src mem = some mem' ∧ mem'.readBoard dst = some o ∧
        mem'.readBoard src = some o ∧ isEqualBoardAt dst src mem' = some true ∧
        ∀ q, q ≠ dst → mem'.readBoard q = mem.readBoard q) ∧
    (∀ (mem : Memory) (p : BoardRef) (b : Board) (score depth k : Nat) (m : move_t)
      (parent : Option Nat) (junk : Board), mem.readBoard p = some b →
      ∃ mem', createNewNodeAt score depth k m p parent junk mem
          = some (mem.st.nodes.length, mem') ∧
        mem'.readBoard (.node mem.st.nodes.length) = some b ∧
        ∀ q, q ≠ .node mem.st.nodes.length → mem'.readBoard q = mem.readBoard q) ∧
    (∀ (E : BoardEngine) (d : Nat) (propagation : propagation_t) (cur ps : Nat)
      (junk : Nat → Board) (mem : Memory) (m : move_t) (cn : node_t),
      Inv d mem.st → mem.st.nodes[cur]? = some cn → cn.depth < d →
      ∃ mem', expandMoveAt E propagation cur ps junk mem m = some mem' ∧
        expandMove E propagation cur ps mem.st m = some mem'.st ∧
        mem'.readBoard .caller = mem.readBoard .caller ∧
        mem'.readBoard .newBoard = some (childBoard E cn.board m mem.st.seed) ∧
        (∀ i, i < mem.st.nodes.length →
          mem'.readBoard (.node i) = mem.readBoard (.node i)) ∧
        (mem'.st.nodes.length = mem.st.nodes.length + 1 →
          mem'.readBoard (.node mem.st.nodes.length) = mem'.readBoard .newBoard)) ∧
    (∀ (E : BoardEngine) (d : Nat) (propagation : propagation_t) (cur : Nat)
      (junk : Nat → Board) (mem : Memory) (cn : node_t),
      Inv d mem.st → mem.st.nodes[cur]? = some cn → cn.depth < d →
      ∃ mem', generatePossibilityAt E propagation cur junk mem = some mem' ∧
        generatePossibility E propagation cur mem.st = some mem'.st ∧
        mem'.readBoard .caller = mem.readBoard .caller ∧
        mem'.readBoard (.node cur) = some cn.board ∧
        ∀ i, i < mem.st.nodes.length →
          mem'.readBoard (.node i) = mem.readBoard (.node i)) ∧
    (∀ (E : BoardEngine) (pick : SearchState → Nat) (fuel : Nat) (board : Board) (d : Nat)
      (propagation : propagation_t) (h : List Nat) (gen exp seed r : Nat) (local0 : Board)
      (junk : Nat → Board),
      (get_next_moveAt E pick fuel board d propagation h gen exp seed r local0 junk).map
          Prod.fst
        = get_next_move E pick fuel board d propagation h gen exp seed r ∧
      (∀ (out : Outcome) (mem : Memory),
        get_next_moveAt E pick fuel board d propagation h gen exp seed r local0 junk
          = some (out, mem) → mem.readBoard .caller = some board ∧ out.board = board) ∧
      ((d = 0 ∨ (h = [] ∧ (4 ^ (d + 1) - 1) / 3 ≤ fuel)) →
        ∃ out mem, get_next_moveAt E pick fuel board d propagation h gen exp seed r local0 junk
          = some (out, mem))) := by
  refine ⟨?_, ?_, ?_, ?_, ?_⟩
  · intro mem dst src d o hdst hsrc
    refine ⟨_, copyBoardAt_eq hdst hsrc, Memory.readBoard_setBoard_self hdst o, ?_, ?_,
      fun q hq => Memory.readBoard_setBoard_ne mem (Ne.symm hq) o⟩
    · by_cases hp : dst = src
      · subst hp
        exact Memory.readBoard_setBoard_self hdst o
      · rw [Memory.readBoard_setBoard_ne mem hp]
        exact hsrc
    · have h1 : (mem.setBoard dst o).readBoard dst = some o :=
        Memory.readBoard_setBoard_self hdst o
      have h2 : (mem.setBoard dst o).readBoard src = some o := by
        by_cases hp : dst = src
        · subst hp
          exact h1
        · rw [Memory.readBoard_setBoard_ne mem hp]
          exact hsrc
      simp only [isEqualBoardAt, h1, h2, (isEqualBoard_iff o o).2 rfl]
  · intro mem p b score depth k m parent junk hp
    refine ⟨_, createNewNodeAt_eq hp score depth k m parent junk, ?_, ?_⟩
    · simp only [Memory.readBoard, List.getElem?_append_right (le_refl _), Nat.sub_self,
        List.getElem?_cons_zero, Option.map_some']
    · intro q hq
      cases q with
      | caller => rfl
      | newBoard => rfl
      | node id =>
        have hne : id ≠ mem.st.nodes.length := fun h => hq (by rw [h])
        simp only [Memory.readBoard]
        by_cases hlt : id < mem.st.nodes.length
        · rw [List.getElem?_append_left hlt]
        · rw [List.getElem?_eq_none (by simp; omega), List.getElem?_eq_none (by omega)]
  · intro E d propagation cur ps junk mem m cn hinv hn hd
    obtain ⟨st', h1, -, -⟩ := expandMove_ok propagation ps m hinv hn hd
    have h2 := expandMoveAt_eq E propagation ps junk m hn
    rw [h1] at h2
    obtain ⟨extra, hext⟩ := expandMove_skel_ext hinv hn hd h1
    refine ⟨_, h2, h1, rfl, rfl, ?_, ?_⟩
    · intro i hi
      refine readBoard_node_kept (fun n hni => ?_) hi
      obtain ⟨n', g1, g2⟩ := skel_ext hext i n hni
      simp only [skel, Prod.mk.injEq] at g2
      exact ⟨n', g1, g2.2.2.2⟩
    · intro hlen
      obtain ⟨-, -, -, h4 | h4⟩ := expandMove_summary hinv hn hd h1
      · have hlen' : st'.nodes.length = mem.st.nodes.length + 1 := hlen
        rw [h4.2.1] at hlen'
        omega
      · have hnew := expandMove_new_node hinv hn hd h1 h4.1
        simp only [Memory.readBoard, hnew, Option.map_some']
        rfl
  · intro E d propagation cur junk mem cn hinv hn hd
    obtain ⟨st', h1⟩ := generatePossibility_isSome E propagation hinv hn hd
    have hp := generatePossibilityAt_proj E propagation cur junk mem
    rw [h1] at hp
    cases hA : generatePossibilityAt E propagation cur junk mem with
    | none => rw [hA] at hp; cases hp
    | some mem' =>
      rw [hA] at hp
      simp only [Option.map_some', Option.some.injEq, Prod.mk.injEq] at hp
      obtain ⟨hp1, hp2⟩ := hp
      have hkept : ∀ (i : Nat) (n : node_t), mem.st.nodes[i]? = some n →
          ∃ n', mem'.st.nodes[i]? = some n' ∧ n'.board = n.board := by
        intro i n hni
        rw [hp1]
        exact boards_kept_on_values.2.2.2 E d propagation cur mem.st st' cn hinv hn hd h1 i n hni
      have hcl := lt_length_of_getElem? hn
      refine ⟨mem', rfl, by rw [hp1]; exact h1, ?_, ?_, ?_⟩
      · simp only [Memory.readBoard, hp2]
      · rw [readBoard_node_kept (fun n hni => hkept cur n hni) hcl]
        simp only [Memory.readBoard, hn, Option.map_some']
      · intro i hi
        exact readBoard_node_kept (fun n hni => hkept i n hni) hi
  · intro E pick fuel board d propagation h gen exp seed r local0 junk
    obtain ⟨h1, h2⟩ := get_next_moveAt_eq E pick fuel board d propagation h gen exp seed r
      local0 junk
    refine ⟨h1, ?_, ?_⟩
    · intro out mem hg
      obtain ⟨g1, g2⟩ := h2 out mem hg
      exact ⟨by simp only [Memory.readBoard, g1], g2⟩
    · intro hcase
      have hval : ∃ out, get_next_move E pick fuel board d propagation h gen exp seed r
          = some out := by
        rcases hcase with h0 | ⟨hnil, hfuel⟩
        · subst h0
          exact ⟨_, rfl⟩
        · subst hnil
          by_cases h0 : d = 0
          · subst h0
            exact ⟨_, rfl⟩
          · rw [← fullTree_eq] at hfuel
            obtain ⟨fin, g1, -, -, -⟩ := search_ok (carried_true d E pick propagation) board
              gen exp seed fuel True.intro hfuel
            exact ⟨_, get_next_move_eq (by omega) g1⟩
      obtain ⟨out, hout⟩ := hval
      rw [hout] at h1
      cases hA : get_next_moveAt E pick fuel board d propagation h gen exp seed r local0 junk with
      | none => rw [hA] at h1; cases h1
      | some x => exact ⟨x.1, x.2, rfl⟩

/-- Witness: `boards_copied_by_value` on the corner board with depth 2, the local
array and every freshly allocated node array holding the full board on entry: the
expansion of the start node and the whole call leave the caller's array, and the
array of the start node, as they were. -/
theorem boards_copied_by_value_witness :
    (∃ mem', generatePossibilityAt sampleEngine propagation_t.max 0 (fun _ => stuckBoard)
        ⟨afterPop (initState cornerBoard 2 [] 0 0 7) 0 [], cornerBoard, stuckBoard⟩ = some mem' ∧
      mem'.readBoard .caller = some cornerBoard ∧
      mem'.readBoard (.node 0) = some cornerBoard) ∧
    ∃ out mem, get_next_moveAt sampleEngine maxPick 21 cornerBoard 2 propagation_t.max [] 0 0 7 0
        stuckBoard (fun _ => stuckBoard) = some (out, mem) ∧
      mem.readBoard .caller = some cornerBoard ∧ out.board = cornerBoard := by
  obtain ⟨-, -, -, h4, h5⟩ := boards_copied_by_value
  constructor
  · obtain ⟨mem', g1, -, g3, g4, -⟩ := h4 sampleEngine 2 propagation_t.max 0
      (fun _ => stuckBoard)
      ⟨afterPop (initState cornerBoard 2 [] 0 0 7) 0 [], cornerBoard, stuckBoard⟩
      ⟨0, 0, 0, move_t.left, cornerBoard, none⟩ (Inv_popped_root cornerBoard 2 0 0 7) rfl
      (by decide)
    exact ⟨mem', g1, g3, g4⟩
  · obtain ⟨-, g2, g3⟩ := h5 sampleEngine maxPick 21 cornerBoard 2 propagation_t.max [] 0 0 7 0
      stuckBoard (fun _ => stuckBoard)
    obtain ⟨out, mem, g4⟩ := g3 (Or.inr ⟨rfl, by decide⟩)
    obtain ⟨g5, g6⟩ := g2 out mem g4
    exact ⟨out, mem, g4, g5, g6⟩

end Ai2048
